import Mathlib

/-!
Verification of the binary property-list ("bplist") codec of the go-plist
repository, shallowly embedded in Lean 4.

The embedding follows `bplist.go` (generator) and `bplist_parser.go`
(parser), together with the value model of `cf/types.go`.  Conventions of
the embedding:

* A byte stream is a `List Nat` whose elements are below 256 (the writers
  reduce modulo 256 exactly where Go's fixed-width casts truncate).
* Go's `uint64`/`uint8` arithmetic is modelled on `Nat` with explicit
  reductions modulo `2^64`/`2^8` at the points where Go wraps, and Go's
  shift semantics (a shift count of 64 or more yields 0) is modelled
  explicitly.
* Floating-point values are modelled by their IEEE-754 bit patterns:
  `float64` as a `Nat` below `2^64`, `float32` as a `Nat` below `2^32`.
  The codec only moves these bit patterns; the one genuine conversion in
  the codec (widening a 4-byte real to Go's `float64`) is exact, so a
  narrow real is represented by its 32-bit pattern.  A `cfDate` carries
  Go's `time.Time` instant as signed Unix nanoseconds (an `Int`).  The
  codec genuinely converts dates through `float64` arithmetic —
  `float64(t.In(time.UTC).UnixNano()) / float64(time.Second)` minus the
  Apple-epoch offset `978307200` on encode, and `val += 978307200;
  math.Modf(val); time.Unix(int64(sec), int64(fsec*1e9))` on decode — so
  the embedding includes an executable model of IEEE-754 binary64
  arithmetic (round to nearest, ties to even) over bit patterns, with
  Go's `math.Modf` mirrored branch-for-branch.  `t.UnixNano()` reduces
  the instant into `int64` range (`i64wrap`); `time.Unix(sec, nsec)` is
  modelled as the exact instant `sec*10^9 + nsec`; the conversion
  `int64(f)` for NaN, infinities and out-of-range values, which the Go
  specification leaves implementation-defined, is modelled as the amd64
  result `-2^63`.
* Go strings are modelled as lists of Unicode scalar values (runes); the
  UTF-8 byte form, which Go strings store, is recovered by `utf8Encode`,
  and comparisons/counts that Go performs on the byte form are performed
  on `utf8Encode` of the rune list.
* The parser's `io.ReadSeeker` is modelled by an explicit position into
  the byte list.  `binary.Read` of a fixed-width integer that runs past
  the end of the data leaves the destination zero (Go decodes only after
  a successful `io.ReadFull`), which `readFull` mirrors; a `[]byte`
  destination is filled as far as the data reaches (Go's fast path reads
  directly into the slice).
* `panic`/`recover` error handling becomes the `Except` monad; the
  parser's recursion (which is unbounded on adversarial input, see the
  analysis of self-references) is made total with an explicit fuel
  parameter, and exhausting the fuel is reported as the distinguished
  result `bplistError.fuelExhausted`, which corresponds to non-termination
  of the Go code, not to a Go error return.
-/

namespace GoPlist

/-- Big-endian byte serialization of `n` into exactly `w` bytes (the value is
reduced modulo `2^(8*w)`, matching Go's fixed-width integer casts). -/
def beBytes : Nat → Nat → List Nat
  | 0, _ => []
  | w + 1, n => beBytes w (n / 256) ++ [n % 256]

/-- Big-endian interpretation of a byte list. -/
def beVal (bs : List Nat) : Nat :=
  bs.foldl (fun acc b => acc * 256 + b) 0

/-- One bit step of the reflected CRC-32 computation (polynomial
`0xEDB88320`), as in Go's `hash/crc32` for the IEEE table. -/
def crc32Step (c : Nat) : Nat :=
  if c % 2 = 1 then Nat.xor (c / 2) 0xEDB88320 else c / 2

/-- Feed one byte into a running CRC-32 value. -/
def crc32Byte (c b : Nat) : Nat :=
  Nat.iterate crc32Step 8 (Nat.xor c (b % 256))

/-- Modelled from the source `cf/types.go` dependency `crc32.ChecksumIEEE`:
the IEEE CRC-32 checksum of a byte sequence. -/
def crc32 (bs : List Nat) : Nat :=
  Nat.xor (bs.foldl crc32Byte 0xFFFFFFFF) 0xFFFFFFFF

/-- A Go string, modelled as its list of runes (see the header comment). -/
abbrev GoStr := List Nat

/-- A Unicode scalar value: what a valid Go string's `range` yields and what
`utf16.Encode` passes through unreplaced. -/
def validRune (r : Nat) : Prop :=
  r < 0xD800 ∨ (0xE000 ≤ r ∧ r < 0x110000)

instance (r : Nat) : Decidable (validRune r) := by
  unfold validRune; infer_instance

/-- UTF-8 bytes of one rune (standard encoding; scalar values only are fed
to it by the well-formedness hypotheses). -/
def utf8EncodeChar (r : Nat) : List Nat :=
  if r < 0x80 then [r]
  else if r < 0x800 then
    [0xC0 + r / 0x40, 0x80 + r % 0x40]
  else if r < 0x10000 then
    [0xE0 + r / 0x1000, 0x80 + r / 0x40 % 0x40, 0x80 + r % 0x40]
  else
    [0xF0 + r / 0x40000, 0x80 + r / 0x1000 % 0x40, 0x80 + r / 0x40 % 0x40,
      0x80 + r % 0x40]

/-- UTF-8 byte form of a Go string; Go strings store exactly these bytes, so
byte-level operations on a string (`len`, `[]byte`, `<`) act on this list. -/
def utf8Encode (s : GoStr) : List Nat :=
  (s.map utf8EncodeChar).flatten

/-- Whether a byte is a UTF-8 continuation byte. -/
def utf8Cont (b : Nat) : Bool := 0x80 ≤ b ∧ b < 0xC0

/-- Worker for `utf8Decode`; structurally recursive on the fuel. -/
def utf8DecodeFuel : Nat → List Nat → List Nat
  | 0, _ => []
  | _ + 1, [] => []
  | f + 1, b :: bs =>
    if b < 0x80 then b :: utf8DecodeFuel f bs
    else if b < 0xC2 then 0xFFFD :: utf8DecodeFuel f bs
    else if b < 0xE0 then
      match bs with
      | b1 :: rest =>
        if utf8Cont b1 then
          ((b - 0xC0) * 0x40 + (b1 - 0x80)) :: utf8DecodeFuel f rest
        else 0xFFFD :: utf8DecodeFuel f (b1 :: rest)
      | [] => [0xFFFD]
    else if b < 0xF0 then
      match bs with
      | b1 :: b2 :: rest =>
        if utf8Cont b1 ∧ utf8Cont b2 then
          ((b - 0xE0) * 0x1000 + (b1 - 0x80) * 0x40 + (b2 - 0x80))
            :: utf8DecodeFuel f rest
        else 0xFFFD :: utf8DecodeFuel f (b1 :: b2 :: rest)
      | [_] => [0xFFFD, 0xFFFD]
      | [] => [0xFFFD]
    else if b < 0xF5 then
      match bs with
      | b1 :: b2 :: b3 :: rest =>
        if utf8Cont b1 ∧ utf8Cont b2 ∧ utf8Cont b3 then
          ((b - 0xF0) * 0x40000 + (b1 - 0x80) * 0x1000 + (b2 - 0x80) * 0x40
            + (b3 - 0x80)) :: utf8DecodeFuel f rest
        else 0xFFFD :: utf8DecodeFuel f (b1 :: b2 :: b3 :: rest)
      | [_, _] => [0xFFFD, 0xFFFD, 0xFFFD]
      | [_] => [0xFFFD, 0xFFFD]
      | [] => [0xFFFD]
    else 0xFFFD :: utf8DecodeFuel f bs

/-- Decode a UTF-8 byte list to runes.  Malformed input produces replacement
characters U+FFFD, approximating how Go treats invalid bytes (the codec
claims only rely on the behaviour on valid encodings).  Defined through
`utf8DecodeFuel`, whose fuel argument only makes the recursion structural;
each step consumes at least one byte, so the byte count is enough fuel. -/
def utf8Decode (l : List Nat) : List Nat := utf8DecodeFuel l.length l

/-- UTF-16 code units of one rune, as produced by Go's `utf16.Encode`
(surrogate or out-of-range runes become U+FFFD). -/
def utf16EncodeChar (r : Nat) : List Nat :=
  if r < 0x10000 then
    if 0xD800 ≤ r ∧ r < 0xE000 then [0xFFFD] else [r]
  else if r < 0x110000 then
    [0xD800 + (r - 0x10000) / 0x400, 0xDC00 + (r - 0x10000) % 0x400]
  else [0xFFFD]

/-- UTF-16 code units of a Go string (`utf16.Encode` of its runes). -/
def utf16Encode (s : GoStr) : List Nat :=
  (s.map utf16EncodeChar).flatten

/-- Worker for `utf16Decode`; structurally recursive on the fuel. -/
def utf16DecodeFuel : Nat → List Nat → List Nat
  | 0, _ => []
  | _ + 1, [] => []
  | f + 1, u :: us =>
    if 0xD800 ≤ u ∧ u < 0xDC00 then
      match us with
      | u2 :: rest =>
        if 0xDC00 ≤ u2 ∧ u2 < 0xE000 then
          (0x10000 + (u - 0xD800) * 0x400 + (u2 - 0xDC00)) :: utf16DecodeFuel f rest
        else 0xFFFD :: utf16DecodeFuel f (u2 :: rest)
      | [] => [0xFFFD]
    else if 0xDC00 ≤ u ∧ u < 0xE000 then 0xFFFD :: utf16DecodeFuel f us
    else u :: utf16DecodeFuel f us

/-- Decode UTF-16 code units back to runes, as Go's `utf16.Decode` does
(unpaired surrogates become U+FFFD).  The fuel of the worker only makes the
recursion structural; the unit count is enough fuel. -/
def utf16Decode (l : List Nat) : List Nat := utf16DecodeFuel l.length l

/-- Go's `<` on strings: lexicographic comparison of the UTF-8 byte forms. -/
def goStrLt (a b : GoStr) : Prop :=
  List.Lex (· < ·) (utf8Encode a) (utf8Encode b)

instance (a b : GoStr) : Decidable (goStrLt a b) := by
  unfold goStrLt; infer_instance

/-- Whether a 64-bit IEEE-754 bit pattern denotes a NaN (all-ones exponent,
nonzero mantissa).  Go map lookups with such a `float64` key never hit. -/
def isNaN64 (bits : Nat) : Prop :=
  bits / 2 ^ 52 % 2 ^ 11 = 0x7FF ∧ bits % 2 ^ 52 ≠ 0

instance (bits : Nat) : Decidable (isNaN64 bits) := by
  unfold isNaN64; infer_instance

/-- Whether a 32-bit IEEE-754 bit pattern denotes a NaN. -/
def isNaN32 (bits : Nat) : Prop :=
  bits / 2 ^ 23 % 2 ^ 8 = 0xFF ∧ bits % 2 ^ 23 ≠ 0

instance (bits : Nat) : Decidable (isNaN32 bits) := by
  unfold isNaN32; infer_instance

/-- Fuel-bounded binary logarithm (structural recursion so that the kernel
can evaluate it; `natLog2` below supplies enough fuel).  Numbers of 64 bits
or more are reduced in 64-bit chunks, keeping the recursion shallow on the
wide intermediates of `roundPosMag`. -/
def log2F : Nat → Nat → Nat
  | 0, _ => 0
  | fuel + 1, n =>
    if 2 ^ 64 ≤ n then log2F fuel (n / 2 ^ 64) + 64
    else if 2 ≤ n then log2F fuel (n / 2) + 1 else 0

/-- `Nat.log2`, made kernel-reducible. -/
def natLog2 (n : Nat) : Nat := log2F n n

/-- Round the positive rational `num / den` to IEEE-754 binary64, to
nearest with ties to even, returning the magnitude bits (sign excluded).
The value is scaled onto the fixed-point grid `2^-1074` (the subnormal
ulp); `eB` is the floored base-2 logarithm biased by 1074, from which the
rounding precision, the subnormal/normal split, and the exponent field
follow.  A round-up that crosses a binade or overflows to infinity lands on
the correct bit pattern because the packed form is contiguous in the
ordering of magnitudes. -/
def roundPosMag (num den : Nat) : Nat :=
  let nB := num * 2 ^ 1074
  let eB := natLog2 (nB / den)
  let prec := eB - 52
  let den2 := den * 2 ^ prec
  let q := nB / den2
  let r := nB % den2
  let q2 := if den2 < 2 * r ∨ (2 * r = den2 ∧ q % 2 = 1) then q + 1 else q
  if eB < 52 then q2
  else if 2098 ≤ eB then 0x7FF0000000000000
  else (eB - 51) * 2 ^ 52 + (q2 - 2 ^ 52)

/-- The canonical quiet NaN the operations below produce. -/
def qNaNBits : Nat := 0x7FF8000000000000

/-- Signed infinity. -/
def infBits (s : Bool) : Nat :=
  if s then 0xFFF0000000000000 else 0x7FF0000000000000

/-- Signed zero. -/
def zeroBits (s : Bool) : Nat := if s then 0x8000000000000000 else 0

/-- Sign bit of a binary64 pattern. -/
def f64Sign (b : Nat) : Bool := 0x8000000000000000 ≤ b

/-- Exponent field of a binary64 pattern. -/
def f64ExpF (b : Nat) : Nat := b / 2 ^ 52 % 2 ^ 11

/-- Mantissa field of a binary64 pattern. -/
def f64ManF (b : Nat) : Nat := b % 2 ^ 52

/-- NaN test (all-ones exponent, nonzero mantissa). -/
def f64IsNaN (b : Nat) : Bool := f64ExpF b == 2047 && f64ManF b != 0

/-- Infinity test. -/
def f64IsInf (b : Nat) : Bool := f64ExpF b == 2047 && f64ManF b == 0

/-- Zero test (either sign). -/
def f64IsZero (b : Nat) : Bool := f64ExpF b == 0 && f64ManF b == 0

/-- Integral significand: the mantissa field with the implicit leading one
of a normal number made explicit. -/
def f64Mant (b : Nat) : Nat :=
  if f64ExpF b == 0 then f64ManF b else 2 ^ 52 + f64ManF b

/-- Exponent of the integral significand: a finite pattern's magnitude is
`f64Mant b * 2 ^ f64E2 b`. -/
def f64E2 (b : Nat) : Int :=
  if f64ExpF b == 0 then -1074 else (f64ExpF b : Int) - 1075

/-- Sign flip (the exact negation). -/
def f64Neg (b : Nat) : Nat := if b < 2 ^ 63 then b + 2 ^ 63 else b - 2 ^ 63

/-- Round the positive dyadic `n * 2^E` to binary64 magnitude bits. -/
def roundMag (n : Nat) (E : Int) : Nat :=
  if 0 ≤ E then roundPosMag (n * 2 ^ E.toNat) 1
  else roundPosMag n (2 ^ (-E).toNat)

/-- Round the signed dyadic `num * 2^E` to binary64 bits; an exact zero
rounds to `+0`, as round-to-nearest prescribes for an exact sum. -/
def roundDyadic (num : Int) (E : Int) : Nat :=
  if 0 < num then roundMag num.toNat E
  else if num < 0 then 2 ^ 63 + roundMag (-num).toNat E
  else 0

/-- IEEE-754 binary64 addition, round to nearest, ties to even.  Any NaN
operand yields the quiet NaN; infinities of opposite sign yield NaN; a sum
of two zeros keeps the sign only when both are negative; a finite sum is
computed exactly and rounded once. -/
def f64Add (a b : Nat) : Nat :=
  if f64IsNaN a || f64IsNaN b then qNaNBits
  else if f64IsInf a && f64IsInf b then
    (if f64Sign a == f64Sign b then a else qNaNBits)
  else if f64IsInf a then a
  else if f64IsInf b then b
  else if f64IsZero a && f64IsZero b then zeroBits (f64Sign a && f64Sign b)
  else
    let E := min (f64E2 a) (f64E2 b)
    let na : Int := (f64Mant a * 2 ^ (f64E2 a - E).toNat : Nat)
    let nb : Int := (f64Mant b * 2 ^ (f64E2 b - E).toNat : Nat)
    roundDyadic ((if f64Sign a then -na else na)
      + (if f64Sign b then -nb else nb)) E

/-- binary64 subtraction: `a + (-b)` exactly, as IEEE-754 defines it. -/
def f64Sub (a b : Nat) : Nat := f64Add a (f64Neg b)

/-- binary64 multiplication (needed for `fsec * float64(time.Second)` in
the date decode path). -/
def f64Mul (a b : Nat) : Nat :=
  if f64IsNaN a || f64IsNaN b then qNaNBits
  else if (f64IsInf a && f64IsZero b) || (f64IsZero a && f64IsInf b) then
    qNaNBits
  else if f64IsInf a || f64IsInf b then infBits (f64Sign a != f64Sign b)
  else if f64IsZero a || f64IsZero b then zeroBits (f64Sign a != f64Sign b)
  else
    let m : Int := (f64Mant a * f64Mant b : Nat)
    roundDyadic (if f64Sign a != f64Sign b then -m else m)
      (f64E2 a + f64E2 b)

/-- binary64 division (the `/ float64(time.Second)` of `writeDateTag`). -/
def f64Div (a b : Nat) : Nat :=
  if f64IsNaN a || f64IsNaN b then qNaNBits
  else if f64IsInf a && f64IsInf b then qNaNBits
  else if f64IsZero a && f64IsZero b then qNaNBits
  else if f64IsInf a || f64IsZero b then infBits (f64Sign a != f64Sign b)
  else if f64IsInf b || f64IsZero a then zeroBits (f64Sign a != f64Sign b)
  else
    let E := f64E2 a - f64E2 b
    let mag := roundPosMag (f64Mant a * 2 ^ E.toNat)
      (f64Mant b * 2 ^ (-E).toNat)
    if f64Sign a != f64Sign b then 2 ^ 63 + mag else mag

/-- Go's `float64(n)` for an integer `n`: correctly rounded. -/
def f64OfInt (n : Int) : Nat := roundDyadic n 0

/-- Go's `int64(f)` for a `float64`: truncation toward zero.  For NaN,
infinities and values outside `int64` range the Go specification leaves the
result implementation-defined; the gc compiler on amd64 (`CVTTSD2SI`)
produces `-2^63`, which is what this model fixes. -/
def f64TruncInt (b : Nat) : Int :=
  if f64ExpF b == 2047 then -(2 ^ 63)
  else
    let m : Nat := if 0 ≤ f64E2 b then f64Mant b * 2 ^ (f64E2 b).toNat
                   else f64Mant b / 2 ^ (-(f64E2 b)).toNat
    let t : Int := if f64Sign b then -(m : Int) else (m : Int)
    if t < -(2 ^ 63) ∨ 2 ^ 63 ≤ t then -(2 ^ 63) else t

/-- Go's `f < 1` on a binary64 pattern (false for NaN). -/
def f64LtOne (b : Nat) : Bool :=
  !(f64IsNaN b) && (f64Sign b || decide (f64ExpF b < 1023))

/-- Go's `f < 0` on a binary64 pattern (false for NaN and `-0`). -/
def f64LtZero (b : Nat) : Bool := !(f64IsNaN b) && f64Sign b && !(f64IsZero b)

/-- The `f >= 1` arm of Go's `math.Modf`: clear the mantissa bits below the
binary point to obtain the integer part, subtract for the fraction.  An
exponent field of 2047 takes the `e >= 52` branch, so `Modf(+Inf) = (+Inf,
NaN)` and `Modf(NaN) = (NaN, NaN)` fall out exactly as in Go. -/
def f64ModfPos (b : Nat) : Nat × Nat :=
  let e := f64ExpF b - 1023
  let bi := if e < 52 then b / 2 ^ (52 - e) * 2 ^ (52 - e) else b
  (bi, f64Sub b bi)

/-- Go's `math.Modf` on a non-negative (or NaN) pattern: below 1 the
integer part is zero (`(f, f)` for a zero, keeping its sign), otherwise the
mantissa split above. -/
def f64ModfNN (b : Nat) : Nat × Nat :=
  if f64LtOne b then (if f64IsZero b then (b, b) else (0, b))
  else f64ModfPos b

/-- Go's `math.Modf`: both results carry the sign of the argument; a
negative argument recurses on its negation, as the Go source does. -/
def f64Modf (b : Nat) : Nat × Nat :=
  if f64LtZero b then
    let p := f64ModfNN (f64Neg b)
    (f64Neg p.1, f64Neg p.2)
  else f64ModfNN b

/-- Reduction of an integer into `int64` range, as Go's wrapping conversion
performs it (`t.UnixNano()` truncates the instant to `int64`). -/
def i64wrap (n : Int) : Int := (n + 2 ^ 63) % 2 ^ 64 - 2 ^ 63

/-- The bits of `float64(time.Second)`, that is `1e9` (`0x41CDCD6500000000`;
the integer is exactly representable). -/
def f64Sec : Nat := f64OfInt 1000000000

/-- The bits of the Apple-epoch offset `978307200.0`
(`0x41CD27E440000000`; exactly representable). -/
def f64AppleEpoch : Nat := f64OfInt 978307200

/-- The wire bits `writeDateTag` computes from an instant of `ns` Unix
nanoseconds: `val := float64(t.In(time.UTC).UnixNano()) /
float64(time.Second); val -= 978307200` (`bplist.go`). -/
def encodeDateBits (ns : Int) : Nat :=
  f64Sub (f64Div (f64OfInt (i64wrap ns)) f64Sec) f64AppleEpoch

/-- The instant the parser's `bpTagDate` case reconstructs from the wire
bits: `val += 978307200; sec, fsec := math.Modf(val);
time.Unix(int64(sec), int64(fsec*float64(time.Second)))`
(`bplist_parser.go`), with `time.Unix(sec, nsec)` denoting the instant
`sec*10^9 + nsec` nanoseconds. -/
def decodeDateNs (bits : Nat) : Int :=
  let val := f64Add bits f64AppleEpoch
  let p := f64Modf val
  f64TruncInt p.1 * 1000000000 + f64TruncInt (f64Mul p.2 f64Sec)

/-- The decode of the encode: the (lossy) normalization a date instant
undergoes in one trip through the wire. -/
def dateRound (ns : Int) : Int := decodeDateNs (encodeDateBits ns)

/-- The value model of `cf/types.go` (there the lowercase `cfValue` family
used by `bplist.go`).  A dictionary's parallel `keys`/`values` slices, which
are index-aligned and of equal length by the model invariant, are represented
as a single list of key-value pairs.  `cfNil` models Go's nil `cfValue`
interface value, which the binary parser returns for `0x0n` fill tags. -/
inductive cfValue where
  | cfDictionary (entries : List (GoStr × cfValue))
  | cfArray (values : List cfValue)
  | cfString (s : GoStr)
  | cfNumber (signed : Bool) (value : Nat)
  | cfReal (wide : Bool) (bits : Nat)
  | cfBoolean (b : Bool)
  | cfData (bytes : List Nat)
  | cfDate (ns : Int)
  | cfUID (value : Nat)
  | cfNil

/-- A `cfValue` with Go pointer identity made explicit: dictionaries and
arrays carry the identity (`id`) of the Go heap object.  The generator's
`objmap` keys container values by pointer (`Dictionary.Hash`/`Array.Hash`
return the receiver), which the `id` field mirrors. -/
inductive AVal where
  | aDict (id : Nat) (entries : List (GoStr × AVal))
  | aArray (id : Nat) (values : List AVal)
  | aString (s : GoStr)
  | aNumber (signed : Bool) (value : Nat)
  | aReal (wide : Bool) (bits : Nat)
  | aBoolean (b : Bool)
  | aData (bytes : List Nat)
  | aDate (ns : Int)
  | aUID (value : Nat)
  | aNil

/-- The dynamic type and value of the `interface{}` returned by `hash()`
(`Hash()` in `cf/types.go`): map keys of different dynamic Go types are
distinct, which the constructors mirror.  A signed number hashes as an
`int64`, an unsigned one as a `uint64`; a wide real hashes as a `float64`,
a narrow one as a `float32`; data hashes as its CRC-32 checksum (`uint32`);
a date hashes as its `time.Time`, which the model identifies with its
instant; containers hash as their own pointer. -/
inductive hashKey where
  | hString (s : GoStr)
  | hNumS (bits : Nat)
  | hNumU (value : Nat)
  | hRealW (bits : Nat)
  | hRealN (bits : Nat)
  | hBool (b : Bool)
  | hData (crc : Nat)
  | hDate (ns : Int)
  | hUID (value : Nat)
  | hContainer (id : Nat)
  | hNil
deriving DecidableEq

/-- Hash of a value (`pval.hash()` of `bplist.go`, per `cf/types.go`). -/
def hashOfA : AVal → hashKey
  | .aDict i _ => .hContainer i
  | .aArray i _ => .hContainer i
  | .aString s => .hString s
  | .aNumber s v => if s then .hNumS v else .hNumU v
  | .aReal w b => if w then .hRealW b else .hRealN b
  | .aBoolean b => .hBool b
  | .aData bs => .hData (crc32 bs)
  | .aDate d => .hDate d
  | .aUID v => .hUID v
  | .aNil => .hNil

/-- Whether a Go map lookup with this key can hit: a `float32`/`float64` NaN
key never compares equal to anything, so entries stored under it are
unretrievable. -/
def findableKey : hashKey → Bool
  | .hRealW b => !decide (isNaN64 b)
  | .hRealN b => !decide (isNaN32 b)
  | _ => true

/-- Lookup in the generator's `objmap`.  The list is prepended on update, so
taking the first match gives Go's overwrite semantics. -/
def lookupObjmap (m : List (hashKey × Nat)) (k : hashKey) : Option Nat :=
  if findableKey k then (m.find? (fun p => decide (p.1 = k))).map Prod.snd
  else none

/-- Source `bplist.go` `isUniquedBplistValue`: the kinds deduplicated by
value (`cfString`, `*cfNumber`, `*cfReal`, `cfDate`, `cfData`). -/
def isUniquedBplistValue : AVal → Bool
  | .aString _ => true
  | .aNumber _ _ => true
  | .aReal _ _ => true
  | .aDate _ => true
  | .aData _ => true
  | _ => false

/-- Insert an entry into a list of dictionary entries ordered by Go string
comparison of the keys (the comparison `Less` of `cf/types.go` acts on the
UTF-8 byte forms). -/
def insertEntry (e : GoStr × cfValue) :
    List (GoStr × cfValue) → List (GoStr × cfValue)
  | [] => [e]
  | f :: fs => if goStrLt f.1 e.1 then f :: insertEntry e fs else e :: f :: fs

/-- Sort dictionary entries by key (`(*cfDictionary).sort`, a parallel sort
of the `keys` and `values` slices by `keys[i] < keys[j]`). -/
def sortEntries : List (GoStr × cfValue) → List (GoStr × cfValue)
  | [] => []
  | e :: es => insertEntry e (sortEntries es)

mutual
/-- Sort every dictionary of a tree by key.  The Go generator performs this
sort in place on each dictionary when `flattenPlistValue` first visits it;
since every observation of the entries (the table slot, the key/value
flatten order and `writeDictionaryTag`) happens after the sort, sorting the
whole tree up front is equivalent. -/
def sortTree : cfValue → cfValue
  | .cfDictionary es => .cfDictionary (sortEntries (sortTreeEntries es))
  | .cfArray vs => .cfArray (sortTreeList vs)
  | v => v

/-- Sort every dictionary in each element of a list of values. -/
def sortTreeList : List cfValue → List cfValue
  | [] => []
  | v :: vs => sortTree v :: sortTreeList vs

/-- Sort every dictionary below each entry of a dictionary. -/
def sortTreeEntries : List (GoStr × cfValue) → List (GoStr × cfValue)
  | [] => []
  | e :: es => (e.1, sortTree e.2) :: sortTreeEntries es
end

mutual
/-- Attach distinct identities to the containers of a tree (pre-order
numbering from `n`), modelling that every container occurrence is a distinct
Go heap pointer.  Returns the annotated tree and the next unused identity. -/
def annotateV : cfValue → Nat → AVal × Nat
  | .cfDictionary es, n =>
    let r := annotateEntries es (n + 1)
    (.aDict n r.1, r.2)
  | .cfArray vs, n =>
    let r := annotateList vs (n + 1)
    (.aArray n r.1, r.2)
  | .cfString s, _n => (.aString s, _n)
  | .cfNumber s v, _n => (.aNumber s v, _n)
  | .cfReal w b, _n => (.aReal w b, _n)
  | .cfBoolean b, _n => (.aBoolean b, _n)
  | .cfData bs, _n => (.aData bs, _n)
  | .cfDate d, _n => (.aDate d, _n)
  | .cfUID v, _n => (.aUID v, _n)
  | .cfNil, _n => (.aNil, _n)

/-- Annotate each element of a list of values. -/
def annotateList : List cfValue → Nat → List AVal × Nat
  | [], n => ([], n)
  | v :: vs, n =>
    let r := annotateV v n
    let rs := annotateList vs r.2
    (r.1 :: rs.1, rs.2)

/-- Annotate each value of a list of dictionary entries. -/
def annotateEntries : List (GoStr × cfValue) → Nat → List (GoStr × AVal) × Nat
  | [], n => ([], n)
  | e :: es, n =>
    let r := annotateV e.2 n
    let rs := annotateEntries es r.2
    ((e.1, r.1) :: rs.1, rs.2)
end

mutual
/-- Forget the container identities again. -/
def eraseA : AVal → cfValue
  | .aDict _ es => .cfDictionary (eraseAEntries es)
  | .aArray _ vs => .cfArray (eraseAList vs)
  | .aString s => .cfString s
  | .aNumber s v => .cfNumber s v
  | .aReal w b => .cfReal w b
  | .aBoolean b => .cfBoolean b
  | .aData bs => .cfData bs
  | .aDate d => .cfDate d
  | .aUID v => .cfUID v
  | .aNil => .cfNil

/-- Forget identities in a list of values. -/
def eraseAList : List AVal → List cfValue
  | [] => []
  | v :: vs => eraseA v :: eraseAList vs

/-- Forget identities in a list of dictionary entries. -/
def eraseAEntries : List (GoStr × AVal) → List (GoStr × cfValue)
  | [] => []
  | e :: es => (e.1, eraseA e.2) :: eraseAEntries es
end

/-- State of the generator's flatten pass: the uniquing map and the object
table (source `bplistGenerator.objmap`/`objtable`). -/
structure FlattenSt where
  objmap : List (hashKey × Nat)
  objtable : List AVal

/-- Record a value in the state: `objmap[key] = len(objtable)` followed by
appending the value to the table (source `bplist.go` lines 63-64). -/
def pushSlot (st : FlattenSt) (key : hashKey) (pval : AVal) : FlattenSt :=
  { objmap := (key, st.objtable.length) :: st.objmap,
    objtable := st.objtable ++ [pval] }

/-- Flatten one dictionary key: the generator flattens each key as the
string value `cfString(k)`, sharing the uniquing map with all other strings.
This is `flattenPlistValue` specialized to a string, which never recurses. -/
def flattenStringValue (st : FlattenSt) (s : GoStr) : FlattenSt :=
  if (lookupObjmap st.objmap (.hString s)).isSome then st
  else pushSlot st (.hString s) (.aString s)

mutual
/-- Source `bplistGenerator.flattenPlistValue` (bplist.go lines 55-80) on a
tree whose dictionaries are pre-sorted (see `sortTree`): uniquable kinds
whose hash is already mapped are skipped; otherwise the value is recorded,
and containers then flatten their children (for a dictionary: all keys, as
string values, then all values, in key-sorted order). -/
def flattenPlistValue (st : FlattenSt) (pval : AVal) : FlattenSt :=
  if isUniquedBplistValue pval
      && (lookupObjmap st.objmap (hashOfA pval)).isSome then st
  else
    let st1 := pushSlot st (hashOfA pval) pval
    match pval with
    | .aDict _ es => flattenEntryValues (flattenEntryKeys st1 es) es
    | .aArray _ vs => flattenValueList st1 vs
    | _ => st1

/-- Flatten the key strings of a dictionary, left to right. -/
def flattenEntryKeys (st : FlattenSt) : List (GoStr × AVal) → FlattenSt
  | [] => st
  | e :: es => flattenEntryKeys (flattenStringValue st e.1) es

/-- Flatten the values of a dictionary, left to right. -/
def flattenEntryValues (st : FlattenSt) : List (GoStr × AVal) → FlattenSt
  | [] => st
  | e :: es => flattenEntryValues (flattenPlistValue st e.2) es

/-- Flatten the elements of an array, left to right. -/
def flattenValueList (st : FlattenSt) : List AVal → FlattenSt
  | [] => st
  | v :: vs => flattenValueList (flattenPlistValue st v) vs
end

/-- Failures of the generator (internal-invariant violations; the Go code
panics with a descriptive error which `Encode` recovers into its return). -/
inductive genError where
  | illegalIntSize
  | keyNotFound
  | valueNotFound
deriving DecidableEq

/-- Source `minimumSizeForInt`: smallest of 1/2/4/8 bytes holding `n`. -/
def minimumSizeForInt (n : Nat) : Nat :=
  if n ≤ 0xff then 1
  else if n ≤ 0xffff then 2
  else if n ≤ 0xffffffff then 4
  else 8

/-- Source `writeSizedInt`: a big-endian integer of an explicit legal width
(1, 2, 4 or 8 bytes; the fixed-width cast truncates the value). -/
def writeSizedInt (n nbytes : Nat) : Except genError (List Nat) :=
  if nbytes = 1 ∨ nbytes = 2 ∨ nbytes = 4 ∨ nbytes = 8 then
    .ok (beBytes nbytes n)
  else .error .illegalIntSize

/-- Source `writeBoolTag`. -/
def writeBoolTag (v : Bool) : List Nat :=
  [if v then 0x09 else 0x08]

/-- Source `writeIntTag`: tag `0x1n` with the smallest power-of-two width
among 1/2/4/8 bytes that holds the (unsigned) 64-bit value. -/
def writeIntTag (n : Nat) : List Nat :=
  if n ≤ 0xff then 0x10 :: beBytes 1 n
  else if n ≤ 0xffff then 0x11 :: beBytes 2 n
  else if n ≤ 0xffffffff then 0x12 :: beBytes 4 n
  else 0x13 :: beBytes 8 n

/-- Source `writeUIDTag`: tag `0x8n` with `n = byteWidth - 1`. -/
def writeUIDTag (u : Nat) : List Nat :=
  (0x80 + (minimumSizeForInt u - 1)) :: beBytes (minimumSizeForInt u) u

/-- Source `writeRealTag` at the bit level: tag `0x23` with 8 bytes for a
wide real, tag `0x22` with 4 bytes for a narrow one. -/
def writeRealTag (wide : Bool) (bits : Nat) : List Nat :=
  if wide then 0x23 :: beBytes 8 bits else 0x22 :: beBytes 4 bits

/-- Source `writeDateTag`: tag `0x33` with the 8 bytes of the
seconds-since-Apple-epoch `float64` the source computes from the instant
(`encodeDateBits`). -/
def writeDateTag (ns : Int) : List Nat :=
  0x33 :: beBytes 8 (encodeDateBits ns)

/-- Source `writeCountedTag`: the low nibble carries the count, with `0xF`
marking a following nested integer holding the real count. -/
def writeCountedTag (tag count : Nat) : List Nat :=
  if count ≥ 0xF then (tag + 0xF) :: writeIntTag count
  else [tag + count]

/-- Source `writeDataTag`. -/
def writeDataTag (data : List Nat) : List Nat :=
  writeCountedTag 0x40 data.length ++ data

/-- Source `writeStringTag`: ASCII tag with the UTF-8 bytes when every rune
is at most `0xFF`, otherwise big-endian UTF-16; the count is the byte length
in the first case and the code-unit count in the second. -/
def writeStringTag (s : GoStr) : List Nat :=
  if s.any (fun r => 0xFF < r) then
    writeCountedTag 0x60 (utf16Encode s).length
      ++ ((utf16Encode s).map (beBytes 2)).flatten
  else
    writeCountedTag 0x50 (utf8Encode s).length ++ utf8Encode s

/-- Source `indexForPlistValue`: the object-table slot recorded for a value
(by value hash for uniqued kinds, by pointer for containers). -/
def indexForPlistValue (objmap : List (hashKey × Nat)) (pval : AVal) :
    Option Nat :=
  lookupObjmap objmap (hashOfA pval)

/-- Source `writeDictionaryTag` on an (already sorted) dictionary: a counted
tag, then every key's slot index, then every value's slot index, each
reference `objectRefSize` bytes wide. -/
def writeDictionaryTag (objmap : List (hashKey × Nat)) (refSize : Nat)
    (es : List (GoStr × AVal)) : Except genError (List Nat) := do
  let keyIdxs ← es.mapM (fun e =>
    match lookupObjmap objmap (.hString e.1) with
    | some i => Except.ok i
    | none => Except.error genError.keyNotFound)
  let valIdxs ← es.mapM (fun e =>
    match indexForPlistValue objmap e.2 with
    | some i => Except.ok i
    | none => Except.error genError.valueNotFound)
  let refs ← (keyIdxs ++ valIdxs).mapM (fun i => writeSizedInt i refSize)
  return writeCountedTag 0xD0 es.length ++ refs.flatten

/-- Source `writeArrayTag`. -/
def writeArrayTag (objmap : List (hashKey × Nat)) (refSize : Nat)
    (vs : List AVal) : Except genError (List Nat) := do
  let idxs ← vs.mapM (fun v =>
    match indexForPlistValue objmap v with
    | some i => Except.ok i
    | none => Except.error genError.valueNotFound)
  let refs ← idxs.mapM (fun i => writeSizedInt i refSize)
  return writeCountedTag 0xA0 vs.length ++ refs.flatten

/-- Source `writePlistValue`: serialize one object-table slot (a nil value
writes nothing). -/
def writePlistValue (objmap : List (hashKey × Nat)) (refSize : Nat) :
    AVal → Except genError (List Nat)
  | .aDict _ es => writeDictionaryTag objmap refSize es
  | .aArray _ vs => writeArrayTag objmap refSize vs
  | .aString s => .ok (writeStringTag s)
  | .aNumber _ v => .ok (writeIntTag v)
  | .aReal w b => .ok (writeRealTag w b)
  | .aBoolean b => .ok (writeBoolTag b)
  | .aData bs => .ok (writeDataTag bs)
  | .aDate d => .ok (writeDateTag d)
  | .aUID u => .ok (writeUIDTag u)
  | .aNil => .ok []

/-- The fixed 32-byte trailer (source `bplistTrailer`). -/
structure bplistTrailer where
  unused : List Nat
  sortVersion : Nat
  offsetIntSize : Nat
  objectRefSize : Nat
  numObjects : Nat
  topObject : Nat
  offsetTableOffset : Nat

/-- Byte form of the trailer, as `binary.Write` produces it. -/
def trailerBytes (t : bplistTrailer) : List Nat :=
  t.unused.map (· % 256)
    ++ [t.sortVersion % 256, t.offsetIntSize % 256, t.objectRefSize % 256]
    ++ beBytes 8 t.numObjects ++ beBytes 8 t.topObject
    ++ beBytes 8 t.offsetTableOffset

/-- The 8-byte document header `"bplist00"`. -/
def bplistHeader : List Nat := [0x62, 0x70, 0x6C, 0x69, 0x73, 0x74, 0x30, 0x30]

/-- Byte offsets at which consecutive records start, from a base offset. -/
def offsetsFrom (base : Nat) : List (List Nat) → List Nat
  | [] => []
  | r :: rs => base :: offsetsFrom (base + r.length) rs

/-- Source `bplistGenerator.generateDocument`: flatten the (sorted,
identity-annotated) tree into the object table, serialize every slot in
table order recording its offset, then append the offset table and the
trailer with the computed minimal widths. -/
def generateDocument (root : cfValue) : Except genError (List Nat) := do
  let aroot := (annotateV (sortTree root) 0).1
  let st := flattenPlistValue ⟨[], []⟩ aroot
  let numObjects := st.objtable.length
  let objectRefSize := minimumSizeForInt numObjects
  let recs ← st.objtable.mapM (writePlistValue st.objmap objectRefSize)
  let offsets := offsetsFrom 8 recs
  let offsetTableOffset := 8 + (recs.map List.length).sum
  let offsetIntSize := minimumSizeForInt offsetTableOffset
  let topObject := (lookupObjmap st.objmap (hashOfA aroot)).getD 0
  let otBytes ← offsets.mapM (fun o => writeSizedInt o offsetIntSize)
  return bplistHeader ++ recs.flatten ++ otBytes.flatten
    ++ trailerBytes ⟨[0, 0, 0, 0, 0], 0, offsetIntSize, objectRefSize,
        numObjects, topObject, offsetTableOffset⟩

/-- Reduction modulo `2^64`, applied exactly where Go's `uint64` arithmetic
wraps. -/
def u64 (n : Nat) : Nat := n % 2 ^ 64

/-- Go's `uint64` left shift: a shift count of 64 or more yields 0. -/
def goShl64 (n k : Nat) : Nat := if 64 ≤ k then 0 else u64 (n * 2 ^ k)

/-- Failures of the binary parser.  Each constructor corresponds to one
`panic` site of `bplist_parser.go` (the Go messages carry offsets/indices;
only the identity of the site matters here).  `fuelExhausted` is not a Go
error: it marks that the modelled recursion exceeded the fuel bound, which
in Go is unbounded recursion. -/
inductive bplistError where
  | badMagic
  | badVersion
  | ioError
  | offsetTableAfterTrailer
  | offsetTableInHeader
  | trailingGarbage
  | tooManyObjects
  | refWidthTooSmall
  | offsetWidthTooSmall
  | topObjectOutOfRange
  | objectBeyondTable
  | illegalIntSize
  | illegalFloatSize
  | dataTooLong
  | stringTooLong
  | listTooLong
  | invalidEntryIndex
  | selfReferentialDictKey
  | selfReferentialDictValue
  | selfReferentialArrayValue
  | nonStringDictKey
  | unexpectedAtom
  | notInObjectTable
  | fuelExhausted
deriving DecidableEq

/-- Source `bplistParser.validateDocumentTrailer`, with Go's arithmetic made
explicit: the multiplication and additions are `uint64` (wrap modulo
`2^64`), the shift count `8 * ObjectRefSize` is `uint8` arithmetic (modulo
256), and a `uint64` shift by 64 or more yields 0. -/
def validateDocumentTrailer (t : bplistTrailer) (trailerOffset : Nat) :
    Except bplistError Unit :=
  if t.offsetTableOffset ≥ trailerOffset then .error .offsetTableAfterTrailer
  else if t.offsetTableOffset < 9 then .error .offsetTableInHeader
  else if trailerOffset > u64 (t.numObjects * t.offsetIntSize + t.offsetTableOffset) then
    .error .trailingGarbage
  else if t.numObjects > trailerOffset then .error .tooManyObjects
  else if t.numObjects > goShl64 1 (8 * t.objectRefSize % 256) then
    .error .refWidthTooSmall
  else if t.offsetIntSize < 8 ∧ goShl64 1 (8 * t.offsetIntSize % 256) ≤ t.offsetTableOffset then
    .error .offsetWidthTooSmall
  else if t.topObject ≥ t.numObjects then .error .topObjectOutOfRange
  else .ok ()

/-- Source `bplistParser.validateObjectListLength` (`uint64` arithmetic). -/
def validateObjectListLength (t : bplistTrailer) (off length : Nat) :
    Except bplistError Unit :=
  if u64 (off + u64 (length * t.objectRefSize)) > t.offsetTableOffset then
    .error .listTooLong
  else .ok ()

/-- A `binary.Read` of an `n`-byte big-endian integer at `pos`: the value is
decoded only when all `n` bytes are present (Go decodes after a successful
`io.ReadFull`; on failure the destination keeps its zero value and the
reader has consumed what remained).  Returns the value and the new
position. -/
def readFull (bytes : List Nat) (pos n : Nat) : Nat × Nat :=
  if pos + n ≤ bytes.length then (beVal ((bytes.drop pos).take n), pos + n)
  else (0, bytes.length)

/-- A `binary.Read` into a `[]byte` of length `n`: the fast path fills the
slice as far as the data reaches, the remainder stays zero. -/
def readByteSlice (bytes : List Nat) (pos n : Nat) : List Nat × Nat :=
  let avail := (bytes.drop pos).take n
  (avail ++ List.replicate (n - avail.length) 0, min (pos + n) bytes.length)

/-- Pair up bytes into big-endian 16-bit code units. -/
def chunk2 : List Nat → List Nat
  | a :: b :: rest => (a * 256 + b) :: chunk2 rest
  | _ => []

/-- A `binary.Read` into a `[]uint16` of length `cnt`: decoded only when all
bytes are present, otherwise the slice keeps its zero values. -/
def readUInt16s (bytes : List Nat) (pos cnt : Nat) : List Nat :=
  if pos + 2 * cnt ≤ bytes.length then chunk2 ((bytes.drop pos).take (2 * cnt))
  else List.replicate cnt 0

/-- Source `bplistParser.readSizedInt`: a 128-bit integer as (low, high); the
16-byte form reads the high half first.  Any width other than 1/2/4/8/16
bytes is rejected. -/
def readSizedInt (bytes : List Nat) (pos nbytes : Nat) :
    Except bplistError ((Nat × Nat) × Nat) :=
  if nbytes = 1 ∨ nbytes = 2 ∨ nbytes = 4 ∨ nbytes = 8 then
    let r := readFull bytes pos nbytes
    .ok ((r.1, 0), r.2)
  else if nbytes = 16 then
    let rh := readFull bytes pos 8
    let rl := readFull bytes rh.2 8
    .ok ((rl.1, rh.1), rl.2)
  else .error .illegalIntSize

/-- Source `bplistParser.countForTag`: the tag's low nibble, or, when that is
`0xF`, a nested sized integer (of width `1 << (intTag & 0xF)`) following the
tag. -/
def countForTag (bytes : List Nat) (tag pos : Nat) :
    Except bplistError (Nat × Nat) :=
  let cnt := tag % 16
  if cnt = 0xF then
    let ri := readFull bytes pos 1
    match readSizedInt bytes ri.2 (2 ^ (ri.1 % 16)) with
    | .error e => .error e
    | .ok ((lo, _), pos2) => .ok (lo, pos2)
  else .ok (cnt, pos)

/-- Parsed form of one object record.  Containers do not hold their children
(the parser delays child resolution): a dictionary holds its key strings and
the byte offsets of its value objects, an array the offsets of its
elements. -/
inductive PVal where
  | pNil
  | pBool (b : Bool)
  | pNumber (signed : Bool) (value : Nat)
  | pReal (wide : Bool) (bits : Nat)
  | pDate (ns : Int)
  | pData (bytes : List Nat)
  | pString (runes : GoStr)
  | pUID (value : Nat)
  | pDict (keys : List GoStr) (valueOffsets : List Nat)
  | pArray (elemOffsets : List Nat)
deriving DecidableEq

/-- Context shared by every parsing step: the input, the validated trailer
and the offset table. -/
structure ParseCtx where
  bytes : List Nat
  trailer : bplistTrailer
  offtable : List Nat

/-- Mutable parser state: the memo table `objrefs` (offset to parsed object)
and the offsets recorded in `delayedObjects` (in insertion order). -/
structure PSt where
  objrefs : List (Nat × PVal)
  delayed : List Nat

/-- Lookup in the parser's memo table. -/
def lookupObjrefs (l : List (Nat × PVal)) (off : Nat) : Option PVal :=
  (l.find? (fun p => p.1 == off)).map Prod.snd

/-- Read `n` object references of width `ObjectRefSize`, each validated to be
below `NumObjects` (the per-reference check of the dictionary and array
cases). -/
def readRefList (ctx : ParseCtx) : Nat → Nat →
    Except bplistError (List Nat × Nat)
  | 0, pos => .ok ([], pos)
  | n + 1, pos =>
    match readSizedInt ctx.bytes pos ctx.trailer.objectRefSize with
    | .error e => .error e
    | .ok ((idx, _), pos2) =>
      if idx ≥ ctx.trailer.numObjects then .error .invalidEntryIndex
      else
        match readRefList ctx n pos2 with
        | .error e => .error e
        | .ok (idxs, pos3) => .ok (idx :: idxs, pos3)

/-- The array case's second loop: resolve each element index to its offset,
rejecting a direct self-reference, and collect the offsets (which the Go
code records in `delayedObjects`). -/
def arrayElemOffsets (ctx : ParseCtx) (off : Nat) (indices : List Nat) :
    Except bplistError (List Nat) :=
  indices.mapM (fun idx =>
    let vo := ctx.offtable.getD idx 0
    if vo = off then Except.error bplistError.selfReferentialArrayValue
    else Except.ok vo)

/-- Source `bplistParser.valueAtOffset` as a functional of the recursive
parse `recur`: memoized parsing by byte offset, recording a fresh parse in
`objrefs`. -/
def valueAtOffsetF (recur : PSt → Nat → Except bplistError (PVal × PSt))
    (st : PSt) (off : Nat) : Except bplistError (PVal × PSt) :=
  match lookupObjrefs st.objrefs off with
  | some pval => .ok (pval, st)
  | none =>
    match recur st off with
    | .error e => .error e
    | .ok (pval, st2) =>
      .ok (pval, { st2 with objrefs := (off, pval) :: st2.objrefs })

/-- The dictionary case's second loop as a functional of the recursive parse
`recur`, processing entries from index `i` with `j` of `cnt` entries left:
resolve the key and value offsets, reject direct self-references, parse the
key (which must be a string), and record the value offset as delayed. -/
def parseDictEntriesF (recur : PSt → Nat → Except bplistError (PVal × PSt))
    (ctx : ParseCtx) (off cnt : Nat) (indices : List Nat) :
    Nat → Nat → PSt → Except bplistError (List GoStr × List Nat × PSt)
  | 0, _, st => .ok ([], [], st)
  | j + 1, i, st =>
    let keyOffset := ctx.offtable.getD (indices.getD i 0) 0
    let valueOffset := ctx.offtable.getD (indices.getD (i + cnt) 0) 0
    if keyOffset = off then .error .selfReferentialDictKey
    else if valueOffset = off then .error .selfReferentialDictValue
    else
      match valueAtOffsetF recur st keyOffset with
      | .error e => .error e
      | .ok (kval, st2) =>
        match kval with
        | .pString srunes =>
          let st3 : PSt := { st2 with delayed := st2.delayed ++ [valueOffset] }
          match parseDictEntriesF recur ctx off cnt indices j (i + 1) st3 with
          | .error e => .error e
          | .ok (ks, vos, st4) => .ok (srunes :: ks, valueOffset :: vos, st4)
        | _ => .error .nonStringDictKey

/-- The `bpTagNull` case: booleans for low nibbles 8/9, otherwise Go's nil
`cfValue`. -/
def parseNullCase (st : PSt) (tag : Nat) : Except bplistError (PVal × PSt) :=
  if tag % 16 = 8 ∨ tag % 16 = 9 then .ok (.pBool (tag = 9), st)
  else .ok (.pNil, st)

/-- The `bpTagInteger` case: a sized integer of `2^n` bytes; signed exactly
when the high 64 bits are all ones. -/
def parseIntCase (ctx : ParseCtx) (st : PSt) (tag pos : Nat) :
    Except bplistError (PVal × PSt) :=
  match readSizedInt ctx.bytes pos (2 ^ (tag % 16)) with
  | .error e => .error e
  | .ok ((lov, hiv), _) =>
    .ok (.pNumber (hiv = 0xFFFFFFFFFFFFFFFF) lov, st)

/-- The `bpTagReal` case: 4 or 8 bytes, else an illegal-float-size error. -/
def parseRealCase (ctx : ParseCtx) (st : PSt) (tag pos : Nat) :
    Except bplistError (PVal × PSt) :=
  if 2 ^ (tag % 16) = 4 then
    .ok (.pReal false (readFull ctx.bytes pos 4).1, st)
  else if 2 ^ (tag % 16) = 8 then
    .ok (.pReal true (readFull ctx.bytes pos 8).1, st)
  else .error .illegalFloatSize

/-- The `bpTagDate` case: read the 8 float bytes, adjust from the Apple
epoch and reconstruct the instant with `math.Modf` and `time.Unix`
(`decodeDateNs`). -/
def parseDateCase (ctx : ParseCtx) (st : PSt) (pos : Nat) :
    Except bplistError (PVal × PSt) :=
  .ok (.pDate (decodeDateNs (readFull ctx.bytes pos 8).1), st)

/-- The `bpTagData` case: counted raw bytes, bounds-checked against the
offset table position. -/
def parseDataCase (ctx : ParseCtx) (st : PSt) (off tag pos : Nat) :
    Except bplistError (PVal × PSt) :=
  match countForTag ctx.bytes tag pos with
  | .error e => .error e
  | .ok (cnt, pos2) =>
    if u64 (off + cnt) > ctx.trailer.offsetTableOffset then
      .error .dataTooLong
    else .ok (.pData (readByteSlice ctx.bytes pos2 cnt).1, st)

/-- The ASCII/UTF-16 string cases: counted, bounds-checked with the
character width, decoded to runes. -/
def parseStringCase (ctx : ParseCtx) (st : PSt) (off tag pos : Nat) :
    Except bplistError (PVal × PSt) :=
  match countForTag ctx.bytes tag pos with
  | .error e => .error e
  | .ok (cnt, pos2) =>
    if u64 (off + u64 (cnt * (if tag / 16 = 6 then 2 else 1)))
        > ctx.trailer.offsetTableOffset then
      .error .stringTooLong
    else if tag / 16 = 5 then
      .ok (.pString (utf8Decode (readByteSlice ctx.bytes pos2 cnt).1), st)
    else
      .ok (.pString (utf16Decode (readUInt16s ctx.bytes pos2 cnt)), st)

/-- The `bpTagUID` case: width is the low nibble plus one. -/
def parseUIDCase (ctx : ParseCtx) (st : PSt) (tag pos : Nat) :
    Except bplistError (PVal × PSt) :=
  match readSizedInt ctx.bytes pos (tag % 16 + 1) with
  | .error e => .error e
  | .ok ((v, _), _) => .ok (.pUID v, st)

/-- The `bpTagDictionary` case: validate the reference-list length, read and
range-check `2·cnt` references, then process the entries (keys parsed with
`recur`, value offsets delayed). -/
def parseDictCase (recur : PSt → Nat → Except bplistError (PVal × PSt))
    (ctx : ParseCtx) (st : PSt) (off tag pos : Nat) :
    Except bplistError (PVal × PSt) :=
  match countForTag ctx.bytes tag pos with
  | .error e => .error e
  | .ok (cnt, pos2) =>
    match validateObjectListLength ctx.trailer off (u64 (cnt * 2)) with
    | .error e => .error e
    | .ok _ =>
      match readRefList ctx (u64 (cnt * 2)) pos2 with
      | .error e => .error e
      | .ok (indices, _) =>
        match parseDictEntriesF recur ctx off cnt indices cnt 0 st with
        | .error e => .error e
        | .ok (keys, valueOffsets, st2) =>
          .ok (.pDict keys valueOffsets, st2)

/-- The `bpTagArray` case: validate the reference-list length, read and
range-check `cnt` references, reject direct self-references and delay every
element offset. -/
def parseArrayCase (ctx : ParseCtx) (st : PSt) (off tag pos : Nat) :
    Except bplistError (PVal × PSt) :=
  match countForTag ctx.bytes tag pos with
  | .error e => .error e
  | .ok (cnt, pos2) =>
    match validateObjectListLength ctx.trailer off cnt with
    | .error e => .error e
    | .ok _ =>
      match readRefList ctx cnt pos2 with
      | .error e => .error e
      | .ok (indices, _) =>
        match arrayElemOffsets ctx off indices with
        | .error e => .error e
        | .ok eos =>
          .ok (.pArray eos, { st with delayed := st.delayed ++ eos })

/-- The tag dispatch of `bplistParser.parseTagAtOffset` as a functional of
the recursive parse `recur` (used for dictionary keys): dispatch on the high
nibble of the tag byte read at `off` (passed in as `tag`, with `pos` the
position after it). -/
def parseTagBody (recur : PSt → Nat → Except bplistError (PVal × PSt))
    (ctx : ParseCtx) (st : PSt) (off tag pos : Nat) :
    Except bplistError (PVal × PSt) :=
  if tag / 16 = 0 then parseNullCase st tag
  else if tag / 16 = 1 then parseIntCase ctx st tag pos
  else if tag / 16 = 2 then parseRealCase ctx st tag pos
  else if tag / 16 = 3 then parseDateCase ctx st pos
  else if tag / 16 = 4 then parseDataCase ctx st off tag pos
  else if tag / 16 = 5 ∨ tag / 16 = 6 then parseStringCase ctx st off tag pos
  else if tag / 16 = 8 then parseUIDCase ctx st tag pos
  else if tag / 16 = 13 then parseDictCase recur ctx st off tag pos
  else if tag / 16 = 10 then parseArrayCase ctx st off tag pos
  else .error .unexpectedAtom

/-- Source `bplistParser.parseTagAtOffset`: the dispatch above with `fuel`
bounding the recursion through dictionary keys, which the Go code does not
bound; each level parses keys with the parser one fuel level down. -/
def parseTagAtOffset : Nat → ParseCtx → PSt → Nat →
    Except bplistError (PVal × PSt)
  | 0, _, _, _ => .error .fuelExhausted
  | fuel + 1, ctx, st, off =>
    parseTagBody (parseTagAtOffset fuel ctx) ctx st off
      (readFull ctx.bytes off 1).1 (readFull ctx.bytes off 1).2

/-- Source `bplistParser.valueAtOffset` at a given fuel level. -/
def valueAtOffset (fuel : Nat) (ctx : ParseCtx) (st : PSt) (off : Nat) :
    Except bplistError (PVal × PSt) :=
  valueAtOffsetF (parseTagAtOffset fuel ctx) st off

/-- The parse loop of `parseDocument`: materialize every object listed in
the offset table, in table order. -/
def parseAllObjects (fuel : Nat) (ctx : ParseCtx) :
    List Nat → PSt → Except bplistError PSt
  | [], st => .ok st
  | off :: rest, st =>
    match valueAtOffset fuel ctx st off with
    | .error e => .error e
    | .ok (_, st2) => parseAllObjects fuel ctx rest st2

/-- Resolve a list of delayed offsets with the resolver `recur` (one fuel
level down). -/
def resolveOffsetListF (recur : Nat → Except bplistError cfValue) :
    List Nat → Except bplistError (List cfValue)
  | [] => .ok []
  | o :: os =>
    match recur o with
    | .error e => .error e
    | .ok v =>
      match resolveOffsetListF recur os with
      | .error e => .error e
      | .ok vs => .ok (v :: vs)

/-- Resolution of the object graph into a value tree: the Go code performs
one pointer assignment per delayed slot, so a parsed container's slots end
up pointing at the memoized objects; the tree this produces is the
unfolding computed here (fuel-bounded, since a cycle through delayed slots
makes the unfolding infinite — in Go, a cyclic structure). -/
def resolveAtOffset : Nat → List (Nat × PVal) → Nat →
    Except bplistError cfValue
  | 0, _, _ => .error .fuelExhausted
  | fuel + 1, objrefs, off =>
    match lookupObjrefs objrefs off with
    | none => .error .notInObjectTable
    | some pval =>
      match pval with
      | .pNil => .ok .cfNil
      | .pBool b => .ok (.cfBoolean b)
      | .pNumber s v => .ok (.cfNumber s v)
      | .pReal w b => .ok (.cfReal w b)
      | .pDate d => .ok (.cfDate d)
      | .pData bs => .ok (.cfData bs)
      | .pString s => .ok (.cfString s)
      | .pUID v => .ok (.cfUID v)
      | .pDict keys vos =>
        match resolveOffsetListF (resolveAtOffset fuel objrefs) vos with
        | .error e => .error e
        | .ok vs => .ok (.cfDictionary (keys.zip vs))
      | .pArray eos =>
        match resolveOffsetListF (resolveAtOffset fuel objrefs) eos with
        | .error e => .error e
        | .ok vs => .ok (.cfArray vs)

/-- Parse the version digits of the header (`mustParseInt(string(ver), 10,
0)`): an optional sign followed by decimal digits. -/
def parseVersionDigits (a b : Nat) : Except bplistError Int :=
  let digit : Nat → Option Nat := fun c =>
    if 0x30 ≤ c ∧ c ≤ 0x39 then some (c - 0x30) else none
  if a = 0x2B then
    match digit b with
    | some y => .ok (Int.ofNat y)
    | none => .error .badVersion
  else if a = 0x2D then
    match digit b with
    | some y => .ok (-(Int.ofNat y))
    | none => .error .badVersion
  else
    match digit a, digit b with
    | some x, some y => .ok (Int.ofNat (10 * x + y))
    | _, _ => .error .badVersion

/-- Decode the 32 trailer bytes found at `tpos` (`binary.Read` of the
`bplistTrailer` structure). -/
def parseTrailer (bytes : List Nat) (tpos : Nat) : bplistTrailer :=
  { unused := (bytes.drop tpos).take 5
    sortVersion := (readFull bytes (tpos + 5) 1).1
    offsetIntSize := (readFull bytes (tpos + 6) 1).1
    objectRefSize := (readFull bytes (tpos + 7) 1).1
    numObjects := (readFull bytes (tpos + 8) 8).1
    topObject := (readFull bytes (tpos + 16) 8).1
    offsetTableOffset := (readFull bytes (tpos + 24) 8).1 }

/-- Read the offset table: `n` integers of width `intSize`, each required to
be at most `maxOffset` (one less than where the table itself starts). -/
def readOffsets (bytes : List Nat) (intSize maxOffset : Nat) :
    Nat → Nat → Except bplistError (List Nat)
  | 0, _ => .ok []
  | n + 1, pos =>
    match readSizedInt bytes pos intSize with
    | .error e => .error e
    | .ok ((lo, _), pos2) =>
      if lo > maxOffset then .error .objectBeyondTable
      else
        match readOffsets bytes intSize maxOffset n pos2 with
        | .error e => .error e
        | .ok rest => .ok (lo :: rest)

/-- Source `bplistParser.parseDocument`: header and version checks, trailer
read and validation, offset table read, materialization of every listed
object in table order, the delayed-reference completeness check, and
resolution of the object at index `TopObject`. -/
def parseDocument (bytes : List Nat) (fuel : Nat) :
    Except bplistError cfValue :=
  if bytes.take 6 ≠ [0x62, 0x70, 0x6C, 0x69, 0x73, 0x74] then .error .badMagic
  else if bytes.length < 7 then .error .ioError
  else
    match parseVersionDigits (bytes.getD 6 0) (bytes.getD 7 0) with
    | .error e => .error e
    | .ok ver =>
      if ver > 1 then .error .badVersion
      else if bytes.length < 32 then .error .ioError
      else
        let tpos := bytes.length - 32
        let t := parseTrailer bytes tpos
        match validateDocumentTrailer t tpos with
        | .error e => .error e
        | .ok _ =>
          match readOffsets bytes t.offsetIntSize (t.offsetTableOffset - 1)
              t.numObjects t.offsetTableOffset with
          | .error e => .error e
          | .ok offtable =>
            let ctx : ParseCtx := ⟨bytes, t, offtable⟩
            match parseAllObjects fuel ctx offtable ⟨[], []⟩ with
            | .error e => .error e
            | .ok st =>
              if st.delayed.all (fun o => (lookupObjrefs st.objrefs o).isSome) then
                resolveAtOffset fuel st.objrefs (offtable.getD t.topObject 0)
              else .error .notInObjectTable

/-- A hand-crafted document with two dictionaries whose keys reference each
other: object 0 (at offset 8, `0xD1` with key and value references `1`) and
object 1 (at offset 11, `0xD1` with key and value references `0`).  Neither
dictionary references its own index, so the parser's only cycle check (the
direct `off = keyOffset` comparison) never fires, and parsing either key
recurses into the other dictionary forever. -/
def cycBytes : List Nat :=
  [0x62, 0x70, 0x6C, 0x69, 0x73, 0x74, 0x30, 0x30, 0xD1, 1, 1, 0xD1, 0, 0,
   8, 11, 0, 0, 0, 0, 0, 0, 1, 1, 0, 0, 0, 0, 0, 0, 0, 2, 0, 0, 0, 0, 0,
   0, 0, 0, 0, 0, 0, 0, 0, 0, 0, 14]

/-- The parse context `parseDocument` builds for `cycBytes`: its trailer
(offset width 1, reference width 1, two objects, top object 0, offset table
at 14) and its offset table `[8, 11]`. -/
def cycCtx : ParseCtx := ⟨cycBytes, ⟨[0, 0, 0, 0, 0], 0, 1, 1, 2, 0, 14⟩, [8, 11]⟩


mutual
/-- The tree a successful decode of an encoded tree yields: dictionary
entries in their (already sorted) order, integers unsigned (the wire form
carries no sign for the widths the generator emits), dates normalized by
the trip through `float64` seconds (`dateRound`), everything else as
stored. -/
def decA : AVal → cfValue
  | .aDict _ es => .cfDictionary (decAEntries es)
  | .aArray _ vs => .cfArray (decAList vs)
  | .aString s => .cfString s
  | .aNumber _ v => .cfNumber false v
  | .aReal w b => .cfReal w b
  | .aBoolean b => .cfBoolean b
  | .aData bs => .cfData bs
  | .aDate d => .cfDate (dateRound d)
  | .aUID v => .cfUID v
  | .aNil => .cfNil

def decAList : List AVal → List cfValue
  | [] => []
  | v :: vs => decA v :: decAList vs

def decAEntries : List (GoStr × AVal) → List (GoStr × cfValue)
  | [] => []
  | e :: es => (e.1, decA e.2) :: decAEntries es
end

mutual
/-- The normalization one trip through the wire applies to each scalar:
every integer loses its `signed` flag (the generator writes integers in
their unsigned wire form), and every date is replaced by the result of the
lossy `float64`-seconds round trip (`dateRound`); the decoder reconstructs
the other kinds exactly. -/
def wireRound : cfValue → cfValue
  | .cfDictionary es => .cfDictionary (wireRoundEntries es)
  | .cfArray vs => .cfArray (wireRoundList vs)
  | .cfNumber _ v => .cfNumber false v
  | .cfDate d => .cfDate (dateRound d)
  | v => v

def wireRoundList : List cfValue → List cfValue
  | [] => []
  | v :: vs => wireRound v :: wireRoundList vs

def wireRoundEntries : List (GoStr × cfValue) → List (GoStr × cfValue)
  | [] => []
  | e :: es => (e.1, wireRound e.2) :: wireRoundEntries es
end

mutual
/-- Container nesting depth (scalars are depth 0). -/
def depthA : AVal → Nat
  | .aDict _ es => 1 + depthAEntries es
  | .aArray _ vs => 1 + depthAList vs
  | _ => 0

def depthAList : List AVal → Nat
  | [] => 0
  | v :: vs => max (depthA v) (depthAList vs)

def depthAEntries : List (GoStr × AVal) → Nat
  | [] => 0
  | e :: es => max (depthA e.2) (depthAEntries es)
end

mutual
/-- Container nesting depth of a value tree. -/
def depthC : cfValue → Nat
  | .cfDictionary es => 1 + depthCEntries es
  | .cfArray vs => 1 + depthCList vs
  | _ => 0

def depthCList : List cfValue → Nat
  | [] => 0
  | v :: vs => max (depthC v) (depthCList vs)

def depthCEntries : List (GoStr × cfValue) → Nat
  | [] => 0
  | e :: es => max (depthC e.2) (depthCEntries es)
end

mutual
/-- Well-formedness of a value tree for the round-trip statement: every
value is representable on the wire (integers and UIDs fit in 64 bits,
reals carry a pattern of their width), no real is a NaN (a NaN inside a
container makes the generator's uniquing map lose it), every string and
every dictionary key consists of Unicode scalar values, and the Go-nil
placeholder `cfNil` (whose record is empty) is absent.  A date instant is
unconstrained: the encoder accepts any and normalizes it through
`float64` seconds. -/
def wfValue : cfValue → Bool
  | .cfDictionary es => wfEntries es
  | .cfArray vs => wfList vs
  | .cfString s => s.all (fun r => decide (validRune r))
  | .cfNumber _ v => decide (v < 2 ^ 64)
  | .cfReal w b =>
    if w then decide (b < 2 ^ 64) && !decide (isNaN64 b)
    else decide (b < 2 ^ 32) && !decide (isNaN32 b)
  | .cfDate _ => true
  | .cfData _ => true
  | .cfBoolean _ => true
  | .cfUID u => decide (u < 2 ^ 64)
  | .cfNil => false

def wfList : List cfValue → Bool
  | [] => true
  | v :: vs => wfValue v && wfList vs

def wfEntries : List (GoStr × cfValue) → Bool
  | [] => true
  | e :: es =>
    e.1.all (fun r => decide (validRune r)) && wfValue e.2 && wfEntries es
end

mutual
/-- `wfValue` on the annotated tree. -/
def awf : AVal → Bool
  | .aDict _ es => awfEntries es
  | .aArray _ vs => awfList vs
  | .aString s => s.all (fun r => decide (validRune r))
  | .aNumber _ v => decide (v < 2 ^ 64)
  | .aReal w b =>
    if w then decide (b < 2 ^ 64) && !decide (isNaN64 b)
    else decide (b < 2 ^ 32) && !decide (isNaN32 b)
  | .aDate _ => true
  | .aData _ => true
  | .aBoolean _ => true
  | .aUID u => decide (u < 2 ^ 64)
  | .aNil => false

def awfList : List AVal → Bool
  | [] => true
  | v :: vs => awf v && awfList vs

def awfEntries : List (GoStr × AVal) → Bool
  | [] => true
  | e :: es =>
    e.1.all (fun r => decide (validRune r)) && awf e.2 && awfEntries es
end

mutual
/-- Every subtree of an annotated value, the value itself first. -/
def subsOf : AVal → List AVal
  | .aDict i es => .aDict i es :: subsOfEntries es
  | .aArray i vs => .aArray i vs :: subsOfList vs
  | a => [a]

def subsOfList : List AVal → List AVal
  | [] => []
  | v :: vs => subsOf v ++ subsOfList vs

def subsOfEntries : List (GoStr × AVal) → List AVal
  | [] => []
  | e :: es => subsOf e.2 ++ subsOfEntries es
end

mutual
/-- Every dictionary key below (or at) an annotated value. -/
def keyStringsOf : AVal → List GoStr
  | .aDict _ es => es.map Prod.fst ++ keyStringsOfEntries es
  | .aArray _ vs => keyStringsOfList vs
  | _ => []

def keyStringsOfList : List AVal → List GoStr
  | [] => []
  | v :: vs => keyStringsOf v ++ keyStringsOfList vs

def keyStringsOfEntries : List (GoStr × AVal) → List GoStr
  | [] => []
  | e :: es => keyStringsOf e.2 ++ keyStringsOfEntries es
end

/-- The container identity of an annotated value, if it is a container. -/
def aValId : AVal → Option Nat
  | .aDict i _ => some i
  | .aArray i _ => some i
  | _ => none

/-- The container identities of every container subtree. -/
def idsOfA (a : AVal) : List Nat := (subsOf a).filterMap aValId

mutual
/-- The `cfData` payloads of a value tree, for the checksum-injectivity
hypothesis of the round-trip statement. -/
def dataPayloads : cfValue → List (List Nat)
  | .cfDictionary es => dataPayloadsEntries es
  | .cfArray vs => dataPayloadsList vs
  | .cfData bs => [bs]
  | _ => []

def dataPayloadsList : List cfValue → List (List Nat)
  | [] => []
  | v :: vs => dataPayloads v ++ dataPayloadsList vs

def dataPayloadsEntries : List (GoStr × cfValue) → List (List Nat)
  | [] => []
  | e :: es => dataPayloads e.2 ++ dataPayloadsEntries es
end

/-- What the parser records for one object-table slot, in terms of the
generator's uniquing map and the record offsets: containers hold their
children's slot offsets, scalars their wire value. -/
def pvalOfA (offsets : List Nat) (objmap : List (hashKey × Nat)) :
    AVal → PVal
  | .aDict _ es =>
    .pDict (es.map Prod.fst)
      (es.map fun e =>
        offsets.getD ((lookupObjmap objmap (hashOfA e.2)).getD 0) 0)
  | .aArray _ vs =>
    .pArray (vs.map fun c =>
      offsets.getD ((lookupObjmap objmap (hashOfA c)).getD 0) 0)
  | .aString s => .pString s
  | .aNumber _ v => .pNumber false v
  | .aReal w b => .pReal w b
  | .aBoolean b => .pBool b
  | .aData bs => .pData bs
  | .aDate d => .pDate (dateRound d)
  | .aUID u => .pUID u
  | .aNil => .pNil

/-- The child objects one slot's record references: a dictionary references
its key strings and its values, an array its elements. -/
def childrenOfSlot : AVal → List AVal
  | .aDict _ es => es.map (fun e => .aString e.1) ++ es.map Prod.snd
  | .aArray _ vs => vs
  | _ => []

/-- The offsets a slot's parse appends to `delayedObjects`. -/
def delayedOfSlot (offsets : List Nat) (objmap : List (hashKey × Nat)) :
    AVal → List Nat
  | .aDict _ es => es.map (fun e =>
      offsets.getD ((lookupObjmap objmap (hashOfA e.2)).getD 0) 0)
  | .aArray _ vs => vs.map (fun c =>
      offsets.getD ((lookupObjmap objmap (hashOfA c)).getD 0) 0)
  | _ => []

/-- The key string stored at a byte offset, when the offset belongs to a
string slot of the object table. -/
def KSof (offsets : List Nat) (objtable : List AVal) (o : Nat) :
    Option GoStr :=
  ((List.range objtable.length).find? (fun j => offsets.getD j 0 == o)).bind
    (fun j => match objtable.getD j .aNil with
      | .aString s => some s
      | _ => none)

/-- Parser-memo soundness: every memoized pair is a table offset with the
object the generator put in that slot. -/
def MemoGood (ctx : ParseCtx) (stF : FlattenSt)
    (objrefs : List (Nat × PVal)) : Prop :=
  ∀ q ∈ objrefs, ∃ j, j < stF.objtable.length
    ∧ q.1 = ctx.offtable.getD j 0
    ∧ q.2 = pvalOfA ctx.offtable stF.objmap (stF.objtable.getD j .aNil)

/-- Every listed offset is the offset of some table slot. -/
def OffsGood (ctx : ParseCtx) (stF : FlattenSt) (os : List Nat) : Prop :=
  ∀ o ∈ os, ∃ j, j < stF.objtable.length ∧ o = ctx.offtable.getD j 0

/-- The relation between a parse context and the generator state it was
produced from: the facts `generateDocument` establishes about its output
that the object-level parse needs. -/
structure GoodCtx (ctx : ParseCtx) (stF : FlattenSt)
    (recs : List (List Nat)) (refSize : Nat) : Prop where
  hlen : recs.length = stF.objtable.length
  hofft : ctx.offtable = offsetsFrom 8 recs
  hrecnn : ∀ r ∈ recs, r ≠ []
  hbytes : ∃ rest, ctx.bytes = bplistHeader ++ (recs.flatten ++ rest)
  hOTO : ctx.trailer.offsetTableOffset = 8 + recs.flatten.length
  hOTO32 : ctx.trailer.offsetTableOffset < 2 ^ 32
  hrw : ctx.trailer.objectRefSize = refSize
  hleg : refSize = 1 ∨ refSize = 2 ∨ refSize = 4
  hNbound : stF.objtable.length ≤ 2 ^ (8 * refSize)
  hnum : ctx.trailer.numObjects = stF.objtable.length
  hrec : ∀ j, j < stF.objtable.length →
    writePlistValue stF.objmap refSize (stF.objtable.getD j .aNil)
      = .ok (recs.getD j [])
  hawf : ∀ t ∈ stF.objtable, awf t = true
  hres : ∀ t ∈ stF.objtable, ∀ c ∈ childrenOfSlot t,
    ∃ i, lookupObjmap stF.objmap (hashOfA c) = some i
      ∧ i < stF.objtable.length ∧ stF.objtable.getD i .aNil = c

/-- The record `writePlistValue` emits for a slot (empty on failure, which
the surrounding theorems exclude). -/
def recOf (objmap : List (hashKey × Nat)) (refSize : Nat) (t : AVal) :
    List Nat :=
  match writePlistValue objmap refSize t with
  | .ok r => r
  | .error _ => []

/-- The parser only ever prepends to the memo table. -/
def objrefsExtends (a b : List (Nat × PVal)) : Prop := ∃ pre, b = pre ++ a

/-!
Theorems.  The development below first establishes general lemmas about the
byte primitives, then settles the specification claims.
-/

theorem beBytes_length (w n : Nat) : (beBytes w n).length = w := by
  induction w generalizing n with
  | zero => rfl
  | succ w ih => simp [beBytes, ih]

theorem beVal_append (bs cs : List Nat) :
    beVal (bs ++ cs) = cs.foldl (fun acc b => acc * 256 + b) (beVal bs) := by
  simp [beVal, List.foldl_append]

theorem beVal_beBytes (w n : Nat) : beVal (beBytes w n) = n % 2 ^ (8 * w) := by
  induction w generalizing n with
  | zero => simp [beBytes, beVal, Nat.mod_one]
  | succ w ih =>
    have h : beVal (beBytes w (n / 256) ++ [n % 256])
        = beVal (beBytes w (n / 256)) * 256 + n % 256 := by
      simp [beVal_append, beVal]
    have hpow : 2 ^ (8 * (w + 1)) = 2 ^ (8 * w) * 256 := by
      rw [Nat.mul_succ, pow_add]; norm_num
    calc beVal (beBytes (w + 1) n)
        = beVal (beBytes w (n / 256)) * 256 + n % 256 := h
      _ = n / 256 % 2 ^ (8 * w) * 256 + n % 256 := by rw [ih]
      _ = n % 2 ^ (8 * (w + 1)) := by
          rw [hpow, mul_comm (2 ^ (8 * w)) 256, Nat.mod_mul]
          ring

theorem beVal_beBytes_of_lt (w n : Nat) (h : n < 2 ^ (8 * w)) :
    beVal (beBytes w n) = n := by
  rw [beVal_beBytes, Nat.mod_eq_of_lt h]

/-- Reading `|Q|` bytes at position `|P|` of `P ++ Q ++ R` yields the
big-endian value of `Q`. -/
theorem readFull_at (P Q R : List Nat) :
    readFull (P ++ (Q ++ R)) P.length Q.length
      = (beVal Q, P.length + Q.length) := by
  unfold readFull
  have hlen : P.length + Q.length ≤ (P ++ (Q ++ R)).length := by
    simp [List.length_append]
  rw [if_pos hlen, List.drop_left, List.take_left]

/-- C3 (amended): trailer validation succeeds exactly when the seven bounds
hold with the code's arithmetic: products and sums reduced modulo `2^64`,
the shift count `8 * ObjectRefSize` reduced modulo 256, and a shift by 64 or
more yielding 0 (so `2^(8·ObjectRefSize)` is computed as `goShl64`).  Each
failing check rejects with its own distinct `bplistError` constructor, per
the definition of `validateDocumentTrailer`. -/
theorem claim3_trailer_validation (t : bplistTrailer) (toff : Nat) :
    validateDocumentTrailer t toff = .ok () ↔
      (t.offsetTableOffset < toff ∧
        9 ≤ t.offsetTableOffset ∧
        toff ≤ u64 (t.numObjects * t.offsetIntSize + t.offsetTableOffset) ∧
        t.numObjects ≤ toff ∧
        t.numObjects ≤ goShl64 1 (8 * t.objectRefSize % 256) ∧
        (t.offsetIntSize < 8 →
          t.offsetTableOffset < goShl64 1 (8 * t.offsetIntSize % 256)) ∧
        t.topObject < t.numObjects) := by
  unfold validateDocumentTrailer
  split_ifs with h1 h2 h3 h4 h5 h6 h7 <;> simp_all

/-- C3 witness: a concrete trailer satisfying all seven bounds validates. -/
theorem claim3_trailer_validation_witness :
    validateDocumentTrailer ⟨[0, 0, 0, 0, 0], 0, 1, 1, 1, 0, 9⟩ 10 = .ok () :=
  (claim3_trailer_validation ⟨[0, 0, 0, 0, 0], 0, 1, 1, 1, 0, 9⟩ 10).mpr
    (by decide)

/-- C3 counterexample: a trailer with `ObjectRefSize = 8` and one object
satisfies every bound of the claim read in exact arithmetic (in particular
`NumObjects ≤ 2^(8·ObjectRefSize) = 2^64`), yet validation rejects it,
because Go computes `uint64(1) << 64 = 0`. -/
theorem claim3_counterexample :
    (((9 : Nat) < 10 ∧ 9 ≤ 9 ∧ 10 ≤ 1 * 8 + 9 ∧ 1 ≤ 10 ∧
        1 ≤ 2 ^ (8 * 8) ∧ ((8 : Nat) < 8 → (9 : Nat) < 2 ^ (8 * 8)) ∧ 0 < 1)
      ∧ validateDocumentTrailer ⟨[0, 0, 0, 0, 0], 0, 8, 8, 1, 0, 9⟩ 10
          = .error .refWidthTooSmall) := by
  constructor
  · refine ⟨by norm_num, by norm_num, by norm_num, by norm_num, ?_, ?_, by norm_num⟩
    · norm_num
    · intro h; norm_num
  · rfl

/-- Targeted form of `readFull_at` for rewriting. -/
theorem readFull_eq (bytes P Q R : List Nat) (pos n : Nat)
    (hB : bytes = P ++ (Q ++ R)) (hpos : pos = P.length) (hn : n = Q.length) :
    readFull bytes pos n = (beVal Q, pos + n) := by
  subst hB; subst hpos; subst hn; exact readFull_at P Q R

/-- Parsing a 16-byte integer record (tag `0x14`, 8 high bytes, 8 low
bytes): the record decodes to a number whose `signed` flag is set exactly
when the high half is all-ones, carrying the low half verbatim. -/
theorem parseTag_int16 (fuel : Nat) (hf : 0 < fuel) (t : bplistTrailer)
    (ot : List Nat) (st : PSt) (h l : Nat) (hh : h < 2 ^ 64) (hl : l < 2 ^ 64)
    (sgn : Bool) (hsgn : sgn = decide (h = 0xFFFFFFFFFFFFFFFF)) :
    parseTagAtOffset fuel
        ⟨0x14 :: (beBytes 8 h ++ beBytes 8 l), t, ot⟩ st 0
      = .ok (.pNumber sgn l, st) := by
  subst hsgn
  cases fuel with
  | zero => omega
  | succ g =>
    have h1 : readFull (0x14 :: (beBytes 8 h ++ beBytes 8 l)) 0 1 = (0x14, 1) :=
      readFull_eq _ [] [0x14] (beBytes 8 h ++ beBytes 8 l) 0 1 rfl rfl rfl
    have h2 : readFull (0x14 :: (beBytes 8 h ++ beBytes 8 l)) 1 8 = (h, 9) := by
      have := readFull_eq (0x14 :: (beBytes 8 h ++ beBytes 8 l)) [0x14]
        (beBytes 8 h) (beBytes 8 l) 1 8 rfl rfl (by rw [beBytes_length])
      rwa [beVal_beBytes_of_lt _ _ hh] at this
    have h3 : readFull (0x14 :: (beBytes 8 h ++ beBytes 8 l)) 9 8 = (l, 17) := by
      have := readFull_eq (0x14 :: (beBytes 8 h ++ beBytes 8 l))
        ([0x14] ++ beBytes 8 h) (beBytes 8 l) [] 9 8
        (by simp) (by simp [beBytes_length]) (by rw [beBytes_length])
      rwa [beVal_beBytes_of_lt _ _ hl] at this
    simp only [parseTagAtOffset, parseTagBody, h1]
    norm_num [parseIntCase, readSizedInt, h2, h3]

set_option maxHeartbeats 1000000 in
/-- C4: decoding a 16-byte integer record whose high 64 bits are all ones
and whose low 64 bits are the two's-complement bits of `x` yields a number
marked signed carrying exactly those bits; with the high 64 bits zero the
same record decodes unsigned with the same low 64 bits; and the low bits
are precisely the two's-complement encoding of `x` (last conjunct). -/
theorem claim4_sixteen_byte_integer (x : Int) (hlo : -(2 ^ 63) ≤ x)
    (hhi : x < 2 ^ 63) :
    ∀ (t : bplistTrailer) (ot : List Nat) (st : PSt),
      parseTagAtOffset 1
          ⟨0x14 :: (beBytes 8 0xFFFFFFFFFFFFFFFF
            ++ beBytes 8 (x % 2 ^ 64).toNat), t, ot⟩ st 0
        = .ok (.pNumber true (x % 2 ^ 64).toNat, st)
      ∧ parseTagAtOffset 1
          ⟨0x14 :: (beBytes 8 0 ++ beBytes 8 (x % 2 ^ 64).toNat), t, ot⟩ st 0
        = .ok (.pNumber false (x % 2 ^ 64).toNat, st)
      ∧ (x % 2 ^ 64).toNat < 2 ^ 64
      ∧ x = ((x % 2 ^ 64).toNat : Int)
          - (if 2 ^ 63 ≤ (x % 2 ^ 64).toNat then 2 ^ 64 else 0) := by
  intro t ot st
  have hb : (x % 2 ^ 64).toNat < 2 ^ 64 := by omega
  refine ⟨?_, ?_, hb, ?_⟩
  · generalize (x % 2 ^ 64).toNat = l at hb ⊢
    exact parseTag_int16 1 (by norm_num) t ot st 0xFFFFFFFFFFFFFFFF
      l (by norm_num) hb true (by decide)
  · generalize (x % 2 ^ 64).toNat = l at hb ⊢
    exact parseTag_int16 1 (by norm_num) t ot st 0
      l (by norm_num) hb false (by decide)
  · split_ifs with hcase <;> omega

set_option maxHeartbeats 1000000 in
/-- C4 witness at `x = -2`. -/
theorem claim4_sixteen_byte_integer_witness :
    parseTagAtOffset 1
        ⟨0x14 :: (beBytes 8 0xFFFFFFFFFFFFFFFF
          ++ beBytes 8 ((-2 : Int) % 2 ^ 64).toNat),
        ⟨[0, 0, 0, 0, 0], 0, 0, 0, 0, 0, 0⟩, []⟩ ⟨[], []⟩ 0
      = .ok (.pNumber true ((-2 : Int) % 2 ^ 64).toNat, ⟨[], []⟩) :=
  (claim4_sixteen_byte_integer (-2) (by norm_num) (by norm_num)
    ⟨[0, 0, 0, 0, 0], 0, 0, 0, 0, 0, 0⟩ [] ⟨[], []⟩).1

/-- C5 (amended): the generator serializes a `cfNumber` through
`writeIntTag` applied to its 64-bit value only — the signed flag is not
consulted — and `writeIntTag` picks the smallest of 1/2/4/8 bytes holding
that value (tags `0x10`..`0x13`); in particular every value of at least
`2^63` (every two's-complement-negative value) is written at width 8 with
tag `0x13` and its raw 64 bits. -/
theorem claim5_int_encoding (objmap : List (hashKey × Nat)) (refSize : Nat)
    (s : Bool) (n : Nat) (hn : n < 2 ^ 64) :
    writePlistValue objmap refSize (.aNumber s n) = .ok (writeIntTag n)
    ∧ ((n ≤ 0xff ∧ writeIntTag n = 0x10 :: beBytes 1 n)
        ∨ (0xff < n ∧ n ≤ 0xffff ∧ writeIntTag n = 0x11 :: beBytes 2 n)
        ∨ (0xffff < n ∧ n ≤ 0xffffffff ∧ writeIntTag n = 0x12 :: beBytes 4 n)
        ∨ (0xffffffff < n ∧ writeIntTag n = 0x13 :: beBytes 8 n))
    ∧ (2 ^ 63 ≤ n →
        writeIntTag n = 0x13 :: beBytes 8 n ∧ beVal (beBytes 8 n) = n) := by
  refine ⟨rfl, ?_, ?_⟩
  · unfold writeIntTag
    split_ifs with h1 h2 h3
    · exact Or.inl ⟨h1, rfl⟩
    · exact Or.inr (Or.inl ⟨by omega, h2, rfl⟩)
    · exact Or.inr (Or.inr (Or.inl ⟨by omega, h3, rfl⟩))
    · exact Or.inr (Or.inr (Or.inr ⟨by omega, rfl⟩))
  · intro hneg
    have heq : writeIntTag n = 0x13 :: beBytes 8 n := by
      unfold writeIntTag
      split_ifs with h1 h2 h3 <;> first | rfl | omega
    exact ⟨heq, beVal_beBytes_of_lt 8 n (by omega)⟩

/-- C5 witness at the value 300 (unsigned, two bytes). -/
theorem claim5_int_encoding_witness :
    writePlistValue [] 1 (.aNumber false 300) = .ok (writeIntTag 300) :=
  (claim5_int_encoding [] 1 false 300 (by norm_num)).1

/-- C5 counterexample: a `cfNumber` with the signed flag set and value 5 is
written at width 1 with tag `0x10`, not at width 8 with tag `0x13`: the
claim's "every negative Num (signed flag set) always writes width 8" fails
because the encoder never consults the flag. -/
theorem claim5_counterexample :
    writePlistValue [] 1 (.aNumber true 5) = .ok [0x10, 5]
    ∧ (0x10 : Nat) ≠ 0x13 :=
  ⟨rfl, by decide⟩

/-- C8: encoding the 5-character string "Hello" (runes 72 101 108 108 111)
as the document root produces exactly the 47-byte sequence of the
specification, and decoding that sequence yields the string "Hello". -/
theorem claim8_hello_round :
    generateDocument (.cfString [72, 101, 108, 108, 111])
      = .ok [0x62, 0x70, 0x6C, 0x69, 0x73, 0x74, 0x30, 0x30, 0x55, 0x48,
          0x65, 0x6C, 0x6C, 0x6F, 0x08, 0x00, 0x00, 0x00, 0x00, 0x00, 0x00,
          0x01, 0x01, 0x00, 0x00, 0x00, 0x00, 0x00, 0x00, 0x00, 0x01, 0x00,
          0x00, 0x00, 0x00, 0x00, 0x00, 0x00, 0x00, 0x00, 0x00, 0x00, 0x00,
          0x00, 0x00, 0x00, 0x0E]
    ∧ parseDocument [0x62, 0x70, 0x6C, 0x69, 0x73, 0x74, 0x30, 0x30, 0x55,
        0x48, 0x65, 0x6C, 0x6C, 0x6F, 0x08, 0x00, 0x00, 0x00, 0x00, 0x00,
        0x00, 0x01, 0x01, 0x00, 0x00, 0x00, 0x00, 0x00, 0x00, 0x00, 0x01,
        0x00, 0x00, 0x00, 0x00, 0x00, 0x00, 0x00, 0x00, 0x00, 0x00, 0x00,
        0x00, 0x00, 0x00, 0x00, 0x0E] 2
      = .ok (.cfString [72, 101, 108, 108, 111]) :=
  ⟨rfl, rfl⟩

/-- C9 (amended): for every input and fuel bound, binary decode terminates
with exactly one of: a non-nil value, the nil placeholder (Go's nil
`cfValue`, produced for `0x0n` fill tags), or a single error; there is no
partial-result channel.  (A decode that exceeds every fuel bound — the
`fuelExhausted` error — corresponds to unbounded recursion in Go, see the
C2 analysis.) -/
theorem claim9_total_result (bytes : List Nat) (fuel : Nat) :
    (∃ v, parseDocument bytes fuel = .ok v ∧ v ≠ .cfNil)
    ∨ parseDocument bytes fuel = .ok .cfNil
    ∨ ∃ e, parseDocument bytes fuel = .error e := by
  cases h : parseDocument bytes fuel with
  | error e => exact Or.inr (Or.inr ⟨e, rfl⟩)
  | ok v =>
    cases v with
    | cfNil => exact Or.inr (Or.inl rfl)
    | cfDictionary es => exact Or.inl ⟨_, rfl, by simp⟩
    | cfArray vs => exact Or.inl ⟨_, rfl, by simp⟩
    | cfString s => exact Or.inl ⟨_, rfl, by simp⟩
    | cfNumber s v => exact Or.inl ⟨_, rfl, by simp⟩
    | cfReal w b => exact Or.inl ⟨_, rfl, by simp⟩
    | cfBoolean b => exact Or.inl ⟨_, rfl, by simp⟩
    | cfData bs => exact Or.inl ⟨_, rfl, by simp⟩
    | cfDate d => exact Or.inl ⟨_, rfl, by simp⟩
    | cfUID u => exact Or.inl ⟨_, rfl, by simp⟩

/-- C9 counterexample: a well-formed 42-byte document whose single object is
the fill tag `0x00` decodes with no error to the nil placeholder — Go's
`parseDocument` returns `(nil, nil)`, which is neither a valid value tree
nor an error. -/
theorem claim9_counterexample :
    parseDocument [0x62, 0x70, 0x6C, 0x69, 0x73, 0x74, 0x30, 0x30, 0x00,
        0x08, 0, 0, 0, 0, 0, 0, 1, 1, 0, 0, 0, 0, 0, 0, 0, 1, 0, 0, 0, 0,
        0, 0, 0, 0, 0, 0, 0, 0, 0, 0, 0, 9] 5
      = .ok .cfNil :=
  rfl


theorem objrefsExtends_refl (a : List (Nat × PVal)) : objrefsExtends a a :=
  ⟨[], rfl⟩

theorem objrefsExtends_trans {a b c : List (Nat × PVal)}
    (h1 : objrefsExtends a b) (h2 : objrefsExtends b c) :
    objrefsExtends a c := by
  obtain ⟨p1, rfl⟩ := h1
  obtain ⟨p2, rfl⟩ := h2
  exact ⟨p2 ++ p1, by simp⟩

theorem objrefsExtends_cons {a b : List (Nat × PVal)} (e : Nat × PVal)
    (h : objrefsExtends a b) : objrefsExtends a (e :: b) := by
  obtain ⟨p, rfl⟩ := h
  exact ⟨e :: p, rfl⟩

theorem lookupObjrefs_isSome_of_extends {a b : List (Nat × PVal)}
    (h : objrefsExtends a b) (o : Nat)
    (hs : (lookupObjrefs a o).isSome) : (lookupObjrefs b o).isSome := by
  obtain ⟨pre, rfl⟩ := h
  unfold lookupObjrefs at hs ⊢
  rw [List.find?_append]
  cases hfind : List.find? (fun p => p.1 == o) pre with
  | some e => simp [Option.orElse, hfind]
  | none => simpa [Option.orElse, hfind] using hs

theorem valueAtOffsetF_extends
    (recur : PSt → Nat → Except bplistError (PVal × PSt))
    (hrec : ∀ st off p st', recur st off = .ok (p, st') →
      objrefsExtends st.objrefs st'.objrefs) :
    ∀ st off p st', valueAtOffsetF recur st off = .ok (p, st') →
      objrefsExtends st.objrefs st'.objrefs := by
  intro st off p st' h
  unfold valueAtOffsetF at h
  split at h
  · cases h; exact objrefsExtends_refl _
  · split at h
    · cases h
    · cases h
      exact objrefsExtends_cons _ (hrec _ _ _ _ (by assumption))

theorem parseDictEntriesF_extends
    (recur : PSt → Nat → Except bplistError (PVal × PSt))
    (hrec : ∀ st off p st', recur st off = .ok (p, st') →
      objrefsExtends st.objrefs st'.objrefs)
    (ctx : ParseCtx) (off cnt : Nat) (indices : List Nat) :
    ∀ j i st ks vos st',
      parseDictEntriesF recur ctx off cnt indices j i st = .ok (ks, vos, st') →
      objrefsExtends st.objrefs st'.objrefs := by
  intro j
  induction j with
  | zero =>
    intro i st ks vos st' h
    cases h
    exact objrefsExtends_refl _
  | succ j ih =>
    intro i st ks vos st' h
    simp only [parseDictEntriesF] at h
    split at h
    · cases h
    · split at h
      · cases h
      · split at h
        · cases h
        · rename_i st2pair heq
          split at h <;> try cases h
          split at h
          · cases h
          · rename_i out hrest
            cases h
            have hmid := ih _ _ _ _ _ hrest
            exact objrefsExtends_trans
              (valueAtOffsetF_extends recur hrec _ _ _ _ heq) hmid

theorem parseNullCase_state (st : PSt) (tag : Nat) (p : PVal) (st' : PSt)
    (h : parseNullCase st tag = .ok (p, st')) : st' = st := by
  unfold parseNullCase at h
  split at h <;> (cases h; try rfl)

theorem parseIntCase_state (ctx : ParseCtx) (st : PSt) (tag pos : Nat)
    (p : PVal) (st' : PSt) (h : parseIntCase ctx st tag pos = .ok (p, st')) :
    st' = st := by
  unfold parseIntCase at h
  split at h <;> (cases h; try rfl)

theorem parseRealCase_state (ctx : ParseCtx) (st : PSt) (tag pos : Nat)
    (p : PVal) (st' : PSt) (h : parseRealCase ctx st tag pos = .ok (p, st')) :
    st' = st := by
  unfold parseRealCase at h
  split at h <;> [skip; split at h] <;> (cases h; try rfl)

theorem parseDateCase_state (ctx : ParseCtx) (st : PSt) (pos : Nat)
    (p : PVal) (st' : PSt) (h : parseDateCase ctx st pos = .ok (p, st')) :
    st' = st := by
  cases h; rfl

theorem parseDataCase_state (ctx : ParseCtx) (st : PSt) (off tag pos : Nat)
    (p : PVal) (st' : PSt)
    (h : parseDataCase ctx st off tag pos = .ok (p, st')) : st' = st := by
  unfold parseDataCase at h
  repeat' split at h
  all_goals (cases h; try rfl)

theorem parseStringCase_state (ctx : ParseCtx) (st : PSt) (off tag pos : Nat)
    (p : PVal) (st' : PSt)
    (h : parseStringCase ctx st off tag pos = .ok (p, st')) : st' = st := by
  unfold parseStringCase at h
  repeat' split at h
  all_goals (cases h; try rfl)

theorem parseUIDCase_state (ctx : ParseCtx) (st : PSt) (tag pos : Nat)
    (p : PVal) (st' : PSt) (h : parseUIDCase ctx st tag pos = .ok (p, st')) :
    st' = st := by
  unfold parseUIDCase at h
  split at h <;> (cases h; try rfl)

theorem parseArrayCase_objrefs (ctx : ParseCtx) (st : PSt)
    (off tag pos : Nat) (p : PVal) (st' : PSt)
    (h : parseArrayCase ctx st off tag pos = .ok (p, st')) :
    st'.objrefs = st.objrefs := by
  unfold parseArrayCase at h
  repeat' split at h
  all_goals (cases h; try rfl)

theorem parseDictCase_extends
    (recur : PSt → Nat → Except bplistError (PVal × PSt))
    (hrec : ∀ st off p st', recur st off = .ok (p, st') →
      objrefsExtends st.objrefs st'.objrefs)
    (ctx : ParseCtx) (st : PSt) (off tag pos : Nat) (p : PVal) (st' : PSt)
    (h : parseDictCase recur ctx st off tag pos = .ok (p, st')) :
    objrefsExtends st.objrefs st'.objrefs := by
  unfold parseDictCase at h
  repeat' split at h
  all_goals try cases h
  rename_i heq
  exact parseDictEntriesF_extends _ hrec _ _ _ _ _ _ _ _ _ _ heq

theorem parseTagBody_extends
    (recur : PSt → Nat → Except bplistError (PVal × PSt))
    (hrec : ∀ st off p st', recur st off = .ok (p, st') →
      objrefsExtends st.objrefs st'.objrefs)
    (ctx : ParseCtx) (st : PSt) (off tag pos : Nat) (p : PVal) (st' : PSt)
    (h : parseTagBody recur ctx st off tag pos = .ok (p, st')) :
    objrefsExtends st.objrefs st'.objrefs := by
  unfold parseTagBody at h
  repeat' split at h
  · exact (parseNullCase_state _ _ _ _ h) ▸ objrefsExtends_refl _
  · exact (parseIntCase_state _ _ _ _ _ _ h) ▸ objrefsExtends_refl _
  · exact (parseRealCase_state _ _ _ _ _ _ h) ▸ objrefsExtends_refl _
  · exact (parseDateCase_state _ _ _ _ _ h) ▸ objrefsExtends_refl _
  · exact (parseDataCase_state _ _ _ _ _ _ _ h) ▸ objrefsExtends_refl _
  · exact (parseStringCase_state _ _ _ _ _ _ _ h) ▸ objrefsExtends_refl _
  · exact (parseUIDCase_state _ _ _ _ _ _ h) ▸ objrefsExtends_refl _
  · exact parseDictCase_extends recur hrec _ _ _ _ _ _ _ h
  · have harr := parseArrayCase_objrefs _ _ _ _ _ _ _ h
    exact ⟨[], by rw [List.nil_append, harr]⟩
  · cases h

theorem parseTagAtOffset_extends (fuel : Nat) :
    ∀ ctx st off p st',
      parseTagAtOffset fuel ctx st off = .ok (p, st') →
      objrefsExtends st.objrefs st'.objrefs := by
  induction fuel with
  | zero =>
    intro ctx st off p st' h
    simp only [parseTagAtOffset] at h
    cases h
  | succ f ih =>
    intro ctx st off p st' h
    simp only [parseTagAtOffset] at h
    exact parseTagBody_extends (parseTagAtOffset f ctx)
      (fun st1 o1 p1 st1' hh1 => ih ctx st1 o1 p1 st1' hh1)
      ctx st off _ _ p st' h

theorem valueAtOffset_extends (fuel : Nat) (ctx : ParseCtx) (st : PSt)
    (off : Nat) (p : PVal) (st' : PSt)
    (h : valueAtOffset fuel ctx st off = .ok (p, st')) :
    objrefsExtends st.objrefs st'.objrefs :=
  valueAtOffsetF_extends _
    (fun st1 o1 p1 st1' hh => parseTagAtOffset_extends fuel ctx st1 o1 p1 st1' hh)
    st off p st' h

theorem valueAtOffset_memo (fuel : Nat) (ctx : ParseCtx) (st : PSt)
    (off : Nat) (p : PVal) (st' : PSt)
    (h : valueAtOffset fuel ctx st off = .ok (p, st')) :
    lookupObjrefs st'.objrefs off = some p := by
  unfold valueAtOffset valueAtOffsetF at h
  split at h
  · rename_i pval hmemo
    cases h
    exact hmemo
  · split at h
    · cases h
    · cases h
      simp [lookupObjrefs]

/-- The parse loop materializes every listed offset: on success, every
offset of the processed list is present in the memo table. -/
theorem parseAllObjects_materializes (fuel : Nat) (ctx : ParseCtx) :
    ∀ (offs : List Nat) (st st' : PSt),
      parseAllObjects fuel ctx offs st = .ok st' →
      objrefsExtends st.objrefs st'.objrefs
      ∧ ∀ off ∈ offs, (lookupObjrefs st'.objrefs off).isSome := by
  intro offs
  induction offs with
  | nil =>
    intro st st' h
    cases h
    exact ⟨objrefsExtends_refl _, by simp⟩
  | cons o rest ih =>
    intro st st' h
    simp only [parseAllObjects] at h
    split at h
    · cases h
    · rename_i pval st2 heq
      obtain ⟨hext2, hall⟩ := ih _ _ h
      refine ⟨objrefsExtends_trans
        (valueAtOffset_extends fuel ctx st o pval st2 heq) hext2, ?_⟩
      intro off hmem
      rcases List.mem_cons.mp hmem with hcase | hcase
      · subst hcase
        have hmemo := valueAtOffset_memo fuel ctx st off pval st2 heq
        exact lookupObjrefs_isSome_of_extends hext2 off (by simp [hmemo])
      · exact hall off hcase

/-- C10: the decode loop materializes every object listed in the offset
table (first conjunct: whenever the materialization pass succeeds, every
listed offset has a memoized object — and by the structure of
`parseDocument` the pass runs to completion, before delayed resolution and
the `TopObject` lookup, only if no object fails).  Consequently (second
conjunct, concretely) a document whose second object has the malformed tag
`0xF0` — unreachable from `TopObject`, which is object 0, a valid string —
fails the entire decode with the unknown-tag error. -/
theorem claim10_all_objects_materialized :
    (∀ (fuel : Nat) (ctx : ParseCtx) (offs : List Nat) (st st' : PSt),
        parseAllObjects fuel ctx offs st = .ok st' →
        ∀ off ∈ offs, (lookupObjrefs st'.objrefs off).isSome)
    ∧ parseDocument [0x62, 0x70, 0x6C, 0x69, 0x73, 0x74, 0x30, 0x30, 0x51,
        0x41, 0xF0, 8, 10, 0, 0, 0, 0, 0, 0, 1, 1, 0, 0, 0, 0, 0, 0, 0, 2,
        0, 0, 0, 0, 0, 0, 0, 0, 0, 0, 0, 0, 0, 0, 0, 11] 3
      = .error .unexpectedAtom :=
  ⟨fun fuel ctx offs st st' h =>
    (parseAllObjects_materializes fuel ctx offs st st' h).2, rfl⟩

/-- C10 witness: the single-object "Hello" document's parse loop memoizes
its one offset. -/
theorem claim10_all_objects_materialized_witness :
    ∀ off ∈ [8],
      (lookupObjrefs (PSt.mk [(8, .pString [72, 101, 108, 108, 111])] []).objrefs
        off).isSome :=
  claim10_all_objects_materialized.1 2
    ⟨[0x62, 0x70, 0x6C, 0x69, 0x73, 0x74, 0x30, 0x30, 0x55, 0x48, 0x65,
      0x6C, 0x6C, 0x6F, 0x08, 0x00, 0x00, 0x00, 0x00, 0x00, 0x00, 0x01,
      0x01, 0x00, 0x00, 0x00, 0x00, 0x00, 0x00, 0x00, 0x01, 0x00, 0x00,
      0x00, 0x00, 0x00, 0x00, 0x00, 0x00, 0x00, 0x00, 0x00, 0x00, 0x00,
      0x00, 0x00, 0x0E],
      ⟨[0, 0, 0, 0, 0], 0, 1, 1, 1, 0, 14⟩, [8]⟩
    [8] ⟨[], []⟩ (PSt.mk [(8, .pString [72, 101, 108, 108, 111])] []) (by rfl)

theorem lexNat_neg_trans {a b c : List Nat} (h1 : ¬ List.Lex (· < ·) b a)
    (h2 : ¬ List.Lex (· < ·) c b) : ¬ List.Lex (· < ·) c a := by
  intro h
  rcases trichotomous_of (List.Lex (· < ·) : List Nat → List Nat → Prop) a b
    with hab | hab | hab
  · exact h2 (IsTrans.trans c a b h hab)
  · exact h2 (hab ▸ h)
  · exact h1 hab

theorem goStrLt_not_of_not_not {a b c : GoStr} (h1 : ¬ goStrLt b a)
    (h2 : ¬ goStrLt c b) : ¬ goStrLt c a :=
  lexNat_neg_trans h1 h2

theorem goStrLt_asymm {a b : GoStr} (h : goStrLt a b) : ¬ goStrLt b a := by
  unfold goStrLt at *
  exact fun h2 => (List.Lex.isAsymm (· < ·)).asymm _ _ h h2

theorem insertEntry_perm (e : GoStr × cfValue) (l : List (GoStr × cfValue)) :
    (insertEntry e l).Perm (e :: l) := by
  induction l with
  | nil => exact List.Perm.refl _
  | cons f fs ih =>
    unfold insertEntry
    split
    · exact ((ih.cons f).trans (List.Perm.swap e f fs)).symm.symm
    · exact List.Perm.refl _

theorem sortEntries_perm (es : List (GoStr × cfValue)) :
    (sortEntries es).Perm es := by
  induction es with
  | nil => exact List.Perm.refl _
  | cons e es ih =>
    exact (insertEntry_perm e (sortEntries es)).trans (ih.cons e)

theorem insertEntry_sorted (e : GoStr × cfValue) (l : List (GoStr × cfValue))
    (h : l.Pairwise (fun a b => ¬ goStrLt b.1 a.1)) :
    (insertEntry e l).Pairwise (fun a b => ¬ goStrLt b.1 a.1) := by
  induction l with
  | nil => simp [insertEntry]
  | cons f fs ih =>
    rcases List.pairwise_cons.mp h with ⟨hf, hfs⟩
    unfold insertEntry
    split
    · rename_i hlt
      refine List.pairwise_cons.mpr ⟨?_, ih hfs⟩
      intro x hx
      rcases List.mem_cons.mp ((insertEntry_perm e fs).mem_iff.mp hx)
        with hx | hx
      · subst hx
        exact goStrLt_asymm hlt
      · exact hf x hx
    · rename_i hnlt
      refine List.pairwise_cons.mpr ⟨?_, h⟩
      intro x hx
      rcases List.mem_cons.mp hx with hx | hx
      · subst hx; exact hnlt
      · exact goStrLt_not_of_not_not hnlt (hf x hx)

theorem sortEntries_sorted (es : List (GoStr × cfValue)) :
    (sortEntries es).Pairwise (fun a b => ¬ goStrLt b.1 a.1) := by
  induction es with
  | nil => simp [sortEntries]
  | cons e es ih => exact insertEntry_sorted e (sortEntries es) ih

theorem except_ok_seq {ε α β : Type} (a : α) (f : α → Except ε β) :
    (Except.ok a >>= f) = f a := rfl

theorem except_pure_eq_ok {ε α : Type} (a : α) :
    (pure a : Except ε α) = Except.ok a := rfl

theorem exceptMapM_append {α β ε : Type} (f : α → Except ε β)
    (l1 l2 : List α) (r1 r2 : List β) (h1 : l1.mapM f = .ok r1)
    (h2 : l2.mapM f = .ok r2) : (l1 ++ l2).mapM f = .ok (r1 ++ r2) := by
  rw [← List.mapM'_eq_mapM] at h1 h2 ⊢
  induction l1 generalizing r1 with
  | nil =>
    simp only [List.mapM'] at h1
    cases h1
    simpa using h2
  | cons a l ih =>
    simp only [List.mapM', List.cons_append] at h1 ⊢
    cases hfa : f a with
    | error err =>
      rw [hfa] at h1
      cases h1
    | ok b =>
      rw [hfa] at h1
      cases hl : l.mapM' f with
      | error err =>
        rw [hl] at h1
        cases h1
      | ok bs =>
        rw [hl] at h1
        cases h1
        simp only [List.append_eq]
        rw [ih bs hl]
        rfl

/-- C7: the encoder sorts every dictionary by key before flattening, and a
dictionary record is the counted tag, then all N key references, then all N
value references, both blocks in the sorted key order.  First conjunct: the
sort pass orders entries lexicographically on the UTF-8 key bytes (pairwise,
no later key is below an earlier one) and is a permutation of the input;
second: `sortTree` applies exactly this sort to a dictionary node; third:
whenever the four reference lookups and writes succeed, the record is the
counted tag followed by the key-reference block followed by the
value-reference block, in entry order. -/
theorem claim7_dict_sort_layout :
    (∀ es : List (GoStr × cfValue),
        (sortEntries es).Pairwise (fun a b => ¬ goStrLt b.1 a.1)
        ∧ (sortEntries es).Perm es)
    ∧ (∀ es, sortTree (.cfDictionary es)
        = .cfDictionary (sortEntries (sortTreeEntries es)))
    ∧ (∀ (objmap : List (hashKey × Nat)) (refSize : Nat)
        (es : List (GoStr × AVal)) (kIdxs vIdxs : List Nat)
        (kRefs vRefs : List (List Nat)),
        es.mapM (fun e =>
            match lookupObjmap objmap (.hString e.1) with
            | some i => Except.ok i
            | none => Except.error genError.keyNotFound) = .ok kIdxs →
        es.mapM (fun e =>
            match indexForPlistValue objmap e.2 with
            | some i => Except.ok i
            | none => Except.error genError.valueNotFound) = .ok vIdxs →
        kIdxs.mapM (fun i => writeSizedInt i refSize) = .ok kRefs →
        vIdxs.mapM (fun i => writeSizedInt i refSize) = .ok vRefs →
        writeDictionaryTag objmap refSize es
          = .ok (writeCountedTag 0xD0 es.length
              ++ (kRefs.flatten ++ vRefs.flatten))) := by
  refine ⟨fun es => ⟨sortEntries_sorted es, sortEntries_perm es⟩,
    fun es => rfl, ?_⟩
  intro objmap refSize es kIdxs vIdxs kRefs vRefs hk hv hrk hrv
  have hr := exceptMapM_append (fun i => writeSizedInt i refSize)
    kIdxs vIdxs kRefs vRefs hrk hrv
  simp only [writeDictionaryTag, hk, hv, hr, except_ok_seq, except_pure_eq_ok]
  simp [List.flatten_append]

/-- C7 witness: a two-entry dictionary whose values share one slot writes
tag `0xD2`, key references `1, 2`, then value references `3, 3`. -/
theorem claim7_dict_sort_layout_witness :
    writeDictionaryTag
        [(.hString [107, 49], 1), (.hString [107, 50], 2), (.hString [118], 3)]
        1 [([107, 49], .aString [118]), ([107, 50], .aString [118])]
      = .ok [0xD2, 1, 2, 3, 3] :=
  claim7_dict_sort_layout.2.2
    [(.hString [107, 49], 1), (.hString [107, 50], 2), (.hString [118], 3)]
    1 [([107, 49], .aString [118]), ([107, 50], .aString [118])]
    [1, 2] [3, 3] [[1], [2]] [[3], [3]] (by rfl) (by rfl) (by rfl) (by rfl)

theorem flattenStringValue_extends (st : FlattenSt) (s : GoStr) :
    ∃ ext, (flattenStringValue st s).objtable = st.objtable ++ ext := by
  unfold flattenStringValue
  split
  · exact ⟨[], by simp⟩
  · exact ⟨[.aString s], rfl⟩

theorem flattenEntryKeys_extends (es : List (GoStr × AVal)) :
    ∀ st, ∃ ext, (flattenEntryKeys st es).objtable = st.objtable ++ ext := by
  induction es with
  | nil => exact fun st => ⟨[], by simp [flattenEntryKeys]⟩
  | cons e es ih =>
    intro st
    obtain ⟨e1, h1⟩ := flattenStringValue_extends st e.1
    obtain ⟨e2, h2⟩ := ih (flattenStringValue st e.1)
    exact ⟨e1 ++ e2, by simp [flattenEntryKeys, h2, h1]⟩

theorem flattenPlistValue_extends (st : FlattenSt) (p : AVal) :
    ∃ ext, (flattenPlistValue st p).objtable = st.objtable ++ ext := by
  induction st, p using flattenPlistValue.induct
  case motive_2 st2 vs =>
    exact ∃ ext, (flattenValueList st2 vs).objtable = st2.objtable ++ ext
  case motive_3 st2 es =>
    exact ∃ ext, (flattenEntryValues st2 es).objtable = st2.objtable ++ ext
  case case1 =>
    rename_i t st2 h
    exact ⟨[], by simp [flattenPlistValue, h]⟩
  case case2 =>
    rename_i st2 i es h st1 ih
    obtain ⟨e1, h1⟩ := flattenEntryKeys_extends es
      (pushSlot st2 (hashOfA (.aDict i es)) (.aDict i es))
    obtain ⟨e2, h2⟩ := ih
    refine ⟨.aDict i es :: (e1 ++ e2), ?_⟩
    simp only [st1] at h2
    simp [flattenPlistValue, h, pushSlot] at h2 h1 ⊢
    simp [h2, h1, pushSlot]
  case case3 =>
    rename_i st2 i vs h st1 ih
    obtain ⟨e2, h2⟩ := ih
    refine ⟨.aArray i vs :: e2, ?_⟩
    simp only [st1] at h2
    simp [flattenPlistValue, h, pushSlot] at h2 ⊢
    simp [h2]
  case case4 =>
    rename_i t st2 h hnd hna
    cases t with
    | aDict i es => exact absurd rfl (hnd i es)
    | aArray i vs => exact absurd rfl (hna i vs)
    | aString s => exact ⟨[.aString s], by simp [flattenPlistValue, h, pushSlot]⟩
    | aNumber s v => exact ⟨[.aNumber s v], by simp [flattenPlistValue, h, pushSlot]⟩
    | aReal w b => exact ⟨[.aReal w b], by simp [flattenPlistValue, h, pushSlot]⟩
    | aBoolean b => exact ⟨[.aBoolean b], by simp [flattenPlistValue, h, pushSlot]⟩
    | aData bs => exact ⟨[.aData bs], by simp [flattenPlistValue, h, pushSlot]⟩
    | aDate d => exact ⟨[.aDate d], by simp [flattenPlistValue, h, pushSlot]⟩
    | aUID v => exact ⟨[.aUID v], by simp [flattenPlistValue, h, pushSlot]⟩
    | aNil => exact ⟨[.aNil], by simp [flattenPlistValue, h, pushSlot]⟩
  case case5 =>
    exact ⟨[], by simp [flattenEntryValues]⟩
  case case6 =>
    rename_i st2 e es ih2 ih1
    obtain ⟨e1, h1⟩ := ih2
    obtain ⟨e2, h2⟩ := ih1
    exact ⟨e1 ++ e2, by simp [flattenEntryValues, h2, h1]⟩
  case case7 =>
    exact ⟨[], by simp [flattenValueList]⟩
  case case8 =>
    rename_i st2 v vs ih2 ih1
    obtain ⟨e1, h1⟩ := ih2
    obtain ⟨e2, h2⟩ := ih1
    exact ⟨e1 ++ e2, by simp [flattenValueList, h2, h1]⟩

theorem flattenEntryValues_extends (es : List (GoStr × AVal)) :
    ∀ st, ∃ ext, (flattenEntryValues st es).objtable = st.objtable ++ ext := by
  induction es with
  | nil => exact fun st => ⟨[], by simp [flattenEntryValues]⟩
  | cons e es ih =>
    intro st
    obtain ⟨e1, h1⟩ := flattenPlistValue_extends st e.2
    obtain ⟨e2, h2⟩ := ih (flattenPlistValue st e.2)
    exact ⟨e1 ++ e2, by simp [flattenEntryValues, h2, h1]⟩

theorem flattenValueList_extends (vs : List AVal) :
    ∀ st, ∃ ext, (flattenValueList st vs).objtable = st.objtable ++ ext := by
  induction vs with
  | nil => exact fun st => ⟨[], by simp [flattenValueList]⟩
  | cons v vs ih =>
    intro st
    obtain ⟨e1, h1⟩ := flattenPlistValue_extends st v
    obtain ⟨e2, h2⟩ := ih (flattenPlistValue st v)
    exact ⟨e1 ++ e2, by simp [flattenValueList, h2, h1]⟩

/-- C6: the flatten pass deduplicates by value hash exactly the uniquable
kinds.  A uniquable value (string, number, real, date, data) whose hash is
already in the uniquing map leaves the state untouched, so the existing
object-table slot is reused; strings, numbers, reals and dates are all
uniquable; a data value hashes to the crc-32 checksum of its bytes, so data
deduplication is by checksum; a dictionary or array is never deduplicated —
flattening one always appends a fresh slot holding that very container,
whatever the map contains.  Concretely: a dictionary with two keys mapping
to the identical string yields one table entry for that string, referenced
twice in the written record; two structurally identical empty arrays get
two distinct table entries. -/
theorem claim6_flatten_uniquing :
    (∀ (st : FlattenSt) (pval : AVal),
        isUniquedBplistValue pval = true →
        (lookupObjmap st.objmap (hashOfA pval)).isSome = true →
        flattenPlistValue st pval = st)
    ∧ (∀ s, isUniquedBplistValue (.aString s) = true)
    ∧ (∀ sg v, isUniquedBplistValue (.aNumber sg v) = true)
    ∧ (∀ w b, isUniquedBplistValue (.aReal w b) = true)
    ∧ (∀ d, isUniquedBplistValue (.aDate d) = true)
    ∧ (∀ bs, hashOfA (.aData bs) = .hData (crc32 bs))
    ∧ (∀ st i es, ∃ tail,
        (flattenPlistValue st (.aDict i es)).objtable
          = st.objtable ++ .aDict i es :: tail)
    ∧ (∀ st i vs, ∃ tail,
        (flattenPlistValue st (.aArray i vs)).objtable
          = st.objtable ++ .aArray i vs :: tail)
    ∧ (flattenPlistValue ⟨[], []⟩
          (.aDict 0 [([107, 49], .aString [118]), ([107, 50], .aString [118])])).objtable
        = [.aDict 0 [([107, 49], .aString [118]), ([107, 50], .aString [118])],
           .aString [107, 49], .aString [107, 50], .aString [118]]
    ∧ writeDictionaryTag
          (flattenPlistValue ⟨[], []⟩
            (.aDict 0 [([107, 49], .aString [118]), ([107, 50], .aString [118])])).objmap
          1 [([107, 49], .aString [118]), ([107, 50], .aString [118])]
        = .ok [0xD2, 1, 2, 3, 3]
    ∧ (flattenPlistValue ⟨[], []⟩ (.aArray 0 [.aArray 1 [], .aArray 2 []])).objtable
        = [.aArray 0 [.aArray 1 [], .aArray 2 []], .aArray 1 [], .aArray 2 []] := by
  refine ⟨?_, fun s => rfl, fun sg v => rfl, fun w b => rfl, fun d => rfl,
    fun bs => rfl, ?_, ?_, rfl, rfl, rfl⟩
  · intro st pval h hhit
    simp [flattenPlistValue, h, hhit]
  · intro st i es
    obtain ⟨e1, h1⟩ := flattenEntryKeys_extends es
      (pushSlot st (hashOfA (.aDict i es)) (.aDict i es))
    obtain ⟨e2, h2⟩ := flattenEntryValues_extends es
      (flattenEntryKeys (pushSlot st (hashOfA (.aDict i es)) (.aDict i es)) es)
    refine ⟨e1 ++ e2, ?_⟩
    have hun : flattenPlistValue st (.aDict i es)
        = flattenEntryValues
            (flattenEntryKeys
              (pushSlot st (hashOfA (.aDict i es)) (.aDict i es)) es) es := by
      simp [flattenPlistValue, isUniquedBplistValue]
    rw [hun, h2, h1]
    simp [pushSlot]
  · intro st i vs
    obtain ⟨e2, h2⟩ := flattenValueList_extends vs
      (pushSlot st (hashOfA (.aArray i vs)) (.aArray i vs))
    refine ⟨e2, ?_⟩
    have hun : flattenPlistValue st (.aArray i vs)
        = flattenValueList
            (pushSlot st (hashOfA (.aArray i vs)) (.aArray i vs)) vs := by
      simp [flattenPlistValue, isUniquedBplistValue]
    rw [hun, h2]
    simp [pushSlot]

/-- C6 witness: re-flattening an already-flattened one-character string
leaves the generator state unchanged. -/
theorem claim6_flatten_uniquing_witness :
    flattenPlistValue ⟨[(.hString [104], 0)], [.aString [104]]⟩ (.aString [104])
      = ⟨[(.hString [104], 0)], [.aString [104]]⟩ :=
  claim6_flatten_uniquing.1 _ _ (by decide) (by decide)

theorem cyc_step8 (recur : PSt → Nat → Except bplistError (PVal × PSt))
    (hrec : recur ⟨[], []⟩ 11 = .error .fuelExhausted) :
    parseTagBody recur cycCtx ⟨[], []⟩ 8 0xD1 9 = .error .fuelExhausted := by
  simp [parseTagBody, parseDictCase, parseDictEntriesF, valueAtOffsetF,
    countForTag, readSizedInt, readFull, readRefList,
    validateObjectListLength, lookupObjrefs, cycCtx, cycBytes, u64, beVal,
    List.getD, hrec]

theorem cyc_step11 (recur : PSt → Nat → Except bplistError (PVal × PSt))
    (hrec : recur ⟨[], []⟩ 8 = .error .fuelExhausted) :
    parseTagBody recur cycCtx ⟨[], []⟩ 11 0xD1 12 = .error .fuelExhausted := by
  simp [parseTagBody, parseDictCase, parseDictEntriesF, valueAtOffsetF,
    countForTag, readSizedInt, readFull, readRefList,
    validateObjectListLength, lookupObjrefs, cycCtx, cycBytes, u64, beVal,
    List.getD, hrec]

theorem cyc_loop (fuel : Nat) :
    parseTagAtOffset fuel cycCtx ⟨[], []⟩ 8 = .error .fuelExhausted ∧
    parseTagAtOffset fuel cycCtx ⟨[], []⟩ 11 = .error .fuelExhausted := by
  induction fuel with
  | zero => exact ⟨rfl, rfl⟩
  | succ fuel ih =>
    refine ⟨?_, ?_⟩
    · have he : parseTagAtOffset (fuel + 1) cycCtx ⟨[], []⟩ 8
          = parseTagBody (parseTagAtOffset fuel cycCtx) cycCtx ⟨[], []⟩ 8
            0xD1 9 := by
        show parseTagBody (parseTagAtOffset fuel cycCtx) cycCtx ⟨[], []⟩ 8
            (readFull cycCtx.bytes 8 1).1 (readFull cycCtx.bytes 8 1).2 = _
        rfl
      rw [he]
      exact cyc_step8 _ ih.2
    · have he : parseTagAtOffset (fuel + 1) cycCtx ⟨[], []⟩ 11
          = parseTagBody (parseTagAtOffset fuel cycCtx) cycCtx ⟨[], []⟩ 11
            0xD1 12 := by
        show parseTagBody (parseTagAtOffset fuel cycCtx) cycCtx ⟨[], []⟩ 11
            (readFull cycCtx.bytes 11 1).1 (readFull cycCtx.bytes 11 1).2 = _
        rfl
      rw [he]
      exact cyc_step11 _ ih.1

/-- C2: the decoder has no stack of in-progress container indices — the
only cycle check is the direct self-reference comparison — so the
two-object dictionary-key cycle of `cycBytes` drives it into unbounded
recursion: no amount of fuel lets `parseDocument` terminate normally (in
the Go code, which has no fuel, this is an infinite recursion through
`parseTagAtOffset`, crashing the process on stack overflow). -/
theorem claim2_cycle_recursion_guard :
    ∀ fuel : Nat, parseDocument cycBytes fuel = .error .fuelExhausted := by
  intro fuel
  have h8 := (cyc_loop fuel).1
  simp [parseDocument, parseVersionDigits, parseTrailer, readOffsets,
    validateDocumentTrailer, readSizedInt, readFull, readByteSlice,
    parseAllObjects, valueAtOffset, valueAtOffsetF, lookupObjrefs,
    cycBytes, cycCtx, u64, goShl64, beVal, List.getD] at h8 ⊢
  simp [h8]

theorem beBytes_len (w n : Nat) : (beBytes w n).length = w := by
  induction w generalizing n with
  | zero => rfl
  | succ w ih => simp [beBytes, ih]

theorem beVal_app (bs cs : List Nat) :
    beVal (bs ++ cs) = cs.foldl (fun acc b => acc * 256 + b) (beVal bs) := by
  simp [beVal, List.foldl_append]

theorem beVal_beBytes_eq (w n : Nat) : beVal (beBytes w n) = n % 2 ^ (8 * w) := by
  induction w generalizing n with
  | zero => simp [beBytes, beVal, Nat.mod_one]
  | succ w ih =>
    have h : beVal (beBytes w (n / 256) ++ [n % 256])
        = beVal (beBytes w (n / 256)) * 256 + n % 256 := by
      simp [beVal_app, beVal]
    have hpow : 2 ^ (8 * (w + 1)) = 2 ^ (8 * w) * 256 := by
      rw [Nat.mul_succ, pow_add]; norm_num
    calc beVal (beBytes (w + 1) n)
        = beVal (beBytes w (n / 256)) * 256 + n % 256 := h
      _ = n / 256 % 2 ^ (8 * w) * 256 + n % 256 := by rw [ih]
      _ = n % 2 ^ (8 * (w + 1)) := by
          rw [hpow, mul_comm (2 ^ (8 * w)) 256, Nat.mod_mul]
          ring

theorem beVal_beBytes_lt (w n : Nat) (h : n < 2 ^ (8 * w)) :
    beVal (beBytes w n) = n := by
  rw [beVal_beBytes_eq, Nat.mod_eq_of_lt h]

/-- Reading `|Q|` bytes at position `|P|` of `P ++ Q ++ R` yields the
big-endian value of `Q`. -/
theorem readFull_seg (P Q R : List Nat) :
    readFull (P ++ (Q ++ R)) P.length Q.length
      = (beVal Q, P.length + Q.length) := by
  unfold readFull
  have hlen : P.length + Q.length ≤ (P ++ (Q ++ R)).length := by
    simp [List.length_append]
  rw [if_pos hlen, List.drop_left, List.take_left]

theorem readFull_seg_eq (bytes P Q R : List Nat) (pos n : Nat)
    (hB : bytes = P ++ (Q ++ R)) (hpos : pos = P.length) (hn : n = Q.length) :
    readFull bytes pos n = (beVal Q, pos + n) := by
  subst hB; subst hpos; subst hn; exact readFull_seg P Q R

theorem seg_split (pre seg post : List Nat) (k n : Nat) :
    pre ++ seg ++ post
      = (pre ++ seg.take k) ++ ((seg.drop k).take n
          ++ (seg.drop (k + n) ++ post)) := by
  have h2 : (seg.drop k).drop n = seg.drop (k + n) := by
    rw [List.drop_drop, Nat.add_comm]
  conv_lhs =>
    rw [← List.take_append_drop k seg, ← List.take_append_drop n (seg.drop k)]
  rw [h2]
  simp only [List.append_assoc]

theorem readFull_within (bytes pre seg post : List Nat) (pos k n : Nat)
    (hB : bytes = pre ++ seg ++ post) (hpos : pos = pre.length + k)
    (hkn : k + n ≤ seg.length) :
    readFull bytes pos n = (beVal ((seg.drop k).take n), pos + n) := by
  apply readFull_seg_eq bytes (pre ++ seg.take k) ((seg.drop k).take n)
      (seg.drop (k + n) ++ post)
  · rw [hB]; exact seg_split pre seg post k n
  · simp [hpos, List.length_take]
    omega
  · simp [List.length_take, List.length_drop]
    omega

theorem readSizedInt_at (bytes pre post : List Nat) (pos w n : Nat)
    (hw : w = 1 ∨ w = 2 ∨ w = 4 ∨ w = 8)
    (hB : bytes = pre ++ beBytes w n ++ post) (hpos : pos = pre.length)
    (hn : n < 2 ^ (8 * w)) :
    readSizedInt bytes pos w = .ok ((n, 0), pos + w) := by
  unfold readSizedInt
  rw [if_pos hw]
  have hr : readFull bytes pos w = (n, pos + w) := by
    have := readFull_seg_eq bytes pre (beBytes w n) post pos w
      (by rw [hB]; simp) hpos (by rw [beBytes_len])
    rwa [beVal_beBytes_lt w n hn] at this
  simp [hr]

theorem parseTagAtOffset_succ (fuel : Nat) (ctx : ParseCtx) (st : PSt)
    (off : Nat) :
    parseTagAtOffset (fuel + 1) ctx st off
      = parseTagBody (parseTagAtOffset fuel ctx) ctx st off
          (readFull ctx.bytes off 1).1 (readFull ctx.bytes off 1).2 := rfl

theorem readTagByte (bytes pre post : List Nat) (t : Nat) (ht : t < 256)
    (hB : bytes = pre ++ (t :: post)) :
    readFull bytes pre.length 1 = (t, pre.length + 1) := by
  have := readFull_seg_eq bytes pre [t] post pre.length 1
    (by rw [hB]; simp) rfl rfl
  simpa [beVal] using this

theorem parse_rec_int (fuel : Nat) (ctx : ParseCtx) (st : PSt)
    (pre post : List Nat) (n : Nat) (hn : n < 2 ^ 64)
    (hB : ctx.bytes = pre ++ writeIntTag n ++ post) :
    parseTagAtOffset (fuel + 1) ctx st pre.length
      = .ok (.pNumber false n, st) := by
  rw [parseTagAtOffset_succ]
  by_cases h1 : n ≤ 0xff
  · rw [writeIntTag, if_pos h1] at hB
    rw [readTagByte ctx.bytes pre (beBytes 1 n ++ post) 0x10 (by norm_num)
      (by rw [hB]; simp)]
    show parseTagBody _ ctx st pre.length 0x10 (pre.length + 1) = _
    rw [parseTagBody]
    norm_num
    rw [parseIntCase]
    rw [show (2:Nat) ^ (0x10 % 16) = 1 from rfl]
    rw [readSizedInt_at ctx.bytes (pre ++ [0x10]) post
      (pre.length + 1) 1 n (by norm_num)
      (by rw [hB]; simp) (by simp) (by omega)]
    simp
  · by_cases h2 : n ≤ 0xffff
    · rw [writeIntTag, if_neg h1, if_pos h2] at hB
      rw [readTagByte ctx.bytes pre (beBytes 2 n ++ post) 0x11 (by norm_num)
        (by rw [hB]; simp)]
      show parseTagBody _ ctx st pre.length 0x11 (pre.length + 1) = _
      rw [parseTagBody]
      norm_num
      rw [parseIntCase]
      rw [show (2:Nat) ^ (0x11 % 16) = 2 from rfl]
      rw [readSizedInt_at ctx.bytes (pre ++ [0x11]) post
        (pre.length + 1) 2 n (by norm_num)
        (by rw [hB]; simp) (by simp) (by omega)]
      simp
    · by_cases h3 : n ≤ 0xffffffff
      · rw [writeIntTag, if_neg h1, if_neg h2, if_pos h3] at hB
        rw [readTagByte ctx.bytes pre (beBytes 4 n ++ post) 0x12 (by norm_num)
          (by rw [hB]; simp)]
        show parseTagBody _ ctx st pre.length 0x12 (pre.length + 1) = _
        rw [parseTagBody]
        norm_num
        rw [parseIntCase]
        rw [show (2:Nat) ^ (0x12 % 16) = 4 from rfl]
        rw [readSizedInt_at ctx.bytes (pre ++ [0x12]) post
          (pre.length + 1) 4 n (by norm_num)
          (by rw [hB]; simp) (by simp) (by omega)]
        simp
      · rw [writeIntTag, if_neg h1, if_neg h2, if_neg h3] at hB
        rw [readTagByte ctx.bytes pre (beBytes 8 n ++ post) 0x13 (by norm_num)
          (by rw [hB]; simp)]
        show parseTagBody _ ctx st pre.length 0x13 (pre.length + 1) = _
        rw [parseTagBody]
        norm_num
        rw [parseIntCase]
        rw [show (2:Nat) ^ (0x13 % 16) = 8 from rfl]
        rw [readSizedInt_at ctx.bytes (pre ++ [0x13]) post
          (pre.length + 1) 8 n (by norm_num)
          (by rw [hB]; simp) (by simp) (by omega)]
        simp

theorem parse_rec_bool (fuel : Nat) (ctx : ParseCtx) (st : PSt)
    (pre post : List Nat) (b : Bool)
    (hB : ctx.bytes = pre ++ writeBoolTag b ++ post) :
    parseTagAtOffset (fuel + 1) ctx st pre.length = .ok (.pBool b, st) := by
  rw [parseTagAtOffset_succ]
  cases b
  · rw [writeBoolTag] at hB
    rw [readTagByte ctx.bytes pre post 0x08 (by norm_num) (by rw [hB]; simp)]
    show parseTagBody _ ctx st pre.length 0x08 (pre.length + 1) = _
    rw [parseTagBody]
    norm_num
    rw [parseNullCase]
    norm_num
  · rw [writeBoolTag] at hB
    rw [readTagByte ctx.bytes pre post 0x09 (by norm_num) (by rw [hB]; simp)]
    show parseTagBody _ ctx st pre.length 0x09 (pre.length + 1) = _
    rw [parseTagBody]
    norm_num
    rw [parseNullCase]
    norm_num

theorem log2_succ_div (n : Nat) (h : 2 ≤ n) :
    Nat.log2 n = Nat.log2 (n / 2) + 1 := by
  rw [Nat.log2, if_pos h]

theorem log2_div_pow (k : Nat) : ∀ n : Nat, 2 ^ k ≤ n →
    Nat.log2 (n / 2 ^ k) + k = Nat.log2 n := by
  induction k with
  | zero =>
    intro n h
    simp
  | succ k ih =>
    intro n h
    have h2 : 2 ≤ n := by
      calc 2 = 2 ^ 1 := rfl
        _ ≤ 2 ^ (k + 1) := Nat.pow_le_pow_right (by norm_num) (by omega)
        _ ≤ n := h
    have hd : n / 2 ^ (k + 1) = n / 2 / 2 ^ k := by
      rw [Nat.div_div_eq_div_mul]
      congr 1
      rw [pow_succ, Nat.mul_comm]
    have hk : 2 ^ k ≤ n / 2 := by
      rw [Nat.le_div_iff_mul_le (by norm_num)]
      calc 2 ^ k * 2 = 2 ^ (k + 1) := by rw [pow_succ]
        _ ≤ n := h
    calc Nat.log2 (n / 2 ^ (k + 1)) + (k + 1)
        = (Nat.log2 (n / 2 / 2 ^ k) + k) + 1 := by rw [hd]; omega
      _ = Nat.log2 (n / 2) + 1 := by rw [ih (n / 2) hk]
      _ = Nat.log2 n := (log2_succ_div n h2).symm

theorem log2F_eq (fuel : Nat) :
    ∀ n : Nat, n ≤ fuel → log2F fuel n = Nat.log2 n := by
  induction fuel with
  | zero =>
    intro n h
    have hn : n = 0 := by omega
    subst hn
    rw [log2F, Nat.log2]
    norm_num
  | succ f ih =>
    intro n h
    rw [log2F]
    by_cases h64 : 2 ^ 64 ≤ n
    · rw [if_pos h64, ih (n / 2 ^ 64) (by omega)]
      exact log2_div_pow 64 n h64
    · rw [if_neg h64]
      by_cases h2 : 2 ≤ n
      · rw [if_pos h2, ih (n / 2) (by omega), ← log2_succ_div n h2]
      · rw [if_neg h2, Nat.log2, if_neg h2]

theorem natLog2_eq (n : Nat) : natLog2 n = Nat.log2 n :=
  log2F_eq n n (Nat.le_refl n)

theorem natLog2_self_lt (n : Nat) : n < 2 ^ (natLog2 n + 1) := by
  rw [natLog2_eq]
  exact Nat.lt_log2_self

theorem roundPosMag_le (num den : Nat) :
    roundPosMag num den ≤ 0x7FF0000000000000 := by
  simp only [roundPosMag]
  split
  · rename_i hlt
    have hq : num * 2 ^ 1074 / (den * 2 ^ (natLog2 (num * 2 ^ 1074 / den) - 52))
        < 2 ^ 52 := by
      have h0 : natLog2 (num * 2 ^ 1074 / den) - 52 = 0 := by omega
      rw [h0, pow_zero, Nat.mul_one]
      have h1 := natLog2_self_lt (num * 2 ^ 1074 / den)
      calc num * 2 ^ 1074 / den
          < 2 ^ (natLog2 (num * 2 ^ 1074 / den) + 1) := h1
        _ ≤ 2 ^ 52 := Nat.pow_le_pow_right (by norm_num) (by omega)
    split <;> omega
  · split
    · exact Nat.le_refl _
    · rename_i hge hlt2
      have hq : num * 2 ^ 1074 / (den * 2 ^ (natLog2 (num * 2 ^ 1074 / den) - 52))
          < 2 ^ 53 := by
        rw [← Nat.div_div_eq_div_mul]
        have h1 := natLog2_self_lt (num * 2 ^ 1074 / den)
        rw [Nat.div_lt_iff_lt_mul (Nat.pos_pow_of_pos _ (by norm_num))]
        calc num * 2 ^ 1074 / den
            < 2 ^ (natLog2 (num * 2 ^ 1074 / den) + 1) := h1
          _ = 2 ^ 53 * 2 ^ (natLog2 (num * 2 ^ 1074 / den) - 52) := by
              rw [← pow_add]
              congr 1
              omega
      have he : natLog2 (num * 2 ^ 1074 / den) - 51 ≤ 2046 := by omega
      split <;> omega

theorem roundMag_le (n : Nat) (E : Int) :
    roundMag n E ≤ 0x7FF0000000000000 := by
  rw [roundMag]
  split <;> apply roundPosMag_le

theorem roundDyadic_lt (num E : Int) : roundDyadic num E < 2 ^ 64 := by
  rw [roundDyadic]
  have h1 := roundMag_le num.toNat E
  have h2 := roundMag_le (-num).toNat E
  split
  · omega
  · split <;> omega

theorem f64Neg_lt (b : Nat) (h : b < 2 ^ 64) : f64Neg b < 2 ^ 64 := by
  rw [f64Neg]
  split <;> omega

theorem f64Add_lt (a b : Nat) (ha : a < 2 ^ 64) (hb : b < 2 ^ 64) :
    f64Add a b < 2 ^ 64 := by
  rw [f64Add]
  have hz0 : zeroBits (f64Sign a && f64Sign b) < 2 ^ 64 := by
    rw [zeroBits]; split <;> norm_num
  have hq : qNaNBits < 2 ^ 64 := by rw [qNaNBits]; norm_num
  split
  · exact hq
  split
  · split
    · exact ha
    · exact hq
  split
  · exact ha
  split
  · exact hb
  split
  · exact hz0
  · exact roundDyadic_lt _ _

theorem f64Sub_lt (a b : Nat) (ha : a < 2 ^ 64) (hb : b < 2 ^ 64) :
    f64Sub a b < 2 ^ 64 :=
  f64Add_lt a (f64Neg b) ha (f64Neg_lt b hb)

theorem f64Div_lt (a b : Nat) : f64Div a b < 2 ^ 64 := by
  simp only [f64Div]
  have hq : qNaNBits < 2 ^ 64 := by rw [qNaNBits]; norm_num
  have hi : ∀ s, infBits s < 2 ^ 64 := by
    intro s; rw [infBits]; split <;> norm_num
  have hz : ∀ s, zeroBits s < 2 ^ 64 := by
    intro s; rw [zeroBits]; split <;> norm_num
  split
  · exact hq
  split
  · exact hq
  split
  · exact hq
  split
  · exact hi _
  split
  · exact hz _
  · have := roundPosMag_le (f64Mant a * 2 ^ (f64E2 a - f64E2 b).toNat)
      (f64Mant b * 2 ^ (-(f64E2 a - f64E2 b)).toNat)
    split <;> omega

theorem f64OfInt_lt (n : Int) : f64OfInt n < 2 ^ 64 := by
  rw [f64OfInt]
  exact roundDyadic_lt n 0

theorem encodeDateBits_lt (ns : Int) : encodeDateBits ns < 2 ^ 64 := by
  rw [encodeDateBits]
  exact f64Sub_lt _ _ (f64Div_lt _ _) (f64OfInt_lt 978307200)

theorem parse_rec_date (fuel : Nat) (ctx : ParseCtx) (st : PSt)
    (pre post : List Nat) (d : Int)
    (hB : ctx.bytes = pre ++ writeDateTag d ++ post) :
    parseTagAtOffset (fuel + 1) ctx st pre.length
      = .ok (.pDate (dateRound d), st) := by
  rw [parseTagAtOffset_succ]
  rw [writeDateTag] at hB
  rw [readTagByte ctx.bytes pre (beBytes 8 (encodeDateBits d) ++ post) 0x33
    (by norm_num) (by rw [hB]; simp)]
  show parseTagBody _ ctx st pre.length 0x33 (pre.length + 1) = _
  rw [parseTagBody]
  norm_num
  rw [parseDateCase]
  have hr := readFull_seg_eq ctx.bytes (pre ++ [0x33])
    (beBytes 8 (encodeDateBits d)) post
    (pre.length + 1) 8 (by rw [hB]; simp) (by simp) (by rw [beBytes_len])
  rw [beVal_beBytes_lt 8 (encodeDateBits d) (encodeDateBits_lt d)] at hr
  rw [hr]
  rfl

theorem parse_rec_real (fuel : Nat) (ctx : ParseCtx) (st : PSt)
    (pre post : List Nat) (w : Bool) (b : Nat)
    (hb : b < 2 ^ (if w then 64 else 32))
    (hB : ctx.bytes = pre ++ writeRealTag w b ++ post) :
    parseTagAtOffset (fuel + 1) ctx st pre.length = .ok (.pReal w b, st) := by
  rw [parseTagAtOffset_succ]
  cases w
  · rw [writeRealTag] at hB
    simp only [Bool.false_eq_true, if_false] at hB
    rw [readTagByte ctx.bytes pre (beBytes 4 b ++ post) 0x22 (by norm_num)
      (by rw [hB]; simp)]
    show parseTagBody _ ctx st pre.length 0x22 (pre.length + 1) = _
    rw [parseTagBody]
    norm_num
    rw [parseRealCase]
    rw [show (2:Nat) ^ (0x22 % 16) = 4 from rfl]
    norm_num
    have hr := readFull_seg_eq ctx.bytes (pre ++ [0x22]) (beBytes 4 b) post
      (pre.length + 1) 4 (by rw [hB]; simp) (by simp) (by rw [beBytes_len])
    rw [beVal_beBytes_lt 4 b (by simpa using hb)] at hr
    rw [hr]
  · rw [writeRealTag] at hB
    simp only [if_true] at hB
    rw [readTagByte ctx.bytes pre (beBytes 8 b ++ post) 0x23 (by norm_num)
      (by rw [hB]; simp)]
    show parseTagBody _ ctx st pre.length 0x23 (pre.length + 1) = _
    rw [parseTagBody]
    norm_num
    rw [parseRealCase]
    rw [show (2:Nat) ^ (0x23 % 16) = 8 from rfl]
    norm_num
    have hr := readFull_seg_eq ctx.bytes (pre ++ [0x23]) (beBytes 8 b) post
      (pre.length + 1) 8 (by rw [hB]; simp) (by simp) (by rw [beBytes_len])
    rw [beVal_beBytes_lt 8 b (by simpa using hb)] at hr
    rw [hr]

theorem parse_rec_uid (fuel : Nat) (ctx : ParseCtx) (st : PSt)
    (pre post : List Nat) (u : Nat) (hu : u < 2 ^ 64)
    (hB : ctx.bytes = pre ++ writeUIDTag u ++ post) :
    parseTagAtOffset (fuel + 1) ctx st pre.length = .ok (.pUID u, st) := by
  rw [parseTagAtOffset_succ]
  rw [writeUIDTag] at hB
  by_cases h1 : u ≤ 0xff
  · rw [minimumSizeForInt, if_pos h1] at hB
    rw [readTagByte ctx.bytes pre (beBytes 1 u ++ post) 0x80 (by norm_num)
      (by rw [hB]; simp)]
    show parseTagBody _ ctx st pre.length 0x80 (pre.length + 1) = _
    rw [parseTagBody]
    norm_num
    rw [parseUIDCase]
    rw [show (0x80 % 16 + 1 : Nat) = 1 from rfl]
    rw [readSizedInt_at ctx.bytes (pre ++ [0x80]) post (pre.length + 1) 1 u
      (by norm_num) (by rw [hB]; simp) (by simp) (by omega)]
  · by_cases h2 : u ≤ 0xffff
    · rw [minimumSizeForInt, if_neg h1, if_pos h2] at hB
      rw [readTagByte ctx.bytes pre (beBytes 2 u ++ post) 0x81 (by norm_num)
        (by rw [hB]; simp)]
      show parseTagBody _ ctx st pre.length 0x81 (pre.length + 1) = _
      rw [parseTagBody]
      norm_num
      rw [parseUIDCase]
      rw [show (0x81 % 16 + 1 : Nat) = 2 from rfl]
      rw [readSizedInt_at ctx.bytes (pre ++ [0x81]) post (pre.length + 1) 2 u
        (by norm_num) (by rw [hB]; simp) (by simp) (by omega)]
    · by_cases h3 : u ≤ 0xffffffff
      · rw [minimumSizeForInt, if_neg h1, if_neg h2, if_pos h3] at hB
        rw [readTagByte ctx.bytes pre (beBytes 4 u ++ post) 0x83 (by norm_num)
          (by rw [hB]; simp)]
        show parseTagBody _ ctx st pre.length 0x83 (pre.length + 1) = _
        rw [parseTagBody]
        norm_num
        rw [parseUIDCase]
        rw [show (0x83 % 16 + 1 : Nat) = 4 from rfl]
        rw [readSizedInt_at ctx.bytes (pre ++ [0x83]) post (pre.length + 1) 4 u
          (by norm_num) (by rw [hB]; simp) (by simp) (by omega)]
      · rw [minimumSizeForInt, if_neg h1, if_neg h2, if_neg h3] at hB
        rw [readTagByte ctx.bytes pre (beBytes 8 u ++ post) 0x87 (by norm_num)
          (by rw [hB]; simp)]
        show parseTagBody _ ctx st pre.length 0x87 (pre.length + 1) = _
        rw [parseTagBody]
        norm_num
        rw [parseUIDCase]
        rw [show (0x87 % 16 + 1 : Nat) = 8 from rfl]
        rw [readSizedInt_at ctx.bytes (pre ++ [0x87]) post (pre.length + 1) 8 u
          (by norm_num) (by rw [hB]; simp) (by simp) (by omega)]

theorem utf8Decode_encode_le255 (s : List Nat) (hs : ∀ r ∈ s, r ≤ 0xFF) :
    ∀ fuel rest, s.length ≤ fuel →
      utf8DecodeFuel (fuel + rest) (utf8Encode s) = s := by
  induction s with
  | nil => intro fuel rest _; cases fuel <;> cases rest <;> rfl
  | cons r s ih =>
    intro fuel rest hlen
    have hr : r ≤ 0xFF := hs r (List.mem_cons_self r s)
    have hs2 : ∀ x ∈ s, x ≤ 0xFF := fun x hx => hs x (List.mem_cons_of_mem r hx)
    obtain ⟨f2, hf2⟩ : ∃ f2, fuel = f2 + 1 :=
      ⟨fuel - 1, by simp only [List.length_cons] at hlen; omega⟩
    subst hf2
    have hslen : s.length ≤ f2 := by
      simp only [List.length_cons] at hlen; omega
    have hfa : f2 + 1 + rest = f2 + rest + 1 := by omega
    rw [hfa]
    by_cases hlo : r < 0x80
    · show utf8DecodeFuel (f2 + rest + 1) (utf8EncodeChar r ++ utf8Encode s) = _
      rw [utf8EncodeChar, if_pos hlo]
      show utf8DecodeFuel (f2 + rest + 1) (r :: utf8Encode s) = _
      simp [utf8DecodeFuel, hlo, ih hs2 f2 rest hslen]
    · show utf8DecodeFuel (f2 + rest + 1) (utf8EncodeChar r ++ utf8Encode s) = _
      rw [utf8EncodeChar, if_neg hlo, if_pos (show r < 0x800 by omega)]
      show utf8DecodeFuel (f2 + rest + 1)
        ((0xC0 + r / 0x40) :: (0x80 + r % 0x40) :: utf8Encode s) = _
      have hb1 : ¬(0xC0 + r / 0x40 < 0x80) := by omega
      have hb2 : ¬(0xC0 + r / 0x40 < 0xC2) := by omega
      have hb3 : 0xC0 + r / 0x40 < 0xE0 := by omega
      have hcont : utf8Cont (0x80 + r % 0x40) = true := by
        unfold utf8Cont
        simp only [decide_eq_true_eq]
        exact ⟨by omega, by omega⟩
      simp [utf8DecodeFuel, hb1, hb2, hb3, hcont, ih hs2 f2 rest hslen]
      omega

theorem utf16Decode_encode_valid (s : List Nat) (hs : ∀ r ∈ s, validRune r) :
    ∀ fuel rest, s.length ≤ fuel →
      utf16DecodeFuel (fuel + rest) (utf16Encode s) = s := by
  induction s with
  | nil => intro fuel rest _; cases fuel <;> cases rest <;> rfl
  | cons r s ih =>
    intro fuel rest hlen
    have hr : validRune r := hs r (List.mem_cons_self r s)
    have hs2 : ∀ x ∈ s, validRune x := fun x hx => hs x (List.mem_cons_of_mem r hx)
    obtain ⟨f2, hf2⟩ : ∃ f2, fuel = f2 + 1 :=
      ⟨fuel - 1, by simp only [List.length_cons] at hlen; omega⟩
    subst hf2
    have hslen : s.length ≤ f2 := by
      simp only [List.length_cons] at hlen; omega
    have hfa : f2 + 1 + rest = f2 + rest + 1 := by omega
    rw [hfa]
    unfold validRune at hr
    rcases hr with hvr | hvr
    · by_cases hbmp : r < 0x10000
      · have hns : ¬(0xD800 ≤ r ∧ r < 0xE000) := by omega
        show utf16DecodeFuel (f2 + rest + 1) (utf16EncodeChar r ++ utf16Encode s) = _
        rw [utf16EncodeChar, if_pos hbmp, if_neg hns]
        show utf16DecodeFuel (f2 + rest + 1) (r :: utf16Encode s) = _
        have hn1 : ¬(0xD800 ≤ r ∧ r < 0xDC00) := by omega
        have hn2 : ¬(0xDC00 ≤ r ∧ r < 0xE000) := by omega
        simp [utf16DecodeFuel, hn1, hn2, ih hs2 f2 rest hslen]
      · have hlt : r < 0x110000 := by omega
        show utf16DecodeFuel (f2 + rest + 1) (utf16EncodeChar r ++ utf16Encode s) = _
        rw [utf16EncodeChar, if_neg hbmp, if_pos hlt]
        show utf16DecodeFuel (f2 + rest + 1)
          ((0xD800 + (r - 0x10000) / 0x400) :: (0xDC00 + (r - 0x10000) % 0x400)
            :: utf16Encode s) = _
        have hq : (r - 0x10000) / 0x400 < 0x400 := by omega
        have hp1 : 0xD800 ≤ 0xD800 + (r - 0x10000) / 0x400
            ∧ 0xD800 + (r - 0x10000) / 0x400 < 0xDC00 := ⟨by omega, by omega⟩
        have hp2 : 0xDC00 ≤ 0xDC00 + (r - 0x10000) % 0x400
            ∧ 0xDC00 + (r - 0x10000) % 0x400 < 0xE000 := ⟨by omega, by omega⟩
        simp [utf16DecodeFuel, hp1, hp2, ih hs2 f2 rest hslen]
        omega
    · by_cases hbmp : r < 0x10000
      · have hns : ¬(0xD800 ≤ r ∧ r < 0xE000) := by omega
        show utf16DecodeFuel (f2 + rest + 1) (utf16EncodeChar r ++ utf16Encode s) = _
        rw [utf16EncodeChar, if_pos hbmp, if_neg hns]
        show utf16DecodeFuel (f2 + rest + 1) (r :: utf16Encode s) = _
        have hn1 : ¬(0xD800 ≤ r ∧ r < 0xDC00) := by omega
        have hn2 : ¬(0xDC00 ≤ r ∧ r < 0xE000) := by omega
        simp [utf16DecodeFuel, hn1, hn2, ih hs2 f2 rest hslen]
      · have hlt : r < 0x110000 := by omega
        show utf16DecodeFuel (f2 + rest + 1) (utf16EncodeChar r ++ utf16Encode s) = _
        rw [utf16EncodeChar, if_neg hbmp, if_pos hlt]
        show utf16DecodeFuel (f2 + rest + 1)
          ((0xD800 + (r - 0x10000) / 0x400) :: (0xDC00 + (r - 0x10000) % 0x400)
            :: utf16Encode s) = _
        have hq : (r - 0x10000) / 0x400 < 0x400 := by omega
        have hp1 : 0xD800 ≤ 0xD800 + (r - 0x10000) / 0x400
            ∧ 0xD800 + (r - 0x10000) / 0x400 < 0xDC00 := ⟨by omega, by omega⟩
        have hp2 : 0xDC00 ≤ 0xDC00 + (r - 0x10000) % 0x400
            ∧ 0xDC00 + (r - 0x10000) % 0x400 < 0xE000 := ⟨by omega, by omega⟩
        simp [utf16DecodeFuel, hp1, hp2, ih hs2 f2 rest hslen]
        omega

theorem chunk2_units (us : List Nat) (h : ∀ u ∈ us, u < 0x10000) :
    chunk2 ((us.map (beBytes 2)).flatten) = us := by
  induction us with
  | nil => rfl
  | cons u us ih =>
    have hu : u < 0x10000 := h u (List.mem_cons_self u us)
    have hus : ∀ x ∈ us, x < 0x10000 := fun x hx => h x (List.mem_cons_of_mem u hx)
    show chunk2 (beBytes 2 u ++ (us.map (beBytes 2)).flatten) = _
    have hbe : beBytes 2 u = [u / 256 % 256, u % 256] := by
      show beBytes 1 (u / 256) ++ [u % 256] = _
      show beBytes 0 (u / 256 / 256) ++ [u / 256 % 256] ++ [u % 256] = _
      rfl
    rw [hbe]
    show chunk2 (u / 256 % 256 :: u % 256 :: (us.map (beBytes 2)).flatten) = _
    rw [chunk2]
    rw [ih hus]
    congr 1
    omega

theorem countForTag_small (bytes : List Nat) (tagBase cnt pos : Nat)
    (htb : tagBase % 16 = 0) (hcnt : cnt < 0xF) :
    countForTag bytes (tagBase + cnt) pos = .ok (cnt, pos) := by
  have h1 : (tagBase + cnt) % 16 = cnt := by omega
  simp [countForTag, h1]
  omega

theorem countForTag_large (bytes pre post : List Nat) (tag cnt pos : Nat)
    (htag : tag % 16 = 0xF) (hc64 : cnt < 2 ^ 64)
    (hB : bytes = pre ++ writeIntTag cnt ++ post) (hpos : pos = pre.length) :
    countForTag bytes tag pos
      = .ok (cnt, pos + (writeIntTag cnt).length) := by
  subst hpos
  unfold countForTag
  rw [htag]
  rw [if_pos rfl]
  by_cases h1 : cnt ≤ 0xff
  · rw [writeIntTag, if_pos h1] at hB
    rw [readTagByte bytes pre (beBytes 1 cnt ++ post) 0x10 (by norm_num)
      (by rw [hB]; simp)]
    dsimp only
    rw [show (2:Nat) ^ (0x10 % 16) = 1 from rfl]
    rw [readSizedInt_at bytes (pre ++ [0x10]) post (pre.length + 1) 1 cnt
      (by norm_num) (by rw [hB]; simp) (by simp) (by omega)]
    simp [writeIntTag, h1, beBytes_len]
  · by_cases h2 : cnt ≤ 0xffff
    · rw [writeIntTag, if_neg h1, if_pos h2] at hB
      rw [readTagByte bytes pre (beBytes 2 cnt ++ post) 0x11 (by norm_num)
        (by rw [hB]; simp)]
      dsimp only
      rw [show (2:Nat) ^ (0x11 % 16) = 2 from rfl]
      rw [readSizedInt_at bytes (pre ++ [0x11]) post (pre.length + 1) 2 cnt
        (by norm_num) (by rw [hB]; simp) (by simp) (by omega)]
      simp [writeIntTag, h1, h2, beBytes_len]
    · by_cases h3 : cnt ≤ 0xffffffff
      · rw [writeIntTag, if_neg h1, if_neg h2, if_pos h3] at hB
        rw [readTagByte bytes pre (beBytes 4 cnt ++ post) 0x12 (by norm_num)
          (by rw [hB]; simp)]
        dsimp only
        rw [show (2:Nat) ^ (0x12 % 16) = 4 from rfl]
        rw [readSizedInt_at bytes (pre ++ [0x12]) post (pre.length + 1) 4 cnt
          (by norm_num) (by rw [hB]; simp) (by simp) (by omega)]
        simp [writeIntTag, h1, h2, h3, beBytes_len]
      · rw [writeIntTag, if_neg h1, if_neg h2, if_neg h3] at hB
        rw [readTagByte bytes pre (beBytes 8 cnt ++ post) 0x13 (by norm_num)
          (by rw [hB]; simp)]
        dsimp only
        rw [show (2:Nat) ^ (0x13 % 16) = 8 from rfl]
        rw [readSizedInt_at bytes (pre ++ [0x13]) post (pre.length + 1) 8 cnt
          (by norm_num) (by rw [hB]; simp) (by simp) (by omega)]
        simp [writeIntTag, h1, h2, h3, beBytes_len]

theorem readByteSlice_at (bytes pre D post : List Nat) (pos : Nat)
    (hB : bytes = pre ++ (D ++ post)) (hpos : pos = pre.length) :
    readByteSlice bytes pos D.length
      = (D, min (pos + D.length) bytes.length) := by
  subst hB; subst hpos
  unfold readByteSlice
  rw [List.drop_left, List.take_left]
  simp

theorem readUInt16s_at (bytes pre U post : List Nat) (pos cnt : Nat)
    (hB : bytes = pre ++ (U ++ post)) (hpos : pos = pre.length)
    (hlen : U.length = 2 * cnt) :
    readUInt16s bytes pos cnt = chunk2 U := by
  subst hB; subst hpos
  unfold readUInt16s
  rw [if_pos (by simp [List.length_append]; omega)]
  rw [List.drop_left, ← hlen, List.take_left]

theorem parse_rec_data (fuel : Nat) (ctx : ParseCtx) (st : PSt)
    (pre post : List Nat) (data : List Nat)
    (hOTO : pre.length + (writeDataTag data).length
        ≤ ctx.trailer.offsetTableOffset)
    (hOTO64 : ctx.trailer.offsetTableOffset < 2 ^ 64)
    (hB : ctx.bytes = pre ++ writeDataTag data ++ post) :
    parseTagAtOffset (fuel + 1) ctx st pre.length = .ok (.pData data, st) := by
  rw [parseTagAtOffset_succ]
  rw [writeDataTag] at hB hOTO
  by_cases hbig : data.length ≥ 0xF
  · rw [writeCountedTag, if_pos hbig] at hB hOTO
    have hc64 : data.length < 2 ^ 64 := by
      simp [List.length_append, beBytes_len] at hOTO
      omega
    rw [readTagByte ctx.bytes pre (writeIntTag data.length ++ (data ++ post))
      0x4F (by norm_num) (by rw [hB]; simp)]
    show parseTagBody _ ctx st pre.length 0x4F (pre.length + 1) = _
    rw [parseTagBody]
    norm_num
    rw [parseDataCase]
    rw [countForTag_large ctx.bytes (pre ++ [0x4F]) (data ++ post) 0x4F
      data.length (pre.length + 1) (by norm_num) hc64 (by rw [hB]; simp)
      (by simp)]
    dsimp only
    have hno : ¬(u64 (pre.length + data.length)
        > ctx.trailer.offsetTableOffset) := by
      unfold u64
      simp [List.length_append, beBytes_len] at hOTO
      rw [Nat.mod_eq_of_lt (by omega)]
      omega
    rw [if_neg hno]
    rw [readByteSlice_at ctx.bytes (pre ++ [0x4F] ++ writeIntTag data.length)
      data post (pre.length + 1 + (writeIntTag data.length).length)
      (by rw [hB]; simp) (by simp [List.length_append]; omega)]
  · push_neg at hbig
    rw [writeCountedTag, if_neg (by omega)] at hB hOTO
    rw [readTagByte ctx.bytes pre (data ++ post) (0x40 + data.length)
      (by omega) (by rw [hB]; simp)]
    show parseTagBody _ ctx st pre.length (0x40 + data.length)
      (pre.length + 1) = _
    rw [parseTagBody]
    rw [if_neg (by omega), if_neg (by omega), if_neg (by omega),
      if_neg (by omega), if_pos (by omega)]
    rw [parseDataCase]
    rw [countForTag_small ctx.bytes 0x40 data.length (pre.length + 1)
      (by norm_num) hbig]
    dsimp only
    have hno : ¬(u64 (pre.length + data.length)
        > ctx.trailer.offsetTableOffset) := by
      unfold u64
      simp [List.length_append] at hOTO
      rw [Nat.mod_eq_of_lt (by omega)]
      omega
    rw [if_neg hno]
    rw [readByteSlice_at ctx.bytes (pre ++ [0x40 + data.length]) data post
      (pre.length + 1) (by rw [hB]; simp) (by simp)]

theorem utf8Encode_length_ge (s : List Nat) :
    s.length ≤ (utf8Encode s).length := by
  induction s with
  | nil => simp [utf8Encode]
  | cons r s ih =>
    show (r :: s).length ≤ (utf8EncodeChar r ++ utf8Encode s).length
    have h1 : 1 ≤ (utf8EncodeChar r).length := by
      unfold utf8EncodeChar
      split
      · simp
      · split
        · simp
        · split <;> simp
    simp only [List.length_cons, List.length_append]
    omega

theorem utf16Encode_length_ge (s : List Nat) :
    s.length ≤ (utf16Encode s).length := by
  induction s with
  | nil => simp [utf16Encode]
  | cons r s ih =>
    show (r :: s).length ≤ (utf16EncodeChar r ++ utf16Encode s).length
    have h1 : 1 ≤ (utf16EncodeChar r).length := by
      unfold utf16EncodeChar
      split
      · split <;> simp
      · split <;> simp
    simp only [List.length_cons, List.length_append]
    omega

theorem utf16Encode_lt (s : List Nat) : ∀ u ∈ utf16Encode s, u < 0x10000 := by
  induction s with
  | nil => simp [utf16Encode]
  | cons r s ih =>
    intro u hu
    rw [show utf16Encode (r :: s) = utf16EncodeChar r ++ utf16Encode s
      from rfl] at hu
    rcases List.mem_append.mp hu with h | h
    · unfold utf16EncodeChar at h
      split at h
      · split at h
        · simp at h; omega
        · simp at h; omega
      · split at h
        · simp at h
          rcases h with h | h <;> omega
        · simp at h; omega
    · exact ih u h

theorem utf16_bytes_len (us : List Nat) :
    ((us.map (beBytes 2)).flatten).length = 2 * us.length := by
  induction us with
  | nil => rfl
  | cons u us ih =>
    show (beBytes 2 u ++ (us.map (beBytes 2)).flatten).length = _
    simp only [List.length_append, List.length_cons, ih, beBytes_len]
    omega

theorem utf16_bytes_sum (us : List Nat) :
    (List.map (List.length ∘ beBytes 2) us).sum = 2 * us.length := by
  induction us with
  | nil => rfl
  | cons u us ih =>
    simp only [List.map_cons, List.sum_cons, ih, Function.comp, beBytes_len,
      List.length_cons]
    omega

theorem parseStrCase_utf8 (ctx : ParseCtx) (st : PSt) (off tag pos pos2 : Nat)
    (s pre2 post : List Nat)
    (h5 : tag / 16 = 5)
    (hcft : countForTag ctx.bytes tag pos
      = .ok ((utf8Encode s).length, pos2))
    (hB : ctx.bytes = pre2 ++ (utf8Encode s ++ post))
    (hpos2 : pos2 = pre2.length)
    (h255 : ∀ r ∈ s, r ≤ 0xFF)
    (hOTO : off + (utf8Encode s).length ≤ ctx.trailer.offsetTableOffset)
    (hOTO64 : ctx.trailer.offsetTableOffset < 2 ^ 64) :
    parseStringCase ctx st off tag pos = .ok (.pString s, st) := by
  rw [parseStringCase, hcft]
  dsimp only
  have hn6 : ¬ tag / 16 = 6 := by omega
  rw [if_neg hn6]
  have hno : ¬(u64 (off + u64 ((utf8Encode s).length * 1))
      > ctx.trailer.offsetTableOffset) := by
    unfold u64
    rw [Nat.mul_one, Nat.mod_eq_of_lt (by omega), Nat.mod_eq_of_lt (by omega)]
    omega
  rw [if_neg hno]
  rw [if_pos h5]
  rw [readByteSlice_at ctx.bytes pre2 (utf8Encode s) post pos2 hB hpos2]
  have hdec : utf8Decode (utf8Encode s) = s := by
    unfold utf8Decode
    have hle := utf8Encode_length_ge s
    have heq : (utf8Encode s).length
        = s.length + ((utf8Encode s).length - s.length) := by omega
    rw [heq]
    exact utf8Decode_encode_le255 s h255 s.length _ (Nat.le_refl _)
  rw [hdec]

theorem parseStrCase_utf16 (ctx : ParseCtx) (st : PSt) (off tag pos pos2 : Nat)
    (s pre2 post : List Nat)
    (h6 : tag / 16 = 6)
    (hcft : countForTag ctx.bytes tag pos
      = .ok ((utf16Encode s).length, pos2))
    (hB : ctx.bytes = pre2 ++ (((utf16Encode s).map (beBytes 2)).flatten ++ post))
    (hpos2 : pos2 = pre2.length)
    (hval : ∀ r ∈ s, validRune r)
    (hOTO : off + 2 * (utf16Encode s).length ≤ ctx.trailer.offsetTableOffset)
    (hOTO64 : ctx.trailer.offsetTableOffset < 2 ^ 64) :
    parseStringCase ctx st off tag pos = .ok (.pString s, st) := by
  rw [parseStringCase, hcft]
  dsimp only
  rw [if_pos h6]
  have hno : ¬(u64 (off + u64 ((utf16Encode s).length * 2))
      > ctx.trailer.offsetTableOffset) := by
    unfold u64
    rw [Nat.mod_eq_of_lt (by omega), Nat.mod_eq_of_lt (by omega)]
    omega
  rw [if_neg hno]
  rw [if_neg (show ¬ tag / 16 = 5 by omega)]
  rw [readUInt16s_at ctx.bytes pre2 (((utf16Encode s).map (beBytes 2)).flatten)
    post pos2 (utf16Encode s).length hB hpos2 (utf16_bytes_len _)]
  rw [chunk2_units (utf16Encode s) (utf16Encode_lt s)]
  have hdec : utf16Decode (utf16Encode s) = s := by
    unfold utf16Decode
    have hle := utf16Encode_length_ge s
    have heq : (utf16Encode s).length
        = s.length + ((utf16Encode s).length - s.length) := by omega
    rw [heq]
    exact utf16Decode_encode_valid s hval s.length _ (Nat.le_refl _)
  rw [hdec]

theorem parse_rec_string (fuel : Nat) (ctx : ParseCtx) (st : PSt)
    (pre post : List Nat) (s : List Nat)
    (hval : ∀ r ∈ s, validRune r)
    (hOTO : pre.length + (writeStringTag s).length
        ≤ ctx.trailer.offsetTableOffset)
    (hOTO64 : ctx.trailer.offsetTableOffset < 2 ^ 64)
    (hB : ctx.bytes = pre ++ writeStringTag s ++ post) :
    parseTagAtOffset (fuel + 1) ctx st pre.length = .ok (.pString s, st) := by
  rw [parseTagAtOffset_succ]
  rw [writeStringTag] at hB hOTO
  by_cases hwide : s.any (fun r => 0xFF < r) = true
  · rw [if_pos hwide] at hB hOTO
    by_cases hbig : (utf16Encode s).length ≥ 0xF
    · rw [writeCountedTag, if_pos hbig] at hB hOTO
      have hc64 : (utf16Encode s).length < 2 ^ 64 := by
        simp [List.length_append, beBytes_len, utf16_bytes_len, utf16_bytes_sum] at hOTO
        omega
      rw [readTagByte ctx.bytes pre (writeIntTag (utf16Encode s).length
        ++ (((utf16Encode s).map (beBytes 2)).flatten ++ post)) 0x6F
        (by norm_num) (by rw [hB]; simp)]
      show parseTagBody _ ctx st pre.length 0x6F (pre.length + 1) = _
      rw [parseTagBody]
      norm_num
      exact parseStrCase_utf16 ctx st pre.length 0x6F (pre.length + 1)
        (pre.length + 1 + (writeIntTag (utf16Encode s).length).length)
        s (pre ++ [0x6F] ++ writeIntTag (utf16Encode s).length) post
        (by norm_num)
        (countForTag_large ctx.bytes (pre ++ [0x6F])
          ((((utf16Encode s).map (beBytes 2)).flatten ++ post)) 0x6F
          (utf16Encode s).length (pre.length + 1) (by norm_num) hc64
          (by rw [hB]; simp) (by simp))
        (by rw [hB]; simp)
        (by simp [List.length_append]; omega)
        hval
        (by simp [List.length_append, beBytes_len, utf16_bytes_len, utf16_bytes_sum] at hOTO ⊢
            omega)
        hOTO64
    · push_neg at hbig
      rw [writeCountedTag, if_neg (by omega)] at hB hOTO
      rw [readTagByte ctx.bytes pre
        ((((utf16Encode s).map (beBytes 2)).flatten ++ post))
        (0x60 + (utf16Encode s).length) (by omega) (by rw [hB]; simp)]
      show parseTagBody _ ctx st pre.length (0x60 + (utf16Encode s).length)
        (pre.length + 1) = _
      have hq6 : (0x60 + (utf16Encode s).length) / 16 = 6 := by omega
      have hno : ∀ m : Nat, m ≠ 6 →
          ¬ (0x60 + (utf16Encode s).length) / 16 = m :=
        fun m hm hc => hm (hc.symm.trans hq6)
      rw [parseTagBody]
      rw [if_neg (hno 0 (by decide)), if_neg (hno 1 (by decide)),
        if_neg (hno 2 (by decide)), if_neg (hno 3 (by decide)),
        if_neg (hno 4 (by decide)), if_pos (Or.inr hq6)]
      exact parseStrCase_utf16 ctx st pre.length
        (0x60 + (utf16Encode s).length) (pre.length + 1) (pre.length + 1)
        s (pre ++ [0x60 + (utf16Encode s).length]) post
        (by omega)
        (countForTag_small ctx.bytes 0x60 (utf16Encode s).length
          (pre.length + 1) (by norm_num) hbig)
        (by rw [hB]; simp)
        (by simp)
        hval
        (by simp [List.length_append, utf16_bytes_len, utf16_bytes_sum] at hOTO ⊢
            omega)
        hOTO64
  · rw [if_neg hwide] at hB hOTO
    have h255 : ∀ r ∈ s, r ≤ 0xFF := by
      intro r hr
      by_contra hgt
      exact hwide (List.any_eq_true.mpr ⟨r, hr, by simp; omega⟩)
    by_cases hbig : (utf8Encode s).length ≥ 0xF
    · rw [writeCountedTag, if_pos hbig] at hB hOTO
      have hc64 : (utf8Encode s).length < 2 ^ 64 := by
        simp [List.length_append, beBytes_len] at hOTO
        omega
      rw [readTagByte ctx.bytes pre (writeIntTag (utf8Encode s).length
        ++ (utf8Encode s ++ post)) 0x5F (by norm_num) (by rw [hB]; simp)]
      show parseTagBody _ ctx st pre.length 0x5F (pre.length + 1) = _
      rw [parseTagBody]
      norm_num
      exact parseStrCase_utf8 ctx st pre.length 0x5F (pre.length + 1)
        (pre.length + 1 + (writeIntTag (utf8Encode s).length).length)
        s (pre ++ [0x5F] ++ writeIntTag (utf8Encode s).length) post
        (by norm_num)
        (countForTag_large ctx.bytes (pre ++ [0x5F]) (utf8Encode s ++ post)
          0x5F (utf8Encode s).length (pre.length + 1) (by norm_num) hc64
          (by rw [hB]; simp) (by simp))
        (by rw [hB]; simp)
        (by simp [List.length_append]; omega)
        h255
        (by simp [List.length_append, beBytes_len] at hOTO ⊢
            omega)
        hOTO64
    · push_neg at hbig
      rw [writeCountedTag, if_neg (by omega)] at hB hOTO
      rw [readTagByte ctx.bytes pre (utf8Encode s ++ post)
        (0x50 + (utf8Encode s).length) (by omega) (by rw [hB]; simp)]
      show parseTagBody _ ctx st pre.length (0x50 + (utf8Encode s).length)
        (pre.length + 1) = _
      have hq5 : (0x50 + (utf8Encode s).length) / 16 = 5 := by omega
      have hno : ∀ m : Nat, m ≠ 5 →
          ¬ (0x50 + (utf8Encode s).length) / 16 = m :=
        fun m hm hc => hm (hc.symm.trans hq5)
      rw [parseTagBody]
      rw [if_neg (hno 0 (by decide)), if_neg (hno 1 (by decide)),
        if_neg (hno 2 (by decide)), if_neg (hno 3 (by decide)),
        if_neg (hno 4 (by decide)), if_pos (Or.inl hq5)]
      exact parseStrCase_utf8 ctx st pre.length
        (0x50 + (utf8Encode s).length) (pre.length + 1) (pre.length + 1)
        s (pre ++ [0x50 + (utf8Encode s).length]) post
        (by omega)
        (countForTag_small ctx.bytes 0x50 (utf8Encode s).length
          (pre.length + 1) (by norm_num) hbig)
        (by rw [hB]; simp)
        (by simp)
        h255
        (by simp [List.length_append] at hOTO ⊢
            omega)
        hOTO64

/-- Whether an annotated value is a container. -/
def isContainerA : AVal → Bool
  | .aDict _ _ => true
  | .aArray _ _ => true
  | _ => false

theorem parse_rec_scalar (fuel : Nat) (ctx : ParseCtx) (st : PSt)
    (pre post rec : List Nat) (a : AVal)
    (objmap : List (hashKey × Nat)) (refSize : Nat)
    (offsets : List Nat) (objmap2 : List (hashKey × Nat))
    (hwf : awf a = true) (hcont : isContainerA a = false)
    (hw : writePlistValue objmap refSize a = .ok rec)
    (hOTO : pre.length + rec.length ≤ ctx.trailer.offsetTableOffset)
    (hOTO64 : ctx.trailer.offsetTableOffset < 2 ^ 64)
    (hB : ctx.bytes = pre ++ rec ++ post) :
    parseTagAtOffset (fuel + 1) ctx st pre.length
      = .ok (pvalOfA offsets objmap2 a, st) := by
  cases a with
  | aDict i es => simp [isContainerA] at hcont
  | aArray i vs => simp [isContainerA] at hcont
  | aNil => simp [awf] at hwf
  | aString str =>
    cases hw
    have hval : ∀ r ∈ str, validRune r := by
      intro r hr
      have := (List.all_eq_true.mp hwf) r hr
      simpa using this
    exact parse_rec_string fuel ctx st pre post str hval hOTO hOTO64 hB
  | aNumber sg v =>
    cases hw
    have hv : v < 2 ^ 64 := by simpa [awf] using hwf
    exact parse_rec_int fuel ctx st pre post v hv hB
  | aReal w b =>
    cases hw
    have hb : b < 2 ^ (if w then 64 else 32) := by
      cases w <;> simp [awf] at hwf <;> simp [hwf.1]
    exact parse_rec_real fuel ctx st pre post w b hb hB
  | aBoolean b =>
    cases hw
    exact parse_rec_bool fuel ctx st pre post b hB
  | aData bs =>
    cases hw
    exact parse_rec_data fuel ctx st pre post bs hOTO hOTO64 hB
  | aDate d =>
    cases hw
    exact parse_rec_date fuel ctx st pre post d hB
  | aUID u =>
    cases hw
    have hu : u < 2 ^ 64 := by simpa [awf] using hwf
    exact parse_rec_uid fuel ctx st pre post u hu hB

theorem eraseA_annotate (v : cfValue) (n : Nat) :
    eraseA (annotateV v n).1 = v := by
  induction v, n using annotateV.induct
  case motive_2 vs n =>
    exact eraseAList (annotateList vs n).1 = vs
  case motive_3 es n =>
    exact eraseAEntries (annotateEntries es n).1 = es
  case case1 =>
    rename_i es n2 ih
    simp [annotateV, eraseA, ih]
  case case2 =>
    rename_i vs n2 ih
    simp [annotateV, eraseA, ih]
  case case12 =>
    rename_i e es n2 r ih2 ih1
    simp [annotateEntries, eraseAEntries, ih2]
    exact ih1
  case case14 =>
    rename_i v2 vs n2 r ih2 ih1
    simp [annotateList, eraseAList, ih2]
    exact ih1
  all_goals rfl
theorem decA_annotate (v : cfValue) (n : Nat) :
    decA (annotateV v n).1 = wireRound v := by
  induction v, n using annotateV.induct
  case motive_2 vs n =>
    exact decAList (annotateList vs n).1 = wireRoundList vs
  case motive_3 es n =>
    exact decAEntries (annotateEntries es n).1 = wireRoundEntries es
  case case1 =>
    rename_i es n2 ih
    simp [annotateV, decA, wireRound, ih]
  case case2 =>
    rename_i vs n2 ih
    simp [annotateV, decA, wireRound, ih]
  case case12 =>
    rename_i e es n2 r ih2 ih1
    simp [annotateEntries, decAEntries, wireRoundEntries, ih2]
    rw [show (annotateV e.2 n2).2 = r.2 from rfl, ih1]
  case case14 =>
    rename_i v2 vs n2 r ih2 ih1
    simp [annotateList, decAList, wireRoundList, ih2]
    rw [show (annotateV v2 n2).2 = r.2 from rfl, ih1]
  all_goals rfl

theorem awf_annotate (v : cfValue) (n : Nat) :
    awf (annotateV v n).1 = wfValue v := by
  induction v, n using annotateV.induct
  case motive_2 vs n =>
    exact awfList (annotateList vs n).1 = wfList vs
  case motive_3 es n =>
    exact awfEntries (annotateEntries es n).1 = wfEntries es
  case case1 =>
    rename_i es n2 ih
    simp [annotateV, awf, wfValue, ih]
  case case2 =>
    rename_i vs n2 ih
    simp [annotateV, awf, wfValue, ih]
  case case12 =>
    rename_i e es n2 r ih2 ih1
    simp [annotateEntries, awfEntries, wfEntries, ih2]
    rw [show (annotateV e.2 n2).2 = r.2 from rfl, ih1]
  case case14 =>
    rename_i v2 vs n2 r ih2 ih1
    simp [annotateList, awfList, wfList, ih2]
    rw [show (annotateV v2 n2).2 = r.2 from rfl, ih1]
  all_goals rfl

theorem depthA_annotate (v : cfValue) (n : Nat) :
    depthA (annotateV v n).1 = depthC v := by
  induction v, n using annotateV.induct
  case motive_2 vs n =>
    exact depthAList (annotateList vs n).1 = depthCList vs
  case motive_3 es n =>
    exact depthAEntries (annotateEntries es n).1 = depthCEntries es
  case case1 =>
    rename_i es n2 ih
    simp [annotateV, depthA, depthC, ih]
  case case2 =>
    rename_i vs n2 ih
    simp [annotateV, depthA, depthC, ih]
  case case12 =>
    rename_i e es n2 r ih2 ih1
    simp [annotateEntries, depthAEntries, depthCEntries, ih2]
    rw [show (annotateV e.2 n2).2 = r.2 from rfl, ih1]
  case case14 =>
    rename_i v2 vs n2 r ih2 ih1
    simp [annotateList, depthAList, depthCList, ih2]
    rw [show (annotateV v2 n2).2 = r.2 from rfl, ih1]
  all_goals rfl

theorem annotate_ids (v : cfValue) (n : Nat) :
    n ≤ (annotateV v n).2
    ∧ (∀ id ∈ idsOfA (annotateV v n).1, n ≤ id ∧ id < (annotateV v n).2)
    ∧ (idsOfA (annotateV v n).1).Nodup := by
  induction v, n using annotateV.induct
  case motive_2 vs n =>
    exact n ≤ (annotateList vs n).2
      ∧ (∀ id ∈ (subsOfList (annotateList vs n).1).filterMap aValId,
          n ≤ id ∧ id < (annotateList vs n).2)
      ∧ ((subsOfList (annotateList vs n).1).filterMap aValId).Nodup
  case motive_3 es n =>
    exact n ≤ (annotateEntries es n).2
      ∧ (∀ id ∈ (subsOfEntries (annotateEntries es n).1).filterMap aValId,
          n ≤ id ∧ id < (annotateEntries es n).2)
      ∧ ((subsOfEntries (annotateEntries es n).1).filterMap aValId).Nodup
  case case1 =>
    rename_i es n2 ih
    obtain ⟨h1, h2, h3⟩ := ih
    have hids : idsOfA (annotateV (.cfDictionary es) n2).1
        = n2 :: (subsOfEntries (annotateEntries es (n2 + 1)).1).filterMap
            aValId := by
      simp [annotateV, idsOfA, subsOf, aValId]
    refine ⟨by simp [annotateV]; omega, ?_, ?_⟩
    · rw [hids]
      intro id hid
      rcases List.mem_cons.mp hid with h | h
      · subst h
        exact ⟨Nat.le_refl _, by simp [annotateV]; omega⟩
      · obtain ⟨ha, hb⟩ := h2 id h
        exact ⟨by omega, by simp [annotateV]; omega⟩
    · rw [hids]
      refine List.nodup_cons.mpr ⟨?_, h3⟩
      intro hmem
      obtain ⟨ha, _⟩ := h2 n2 hmem
      omega
  case case2 =>
    rename_i vs n2 ih
    obtain ⟨h1, h2, h3⟩ := ih
    have hids : idsOfA (annotateV (.cfArray vs) n2).1
        = n2 :: (subsOfList (annotateList vs (n2 + 1)).1).filterMap
            aValId := by
      simp [annotateV, idsOfA, subsOf, aValId]
    refine ⟨by simp [annotateV]; omega, ?_, ?_⟩
    · rw [hids]
      intro id hid
      rcases List.mem_cons.mp hid with h | h
      · subst h
        exact ⟨Nat.le_refl _, by simp [annotateV]; omega⟩
      · obtain ⟨ha, hb⟩ := h2 id h
        exact ⟨by omega, by simp [annotateV]; omega⟩
    · rw [hids]
      refine List.nodup_cons.mpr ⟨?_, h3⟩
      intro hmem
      obtain ⟨ha, _⟩ := h2 n2 hmem
      omega
  case case12 =>
    rename_i e es n2 r ih2 ih1
    obtain ⟨g1, g2, g3⟩ := ih2
    obtain ⟨f1, f2, f3⟩ := ih1
    have hsplit : (subsOfEntries (annotateEntries (e :: es) n2).1).filterMap
          aValId
        = idsOfA (annotateV e.2 n2).1
          ++ (subsOfEntries (annotateEntries es r.2).1).filterMap aValId := by
      simp [annotateEntries, subsOfEntries, idsOfA, List.filterMap_append]
    have hr2 : (annotateEntries (e :: es) n2).2 = (annotateEntries es r.2).2 := by
      simp [annotateEntries]
    refine ⟨?_, ?_, ?_⟩
    · rw [hr2]
      have : (annotateV e.2 n2).2 = r.2 := rfl
      omega
    · rw [hsplit, hr2]
      intro id hid
      rcases List.mem_append.mp hid with h | h
      · obtain ⟨ha, hb⟩ := g2 id h
        have hb2 : id < r.2 := hb
        omega
      · obtain ⟨ha, hb⟩ := f2 id h
        have : (annotateV e.2 n2).2 = r.2 := rfl
        constructor <;> omega
    · rw [hsplit]
      refine List.Nodup.append g3 f3 ?_
      intro x hx1 hx2
      obtain ⟨_, hb⟩ := g2 x hx1
      obtain ⟨ha, _⟩ := f2 x hx2
      have : (annotateV e.2 n2).2 = r.2 := rfl
      omega
  case case14 =>
    rename_i v2 vs n2 r ih2 ih1
    obtain ⟨g1, g2, g3⟩ := ih2
    obtain ⟨f1, f2, f3⟩ := ih1
    have hsplit : (subsOfList (annotateList (v2 :: vs) n2).1).filterMap aValId
        = idsOfA (annotateV v2 n2).1
          ++ (subsOfList (annotateList vs r.2).1).filterMap aValId := by
      simp [annotateList, subsOfList, idsOfA, List.filterMap_append]
    have hr2 : (annotateList (v2 :: vs) n2).2 = (annotateList vs r.2).2 := by
      simp [annotateList]
    refine ⟨?_, ?_, ?_⟩
    · rw [hr2]
      have : (annotateV v2 n2).2 = r.2 := rfl
      omega
    · rw [hsplit, hr2]
      intro id hid
      rcases List.mem_append.mp hid with h | h
      · obtain ⟨ha, hb⟩ := g2 id h
        have hb2 : id < r.2 := hb
        omega
      · obtain ⟨ha, hb⟩ := f2 id h
        have : (annotateV v2 n2).2 = r.2 := rfl
        constructor <;> omega
    · rw [hsplit]
      refine List.Nodup.append g3 f3 ?_
      intro x hx1 hx2
      obtain ⟨_, hb⟩ := g2 x hx1
      obtain ⟨ha, _⟩ := f2 x hx2
      have : (annotateV v2 n2).2 = r.2 := rfl
      omega
  all_goals
    exact ⟨Nat.le_refl _,
      by simp [annotateV, annotateList, annotateEntries, idsOfA, subsOf,
        subsOfList, subsOfEntries, aValId],
      by simp [annotateV, annotateList, annotateEntries, idsOfA, subsOf,
        subsOfList, subsOfEntries, aValId]⟩

theorem nodup_filterMap_inj {α β : Type} (f : α → Option β) (l : List α)
    (h : (l.filterMap f).Nodup) :
    ∀ x ∈ l, ∀ y ∈ l, ∀ b, f x = some b → f y = some b → x = y := by
  induction l with
  | nil => intro x hx; simp at hx
  | cons a l ih =>
    intro x hx y hy b hfx hfy
    rcases List.mem_cons.mp hx with hx1 | hx1 <;>
      rcases List.mem_cons.mp hy with hy1 | hy1
    · rw [hx1, hy1]
    · subst hx1
      rw [List.filterMap_cons, hfx] at h
      exact absurd (List.mem_filterMap.mpr ⟨y, hy1, hfy⟩)
        (List.nodup_cons.mp h).1
    · subst hy1
      rw [List.filterMap_cons, hfy] at h
      exact absurd (List.mem_filterMap.mpr ⟨x, hx1, hfx⟩)
        (List.nodup_cons.mp h).1
    · have h2 : (l.filterMap f).Nodup := by
        rw [List.filterMap_cons] at h
        cases hfa : f a with
        | none => rwa [hfa] at h
        | some b0 => rw [hfa] at h; exact (List.nodup_cons.mp h).2
      exact ih h2 x hx1 y hy1 b hfx hfy

/-- The generator's map is sound: every recorded index is a table slot whose
content hashes to the recorded key. -/
def SoundMap (st : FlattenSt) : Prop :=
  ∀ p ∈ st.objmap,
    p.2 < st.objtable.length ∧ hashOfA (st.objtable.getD p.2 .aNil) = p.1

/-- Every table slot holds a subtree from `S` or a key string from `K`. -/
def TableIn (S : List AVal) (K : List GoStr) (st : FlattenSt) : Prop :=
  ∀ t ∈ st.objtable, t ∈ S ∨ ∃ k ∈ K, t = .aString k

/-- The data payloads found among the subtrees of an annotated value. -/
def dataPayloadsA (a : AVal) : List (List Nat) :=
  (subsOf a).filterMap (fun t =>
    match t with
    | .aData bs => some bs
    | _ => none)

theorem lookup_isSome_mono (m1 m2 : List (hashKey × Nat))
    (pr : List (hashKey × Nat)) (h : m2 = pr ++ m1) (k : hashKey)
    (hs : (lookupObjmap m1 k).isSome) : (lookupObjmap m2 k).isSome := by
  subst h
  unfold lookupObjmap at *
  split at hs
  · rw [if_pos (by assumption)]
    rw [List.find?_append]
    cases hfind : List.find? (fun p => decide (p.1 = k)) m1 with
    | none => rw [hfind] at hs; simp at hs
    | some q =>
      cases List.find? (fun p => decide (p.1 = k)) pr <;> simp [hfind]
  · simp at hs

theorem awf_findable (c : AVal) (h : awf c = true) :
    findableKey (hashOfA c) = true := by
  cases c with
  | aReal w b =>
    cases w
    · simp [awf] at h
      show findableKey (.hRealN b) = true
      simp [findableKey]
      exact h.2
    · simp [awf] at h
      show findableKey (.hRealW b) = true
      simp [findableKey]
      exact h.2
  | aNumber sg v => cases sg <;> rfl
  | aDict i es => rfl
  | aArray i vs => rfl
  | aString s => rfl
  | aBoolean b => rfl
  | aData bs => rfl
  | aDate d => rfl
  | aUID u => rfl
  | aNil => rfl

theorem pushSlot_sound (st : FlattenSt) (a : AVal) (hS : SoundMap st) :
    SoundMap (pushSlot st (hashOfA a) a) := by
  intro p hp
  unfold pushSlot at hp ⊢
  rcases List.mem_cons.mp hp with h | h
  · subst h
    refine ⟨by simp, ?_⟩
    simp only [List.getD_eq_getElem?_getD]
    rw [List.getElem?_append_right (Nat.le_refl _)]
    simp
  · obtain ⟨h1, h2⟩ := hS p h
    refine ⟨by simp; omega, ?_⟩
    simp only [List.getD_eq_getElem?_getD]
    rw [List.getElem?_append, if_pos h1]
    simpa [List.getD_eq_getElem?_getD] using h2

theorem pushSlot_tablein (S : List AVal) (K : List GoStr) (st : FlattenSt)
    (key : hashKey) (a : AVal) (hT : TableIn S K st)
    (ha : a ∈ S ∨ ∃ k ∈ K, a = .aString k) :
    TableIn S K (pushSlot st key a) := by
  intro t ht
  unfold pushSlot at ht
  rcases List.mem_append.mp ht with h | h
  · exact hT t h
  · rw [List.mem_singleton.mp h]
    exact ha

theorem lookup_push_self (m : List (hashKey × Nat)) (key : hashKey) (i : Nat)
    (hf : findableKey key = true) :
    lookupObjmap ((key, i) :: m) key = some i := by
  unfold lookupObjmap
  rw [if_pos hf]
  simp

theorem flattenStringValue_main (S : List AVal) (K : List GoStr)
    (st : FlattenSt) (k : GoStr) (hS : SoundMap st) (hT : TableIn S K st)
    (hK : k ∈ K) :
    SoundMap (flattenStringValue st k)
    ∧ TableIn S K (flattenStringValue st k)
    ∧ (∃ pr, (flattenStringValue st k).objmap = pr ++ st.objmap)
    ∧ (lookupObjmap (flattenStringValue st k).objmap (.hString k)).isSome := by
  unfold flattenStringValue
  split
  · rename_i hhit
    exact ⟨hS, hT, ⟨[], rfl⟩, hhit⟩
  · refine ⟨pushSlot_sound st (.aString k) hS,
      pushSlot_tablein S K st _ _ hT (Or.inr ⟨k, hK, rfl⟩),
      ⟨[(.hString k, st.objtable.length)], rfl⟩, ?_⟩
    show (lookupObjmap ((hashKey.hString k, st.objtable.length)
      :: st.objmap) (.hString k)).isSome
    rw [lookup_push_self st.objmap (.hString k) st.objtable.length rfl]
    rfl

theorem flattenEntryKeys_main (S : List AVal) (K : List GoStr)
    (es : List (GoStr × AVal)) :
    ∀ st : FlattenSt, SoundMap st → TableIn S K st →
      (∀ e ∈ es, e.1 ∈ K) →
      SoundMap (flattenEntryKeys st es)
      ∧ TableIn S K (flattenEntryKeys st es)
      ∧ (∃ pr, (flattenEntryKeys st es).objmap = pr ++ st.objmap)
      ∧ (∀ e ∈ es,
          (lookupObjmap (flattenEntryKeys st es).objmap
            (.hString e.1)).isSome) := by
  induction es with
  | nil =>
    intro st hS hT _
    exact ⟨hS, hT, ⟨[], rfl⟩, by simp⟩
  | cons e es ih =>
    intro st hS hT hk
    obtain ⟨s1, t1, ⟨p1, e1⟩, l1⟩ := flattenStringValue_main S K st e.1 hS hT
      (hk e (List.mem_cons_self e es))
    obtain ⟨s2, t2, ⟨p2, e2⟩, l2⟩ := ih (flattenStringValue st e.1) s1 t1
      (fun x hx => hk x (List.mem_cons_of_mem e hx))
    refine ⟨s2, t2, ⟨p2 ++ p1, by simp [flattenEntryKeys, e2, e1]⟩, ?_⟩
    intro x hx
    rcases List.mem_cons.mp hx with h | h
    · subst h
      show (lookupObjmap (flattenEntryKeys (flattenStringValue st x.1) es).objmap
        (.hString x.1)).isSome
      exact lookup_isSome_mono _ _ p2 e2 _ l1
    · exact l2 x h

theorem uniqued_shape (t : AVal) (h : isUniquedBplistValue t = true) :
    subsOf t = [t] ∧ keyStringsOf t = [] := by
  cases t <;> simp_all [isUniquedBplistValue, subsOf, keyStringsOf]

theorem flatten_main (S : List AVal) (K : List GoStr) (st : FlattenSt)
    (p : AVal) :
    SoundMap st → TableIn S K st →
    (∀ c ∈ subsOf p, c ∈ S) → (∀ k ∈ keyStringsOf p, k ∈ K) →
    (∀ c ∈ subsOf p, findableKey (hashOfA c) = true) →
    SoundMap (flattenPlistValue st p)
    ∧ TableIn S K (flattenPlistValue st p)
    ∧ (∃ pr, (flattenPlistValue st p).objmap = pr ++ st.objmap)
    ∧ (∀ c ∈ subsOf p,
        (lookupObjmap (flattenPlistValue st p).objmap (hashOfA c)).isSome)
    ∧ (∀ k ∈ keyStringsOf p,
        (lookupObjmap (flattenPlistValue st p).objmap (.hString k)).isSome) := by
  induction st, p using flattenPlistValue.induct
  case motive_2 st2 vs =>
    exact SoundMap st2 → TableIn S K st2 →
      (∀ c ∈ subsOfList vs, c ∈ S) → (∀ k ∈ keyStringsOfList vs, k ∈ K) →
      (∀ c ∈ subsOfList vs, findableKey (hashOfA c) = true) →
      SoundMap (flattenValueList st2 vs)
      ∧ TableIn S K (flattenValueList st2 vs)
      ∧ (∃ pr, (flattenValueList st2 vs).objmap = pr ++ st2.objmap)
      ∧ (∀ c ∈ subsOfList vs,
          (lookupObjmap (flattenValueList st2 vs).objmap (hashOfA c)).isSome)
      ∧ (∀ k ∈ keyStringsOfList vs,
          (lookupObjmap (flattenValueList st2 vs).objmap (.hString k)).isSome)
  case motive_3 st2 es =>
    exact SoundMap st2 → TableIn S K st2 →
      (∀ c ∈ subsOfEntries es, c ∈ S) →
      (∀ k ∈ keyStringsOfEntries es, k ∈ K) →
      (∀ c ∈ subsOfEntries es, findableKey (hashOfA c) = true) →
      SoundMap (flattenEntryValues st2 es)
      ∧ TableIn S K (flattenEntryValues st2 es)
      ∧ (∃ pr, (flattenEntryValues st2 es).objmap = pr ++ st2.objmap)
      ∧ (∀ c ∈ subsOfEntries es,
          (lookupObjmap (flattenEntryValues st2 es).objmap (hashOfA c)).isSome)
      ∧ (∀ k ∈ keyStringsOfEntries es,
          (lookupObjmap (flattenEntryValues st2 es).objmap (.hString k)).isSome)
  case case1 =>
    rename_i t st2 hhit
    intro hS hT hsub hkey hfind
    rw [Bool.and_eq_true] at hhit
    obtain ⟨hu, hl⟩ := hhit
    obtain ⟨hsh, hke⟩ := uniqued_shape t hu
    have hflat : flattenPlistValue st2 t = st2 := by
      simp [flattenPlistValue, hu, hl]
    rw [hflat]
    refine ⟨hS, hT, ⟨[], rfl⟩, ?_, ?_⟩
    · rw [hsh]
      intro c hc
      rw [List.mem_singleton.mp hc]
      exact hl
    · rw [hke]
      simp
  case case2 =>
    rename_i st2 i es hmiss st1 ih
    intro hS hT hsub hkey hfind
    have hself : (.aDict i es : AVal) ∈ S :=
      hsub _ (by rw [show subsOf (.aDict i es) = .aDict i es :: subsOfEntries es
        from rfl]; exact List.mem_cons_self _ _)
    have hS1 : SoundMap (pushSlot st2 (hashOfA (.aDict i es)) (.aDict i es)) :=
      pushSlot_sound st2 _ hS
    have hT1 : TableIn S K (pushSlot st2 (hashOfA (.aDict i es)) (.aDict i es)) :=
      pushSlot_tablein S K st2 _ _ hT (Or.inl hself)
    obtain ⟨s2, t2, ⟨p2, e2⟩, l2⟩ := flattenEntryKeys_main S K es
      (pushSlot st2 (hashOfA (.aDict i es)) (.aDict i es)) hS1 hT1
      (fun e he => hkey e.1 (by
        rw [show keyStringsOf (.aDict i es)
          = es.map Prod.fst ++ keyStringsOfEntries es from rfl]
        exact List.mem_append.mpr (Or.inl (List.mem_map.mpr ⟨e, he, rfl⟩))))
    obtain ⟨s3, t3, ⟨p3, e3⟩, l3, k3⟩ := ih s2 t2
      (fun c hc => hsub c (by
        rw [show subsOf (.aDict i es) = .aDict i es :: subsOfEntries es
          from rfl]
        exact List.mem_cons_of_mem _ hc))
      (fun k hk => hkey k (by
        rw [show keyStringsOf (.aDict i es)
          = es.map Prod.fst ++ keyStringsOfEntries es from rfl]
        exact List.mem_append.mpr (Or.inr hk)))
      (fun c hc => hfind c (by
        rw [show subsOf (.aDict i es) = .aDict i es :: subsOfEntries es
          from rfl]
        exact List.mem_cons_of_mem _ hc))
    have hflat : flattenPlistValue st2 (.aDict i es)
        = flattenEntryValues (flattenEntryKeys
            (pushSlot st2 (hashOfA (.aDict i es)) (.aDict i es)) es) es := by
      simp [flattenPlistValue, isUniquedBplistValue]
    rw [hflat]
    have hext : ∃ pr, (flattenEntryValues (flattenEntryKeys
        (pushSlot st2 (hashOfA (.aDict i es)) (.aDict i es)) es) es).objmap
        = pr ++ (hashOfA (.aDict i es), st2.objtable.length) :: st2.objmap := by
      exact ⟨p3 ++ p2, by
        rw [e3, e2, show (pushSlot st2 (hashOfA (.aDict i es))
          (.aDict i es)).objmap
          = (hashOfA (.aDict i es), st2.objtable.length) :: st2.objmap
          from rfl]
        simp⟩
    refine ⟨s3, t3, ?_, ?_, ?_⟩
    · obtain ⟨pr, hpr⟩ := hext
      exact ⟨pr ++ [(hashOfA (.aDict i es), st2.objtable.length)],
        by rw [hpr]; simp⟩
    · intro c hc
      rw [show subsOf (.aDict i es) = .aDict i es :: subsOfEntries es
        from rfl] at hc
      rcases List.mem_cons.mp hc with h | h
      · subst h
        obtain ⟨pr, hpr⟩ := hext
        apply lookup_isSome_mono _ _ pr hpr
        rw [lookup_push_self st2.objmap (hashOfA (.aDict i es))
          st2.objtable.length (by rfl)]
        rfl
      · exact l3 c h
    · intro k hk
      rw [show keyStringsOf (.aDict i es)
        = es.map Prod.fst ++ keyStringsOfEntries es from rfl] at hk
      rcases List.mem_append.mp hk with h | h
      · obtain ⟨e, he, hek⟩ := List.mem_map.mp h
        subst hek
        exact lookup_isSome_mono _ _ p3 e3 _ (l2 e he)
      · exact k3 k h
  case case3 =>
    rename_i st2 i vs hmiss st1 ih
    intro hS hT hsub hkey hfind
    have hself : (.aArray i vs : AVal) ∈ S :=
      hsub _ (by rw [show subsOf (.aArray i vs) = .aArray i vs :: subsOfList vs
        from rfl]; exact List.mem_cons_self _ _)
    have hS1 : SoundMap (pushSlot st2 (hashOfA (.aArray i vs)) (.aArray i vs)) :=
      pushSlot_sound st2 _ hS
    have hT1 : TableIn S K (pushSlot st2 (hashOfA (.aArray i vs)) (.aArray i vs)) :=
      pushSlot_tablein S K st2 _ _ hT (Or.inl hself)
    obtain ⟨s3, t3, ⟨p3, e3⟩, l3, k3⟩ := ih hS1 hT1
      (fun c hc => hsub c (by
        rw [show subsOf (.aArray i vs) = .aArray i vs :: subsOfList vs
          from rfl]
        exact List.mem_cons_of_mem _ hc))
      (fun k hk => hkey k (by
        rw [show keyStringsOf (.aArray i vs) = keyStringsOfList vs from rfl]
        exact hk))
      (fun c hc => hfind c (by
        rw [show subsOf (.aArray i vs) = .aArray i vs :: subsOfList vs
          from rfl]
        exact List.mem_cons_of_mem _ hc))
    have hflat : flattenPlistValue st2 (.aArray i vs)
        = flattenValueList
            (pushSlot st2 (hashOfA (.aArray i vs)) (.aArray i vs)) vs := by
      simp [flattenPlistValue, isUniquedBplistValue]
    rw [hflat]
    have hext : ∃ pr, (flattenValueList
        (pushSlot st2 (hashOfA (.aArray i vs)) (.aArray i vs)) vs).objmap
        = pr ++ (hashOfA (.aArray i vs), st2.objtable.length) :: st2.objmap := by
      exact ⟨p3, by rw [e3]; rfl⟩
    refine ⟨s3, t3, ?_, ?_, ?_⟩
    · obtain ⟨pr, hpr⟩ := hext
      exact ⟨pr ++ [(hashOfA (.aArray i vs), st2.objtable.length)],
        by rw [hpr]; simp⟩
    · intro c hc
      rw [show subsOf (.aArray i vs) = .aArray i vs :: subsOfList vs
        from rfl] at hc
      rcases List.mem_cons.mp hc with h | h
      · subst h
        obtain ⟨pr, hpr⟩ := hext
        apply lookup_isSome_mono _ _ pr hpr
        rw [lookup_push_self st2.objmap (hashOfA (.aArray i vs))
          st2.objtable.length (by rfl)]
        rfl
      · exact l3 c h
    · intro k hk
      rw [show keyStringsOf (.aArray i vs) = keyStringsOfList vs from rfl] at hk
      exact k3 k hk
  case case4 =>
    rename_i t st2 hmiss hnd hna
    intro hS hT hsub hkey hfind
    have hshape : subsOf t = [t] ∧ keyStringsOf t = []
        ∧ flattenPlistValue st2 t = pushSlot st2 (hashOfA t) t := by
      cases t with
      | aDict i es => exact absurd rfl (hnd i es)
      | aArray i vs => exact absurd rfl (hna i vs)
      | aString s =>
        exact ⟨rfl, rfl, by simp [flattenPlistValue, hmiss]⟩
      | aNumber sg v =>
        exact ⟨rfl, rfl, by simp [flattenPlistValue, hmiss]⟩
      | aReal w b =>
        exact ⟨rfl, rfl, by simp [flattenPlistValue, hmiss]⟩
      | aBoolean b =>
        exact ⟨rfl, rfl, by simp [flattenPlistValue, hmiss]⟩
      | aData bs =>
        exact ⟨rfl, rfl, by simp [flattenPlistValue, hmiss]⟩
      | aDate d =>
        exact ⟨rfl, rfl, by simp [flattenPlistValue, hmiss]⟩
      | aUID u =>
        exact ⟨rfl, rfl, by simp [flattenPlistValue, hmiss]⟩
      | aNil =>
        exact ⟨rfl, rfl, by simp [flattenPlistValue, hmiss]⟩
    obtain ⟨hsh, hke, hflat⟩ := hshape
    rw [hflat]
    have hself : t ∈ S := hsub t (by rw [hsh]; exact List.mem_singleton.mpr rfl)
    refine ⟨pushSlot_sound st2 t hS,
      pushSlot_tablein S K st2 _ _ hT (Or.inl hself),
      ⟨[(hashOfA t, st2.objtable.length)], rfl⟩, ?_, ?_⟩
    · rw [hsh]
      intro c hc
      rw [List.mem_singleton.mp hc]
      show (lookupObjmap ((hashOfA t, st2.objtable.length) :: st2.objmap)
        (hashOfA t)).isSome
      rw [lookup_push_self st2.objmap _ st2.objtable.length
        (hfind t (by rw [hsh]; exact List.mem_singleton.mpr rfl))]
      rfl
    · rw [hke]
      simp
  case case5 =>
    rename_i st2
    intro hS hT _ _ _
    exact ⟨hS, hT, ⟨[], rfl⟩, by simp [subsOfEntries, flattenEntryValues],
      by simp [keyStringsOfEntries, flattenEntryValues]⟩
  case case6 =>
    rename_i st2 e es ih2 ih1
    intro hS hT hsub hkey hfind
    have hsubE : ∀ c ∈ subsOf e.2, c ∈ S := fun c hc => hsub c (by
      rw [show subsOfEntries (e :: es) = subsOf e.2 ++ subsOfEntries es
        from rfl]
      exact List.mem_append.mpr (Or.inl hc))
    have hkeyE : ∀ k ∈ keyStringsOf e.2, k ∈ K := fun k hk => hkey k (by
      rw [show keyStringsOfEntries (e :: es)
        = keyStringsOf e.2 ++ keyStringsOfEntries es from rfl]
      exact List.mem_append.mpr (Or.inl hk))
    have hfindE : ∀ c ∈ subsOf e.2, findableKey (hashOfA c) = true :=
      fun c hc => hfind c (by
        rw [show subsOfEntries (e :: es) = subsOf e.2 ++ subsOfEntries es
          from rfl]
        exact List.mem_append.mpr (Or.inl hc))
    obtain ⟨s1, t1, ⟨p1, e1⟩, l1, k1⟩ := ih2 hS hT hsubE hkeyE hfindE
    obtain ⟨s2, t2, ⟨p2, e2⟩, l2, k2⟩ := ih1 s1 t1
      (fun c hc => hsub c (by
        rw [show subsOfEntries (e :: es) = subsOf e.2 ++ subsOfEntries es
          from rfl]
        exact List.mem_append.mpr (Or.inr hc)))
      (fun k hk => hkey k (by
        rw [show keyStringsOfEntries (e :: es)
          = keyStringsOf e.2 ++ keyStringsOfEntries es from rfl]
        exact List.mem_append.mpr (Or.inr hk)))
      (fun c hc => hfind c (by
        rw [show subsOfEntries (e :: es) = subsOf e.2 ++ subsOfEntries es
          from rfl]
        exact List.mem_append.mpr (Or.inr hc)))
    have hflat : flattenEntryValues st2 (e :: es)
        = flattenEntryValues (flattenPlistValue st2 e.2) es := rfl
    rw [hflat]
    refine ⟨s2, t2, ⟨p2 ++ p1, by rw [e2, e1]; simp⟩, ?_, ?_⟩
    · intro c hc
      rw [show subsOfEntries (e :: es) = subsOf e.2 ++ subsOfEntries es
        from rfl] at hc
      rcases List.mem_append.mp hc with h | h
      · exact lookup_isSome_mono _ _ p2 e2 _ (l1 c h)
      · exact l2 c h
    · intro k hk
      rw [show keyStringsOfEntries (e :: es)
        = keyStringsOf e.2 ++ keyStringsOfEntries es from rfl] at hk
      rcases List.mem_append.mp hk with h | h
      · exact lookup_isSome_mono _ _ p2 e2 _ (k1 k h)
      · exact k2 k h
  case case7 =>
    rename_i st2
    intro hS hT _ _ _
    exact ⟨hS, hT, ⟨[], rfl⟩, by simp [subsOfList, flattenValueList],
      by simp [keyStringsOfList, flattenValueList]⟩
  case case8 =>
    rename_i st2 v2 vs ih2 ih1
    intro hS hT hsub hkey hfind
    obtain ⟨s1, t1, ⟨p1, e1⟩, l1, k1⟩ := ih2 hS hT
      (fun c hc => hsub c (by
        rw [show subsOfList (v2 :: vs) = subsOf v2 ++ subsOfList vs from rfl]
        exact List.mem_append.mpr (Or.inl hc)))
      (fun k hk => hkey k (by
        rw [show keyStringsOfList (v2 :: vs)
          = keyStringsOf v2 ++ keyStringsOfList vs from rfl]
        exact List.mem_append.mpr (Or.inl hk)))
      (fun c hc => hfind c (by
        rw [show subsOfList (v2 :: vs) = subsOf v2 ++ subsOfList vs from rfl]
        exact List.mem_append.mpr (Or.inl hc)))
    obtain ⟨s2, t2, ⟨p2, e2⟩, l2, k2⟩ := ih1 s1 t1
      (fun c hc => hsub c (by
        rw [show subsOfList (v2 :: vs) = subsOf v2 ++ subsOfList vs from rfl]
        exact List.mem_append.mpr (Or.inr hc)))
      (fun k hk => hkey k (by
        rw [show keyStringsOfList (v2 :: vs)
          = keyStringsOf v2 ++ keyStringsOfList vs from rfl]
        exact List.mem_append.mpr (Or.inr hk)))
      (fun c hc => hfind c (by
        rw [show subsOfList (v2 :: vs) = subsOf v2 ++ subsOfList vs from rfl]
        exact List.mem_append.mpr (Or.inr hc)))
    have hflat : flattenValueList st2 (v2 :: vs)
        = flattenValueList (flattenPlistValue st2 v2) vs := rfl
    rw [hflat]
    refine ⟨s2, t2, ⟨p2 ++ p1, by rw [e2, e1]; simp⟩, ?_, ?_⟩
    · intro c hc
      rw [show subsOfList (v2 :: vs) = subsOf v2 ++ subsOfList vs
        from rfl] at hc
      rcases List.mem_append.mp hc with h | h
      · exact lookup_isSome_mono _ _ p2 e2 _ (l1 c h)
      · exact l2 c h
    · intro k hk
      rw [show keyStringsOfList (v2 :: vs)
        = keyStringsOf v2 ++ keyStringsOfList vs from rfl] at hk
      rcases List.mem_append.mp hk with h | h
      · exact lookup_isSome_mono _ _ p2 e2 _ (k1 k h)
      · exact k2 k h

theorem lookup_mem (m : List (hashKey × Nat)) (k : hashKey) (i : Nat)
    (h : lookupObjmap m k = some i) : (k, i) ∈ m := by
  unfold lookupObjmap at h
  split at h
  · cases hfind : List.find? (fun p => decide (p.1 = k)) m with
    | none => rw [hfind] at h; simp at h
    | some q =>
      rw [hfind] at h
      simp at h
      have hq := List.find?_some hfind
      have hqm := List.mem_of_find?_eq_some hfind
      simp at hq
      have : q = (k, i) := by
        cases q
        simp_all
      rw [← this]
      exact hqm
  · simp at h

theorem hash_eq_string (t : AVal) (s : GoStr)
    (h : hashOfA t = .hString s) : t = .aString s := by
  cases t with
  | aReal w b => cases w <;> simp [hashOfA] at h
  | aNumber sg v => cases sg <;> simp [hashOfA] at h
  | aString s2 => simp [hashOfA] at h; rw [h]
  | _ => simp [hashOfA] at h

theorem hash_eq_numS (t : AVal) (v : Nat)
    (h : hashOfA t = .hNumS v) : t = .aNumber true v := by
  cases t with
  | aReal w b => cases w <;> simp [hashOfA] at h
  | aNumber sg v2 =>
    cases sg
    · simp [hashOfA] at h
    · simp [hashOfA] at h; rw [h]
  | _ => simp [hashOfA] at h

theorem hash_eq_numU (t : AVal) (v : Nat)
    (h : hashOfA t = .hNumU v) : t = .aNumber false v := by
  cases t with
  | aReal w b => cases w <;> simp [hashOfA] at h
  | aNumber sg v2 =>
    cases sg
    · simp [hashOfA] at h; rw [h]
    · simp [hashOfA] at h
  | _ => simp [hashOfA] at h

theorem hash_eq_realW (t : AVal) (b : Nat)
    (h : hashOfA t = .hRealW b) : t = .aReal true b := by
  cases t with
  | aReal w b2 =>
    cases w
    · simp [hashOfA] at h
    · simp [hashOfA] at h; rw [h]
  | aNumber sg v => cases sg <;> simp [hashOfA] at h
  | _ => simp [hashOfA] at h

theorem hash_eq_realN (t : AVal) (b : Nat)
    (h : hashOfA t = .hRealN b) : t = .aReal false b := by
  cases t with
  | aReal w b2 =>
    cases w
    · simp [hashOfA] at h; rw [h]
    · simp [hashOfA] at h
  | aNumber sg v => cases sg <;> simp [hashOfA] at h
  | _ => simp [hashOfA] at h

theorem hash_eq_bool (t : AVal) (b : Bool)
    (h : hashOfA t = .hBool b) : t = .aBoolean b := by
  cases t with
  | aReal w b2 => cases w <;> simp [hashOfA] at h
  | aNumber sg v => cases sg <;> simp [hashOfA] at h
  | aBoolean b2 => simp [hashOfA] at h; rw [h]
  | _ => simp [hashOfA] at h

theorem hash_eq_date (t : AVal) (d : Int)
    (h : hashOfA t = .hDate d) : t = .aDate d := by
  cases t with
  | aReal w b => cases w <;> simp [hashOfA] at h
  | aNumber sg v => cases sg <;> simp [hashOfA] at h
  | aDate d2 => simp [hashOfA] at h; rw [h]
  | _ => simp [hashOfA] at h

theorem hash_eq_uid (t : AVal) (u : Nat)
    (h : hashOfA t = .hUID u) : t = .aUID u := by
  cases t with
  | aReal w b => cases w <;> simp [hashOfA] at h
  | aNumber sg v => cases sg <;> simp [hashOfA] at h
  | aUID u2 => simp [hashOfA] at h; rw [h]
  | _ => simp [hashOfA] at h

theorem hash_eq_data (t : AVal) (x : Nat)
    (h : hashOfA t = .hData x) : ∃ bs, t = .aData bs ∧ crc32 bs = x := by
  cases t with
  | aReal w b => cases w <;> simp [hashOfA] at h
  | aNumber sg v => cases sg <;> simp [hashOfA] at h
  | aData bs =>
    simp [hashOfA] at h
    exact ⟨bs, rfl, h⟩
  | _ => simp [hashOfA] at h

theorem hash_eq_container (t : AVal) (i : Nat)
    (h : hashOfA t = .hContainer i) : aValId t = some i := by
  cases t with
  | aReal w b => cases w <;> simp [hashOfA] at h
  | aNumber sg v => cases sg <;> simp [hashOfA] at h
  | aDict j es => simp [hashOfA] at h; simp [aValId, h]
  | aArray j vs => simp [hashOfA] at h; simp [aValId, h]
  | _ => simp [hashOfA] at h

theorem slot_resolve (aroot : AVal) (stF : FlattenSt)
    (hS : SoundMap stF)
    (hT : TableIn (subsOf aroot) (keyStringsOf aroot) stF)
    (hl : ∀ c ∈ subsOf aroot, (lookupObjmap stF.objmap (hashOfA c)).isSome)
    (hnd : (idsOfA aroot).Nodup)
    (hcrc : ∀ b1 ∈ dataPayloadsA aroot, ∀ b2 ∈ dataPayloadsA aroot,
        crc32 b1 = crc32 b2 → b1 = b2) :
    ∀ c ∈ subsOf aroot, ∃ i, lookupObjmap stF.objmap (hashOfA c) = some i
      ∧ i < stF.objtable.length ∧ stF.objtable.getD i .aNil = c := by
  intro c hc
  obtain ⟨i, hi⟩ := Option.isSome_iff_exists.mp (hl c hc)
  obtain ⟨hlt, hhash⟩ := hS (hashOfA c, i) (lookup_mem _ _ _ hi)
  refine ⟨i, hi, hlt, ?_⟩
  have htmem : stF.objtable.getD i .aNil ∈ stF.objtable := by
    simp only [List.getD_eq_getElem?_getD]
    rw [List.getElem?_eq_getElem hlt]
    exact List.getElem_mem _
  have htin := hT _ htmem
  generalize hgen : stF.objtable.getD i AVal.aNil = t at htin hhash ⊢
  cases c with
  | aString s => exact hash_eq_string t s hhash
  | aNumber sg v =>
    cases sg
    · exact hash_eq_numU t v hhash
    · exact hash_eq_numS t v hhash
  | aReal w b =>
    cases w
    · exact hash_eq_realN t b hhash
    · exact hash_eq_realW t b hhash
  | aBoolean b => exact hash_eq_bool t b hhash
  | aDate d => exact hash_eq_date t d hhash
  | aUID u => exact hash_eq_uid t u hhash
  | aNil =>
    cases t with
    | aReal w b => cases w <;> simp [hashOfA] at hhash
    | aNumber sg v => cases sg <;> simp [hashOfA] at hhash
    | aNil => rfl
    | _ => simp [hashOfA] at hhash
  | aData bs =>
    obtain ⟨bs2, ht2, hcrceq⟩ := hash_eq_data t (crc32 bs) hhash
    have htsub : t ∈ subsOf aroot := by
      rcases htin with h | ⟨k, _, hk⟩
      · exact h
      · rw [hk] at ht2; cases ht2
    have hb2 : bs2 ∈ dataPayloadsA aroot := by
      unfold dataPayloadsA
      exact List.mem_filterMap.mpr ⟨t, htsub, by rw [ht2]⟩
    have hb1 : bs ∈ dataPayloadsA aroot := by
      unfold dataPayloadsA
      exact List.mem_filterMap.mpr ⟨.aData bs, hc, rfl⟩
    have := hcrc bs2 hb2 bs hb1 hcrceq
    rw [ht2, this]
  | aDict j es =>
    have hid := hash_eq_container t j hhash
    have htsub : t ∈ subsOf aroot := by
      rcases htin with h | ⟨k, _, hk⟩
      · exact h
      · rw [hk] at hid; simp [aValId] at hid
    exact nodup_filterMap_inj aValId (subsOf aroot) hnd t htsub
      (.aDict j es) hc j hid rfl
  | aArray j vs =>
    have hid := hash_eq_container t j hhash
    have htsub : t ∈ subsOf aroot := by
      rcases htin with h | ⟨k, _, hk⟩
      · exact h
      · rw [hk] at hid; simp [aValId] at hid
    exact nodup_filterMap_inj aValId (subsOf aroot) hnd t htsub
      (.aArray j vs) hc j hid rfl

theorem slot_key (aroot : AVal) (stF : FlattenSt)
    (hS : SoundMap stF)
    (hlk : ∀ k ∈ keyStringsOf aroot,
      (lookupObjmap stF.objmap (.hString k)).isSome) :
    ∀ k ∈ keyStringsOf aroot, ∃ i,
      lookupObjmap stF.objmap (.hString k) = some i
      ∧ i < stF.objtable.length ∧ stF.objtable.getD i .aNil = .aString k := by
  intro k hk
  obtain ⟨i, hi⟩ := Option.isSome_iff_exists.mp (hlk k hk)
  obtain ⟨hlt, hhash⟩ := hS (.hString k, i) (lookup_mem _ _ _ hi)
  exact ⟨i, hi, hlt, hash_eq_string _ k hhash⟩

theorem except_ok_seq2 {ε α β : Type} (a : α) (f : α → Except ε β) :
    (Except.ok a >>= f) = f a := rfl

theorem except_pure_ok2 {ε α : Type} (a : α) :
    (pure a : Except ε α) = Except.ok a := rfl

theorem exceptMapM_congr {α β ε : Type} (f : α → Except ε β) (g : α → β)
    (l : List α) (h : ∀ x ∈ l, f x = .ok (g x)) :
    l.mapM f = .ok (l.map g) := by
  rw [← List.mapM'_eq_mapM]
  induction l with
  | nil => rfl
  | cons a l ih =>
    rw [List.mapM']
    rw [h a (List.mem_cons_self a l)]
    rw [except_ok_seq2]
    rw [ih (fun x hx => h x (List.mem_cons_of_mem a hx))]
    rfl

theorem self_mem_subsOf (a : AVal) : a ∈ subsOf a := by
  cases a <;> exact List.mem_cons_self _ _

theorem mem_subsOfEntries (es : List (GoStr × AVal)) (e : GoStr × AVal)
    (he : e ∈ es) : ∀ d ∈ subsOf e.2, d ∈ subsOfEntries es := by
  induction es with
  | nil => cases he
  | cons e2 es ih =>
    intro d hd
    rw [show subsOfEntries (e2 :: es) = subsOf e2.2 ++ subsOfEntries es
      from rfl]
    rcases List.mem_cons.mp he with h | h
    · subst h
      exact List.mem_append.mpr (Or.inl hd)
    · exact List.mem_append.mpr (Or.inr (ih h d hd))

theorem mem_subsOfList (vs : List AVal) (v : AVal) (hv : v ∈ vs) :
    ∀ d ∈ subsOf v, d ∈ subsOfList vs := by
  induction vs with
  | nil => cases hv
  | cons v2 vs ih =>
    intro d hd
    rw [show subsOfList (v2 :: vs) = subsOf v2 ++ subsOfList vs from rfl]
    rcases List.mem_cons.mp hv with h | h
    · subst h
      exact List.mem_append.mpr (Or.inl hd)
    · exact List.mem_append.mpr (Or.inr (ih h d hd))

theorem dict_key_mem (aroot : AVal) (i : Nat) (es : List (GoStr × AVal))
    (h : .aDict i es ∈ subsOf aroot) (hk : ∀ c ∈ subsOf aroot,
      ∀ k2 ∈ keyStringsOf c, k2 ∈ keyStringsOf aroot) :
    ∀ e ∈ es, e.1 ∈ keyStringsOf aroot := by
  intro e he
  apply hk _ h
  rw [show keyStringsOf (.aDict i es)
    = es.map Prod.fst ++ keyStringsOfEntries es from rfl]
  exact List.mem_append.mpr (Or.inl (List.mem_map.mpr ⟨e, he, rfl⟩))

theorem subsOf_trans (a : AVal) :
    ∀ c ∈ subsOf a, ∀ d ∈ subsOf c, d ∈ subsOf a := by
  induction a using subsOf.induct
  case motive_2 vs =>
    exact ∀ c ∈ subsOfList vs, ∀ d ∈ subsOf c, d ∈ subsOfList vs
  case motive_3 es =>
    exact ∀ c ∈ subsOfEntries es, ∀ d ∈ subsOf c, d ∈ subsOfEntries es
  case case1 =>
    rename_i i es ih
    intro c hc d hd
    rw [show subsOf (.aDict i es) = .aDict i es :: subsOfEntries es
      from rfl] at hc ⊢
    rcases List.mem_cons.mp hc with h | h
    · subst h
      rw [show subsOf (.aDict i es) = .aDict i es :: subsOfEntries es
        from rfl] at hd
      exact hd
    · exact List.mem_cons_of_mem _ (ih c h d hd)
  case case2 =>
    rename_i i vs ih
    intro c hc d hd
    rw [show subsOf (.aArray i vs) = .aArray i vs :: subsOfList vs
      from rfl] at hc ⊢
    rcases List.mem_cons.mp hc with h | h
    · subst h
      rw [show subsOf (.aArray i vs) = .aArray i vs :: subsOfList vs
        from rfl] at hd
      exact hd
    · exact List.mem_cons_of_mem _ (ih c h d hd)
  case case3 =>
    rename_i a hnd hna
    intro c hc d hd
    have hsub : subsOf a = [a] := by
      cases a with
      | aDict i es => exact absurd rfl (hnd i es)
      | aArray i vs => exact absurd rfl (hna i vs)
      | _ => rfl
    rw [hsub] at hc ⊢
    rw [List.mem_singleton.mp hc, hsub] at hd
    exact hd
  case case4 =>
    intro c hc
    cases hc
  case case5 =>
    rename_i e es ih1 ih2
    intro c hc d hd
    rw [show subsOfEntries (e :: es) = subsOf e.2 ++ subsOfEntries es
      from rfl] at hc ⊢
    rcases List.mem_append.mp hc with h | h
    · exact List.mem_append.mpr (Or.inl (ih1 c h d hd))
    · exact List.mem_append.mpr (Or.inr (ih2 c h d hd))
  case case6 =>
    intro c hc
    cases hc
  case case7 =>
    rename_i v vs ih1 ih2
    intro c hc d hd
    rw [show subsOfList (v :: vs) = subsOf v ++ subsOfList vs from rfl] at hc ⊢
    rcases List.mem_append.mp hc with h | h
    · exact List.mem_append.mpr (Or.inl (ih1 c h d hd))
    · exact List.mem_append.mpr (Or.inr (ih2 c h d hd))

theorem keyStrings_trans (a : AVal) :
    ∀ c ∈ subsOf a, ∀ k ∈ keyStringsOf c, k ∈ keyStringsOf a := by
  induction a using subsOf.induct
  case motive_2 vs =>
    exact ∀ c ∈ subsOfList vs, ∀ k ∈ keyStringsOf c, k ∈ keyStringsOfList vs
  case motive_3 es =>
    exact ∀ c ∈ subsOfEntries es, ∀ k ∈ keyStringsOf c,
      k ∈ keyStringsOfEntries es
  case case1 =>
    rename_i i es ih
    intro c hc k hk
    rw [show subsOf (.aDict i es) = .aDict i es :: subsOfEntries es
      from rfl] at hc
    rcases List.mem_cons.mp hc with h | h
    · subst h
      exact hk
    · rw [show keyStringsOf (.aDict i es)
        = es.map Prod.fst ++ keyStringsOfEntries es from rfl]
      exact List.mem_append.mpr (Or.inr (ih c h k hk))
  case case2 =>
    rename_i i vs ih
    intro c hc k hk
    rw [show subsOf (.aArray i vs) = .aArray i vs :: subsOfList vs
      from rfl] at hc
    rcases List.mem_cons.mp hc with h | h
    · subst h
      exact hk
    · rw [show keyStringsOf (.aArray i vs) = keyStringsOfList vs from rfl]
      exact ih c h k hk
  case case3 =>
    rename_i a hnd hna
    intro c hc k hk
    have hsub : subsOf a = [a] := by
      cases a with
      | aDict i es => exact absurd rfl (hnd i es)
      | aArray i vs => exact absurd rfl (hna i vs)
      | _ => rfl
    rw [hsub] at hc
    rw [List.mem_singleton.mp hc] at hk
    exact hk
  case case4 =>
    intro c hc
    cases hc
  case case5 =>
    rename_i e es ih1 ih2
    intro c hc k hk
    rw [show subsOfEntries (e :: es) = subsOf e.2 ++ subsOfEntries es
      from rfl] at hc
    rw [show keyStringsOfEntries (e :: es)
      = keyStringsOf e.2 ++ keyStringsOfEntries es from rfl]
    rcases List.mem_append.mp hc with h | h
    · exact List.mem_append.mpr (Or.inl (ih1 c h k hk))
    · exact List.mem_append.mpr (Or.inr (ih2 c h k hk))
  case case6 =>
    intro c hc
    cases hc
  case case7 =>
    rename_i v vs ih1 ih2
    intro c hc k hk
    rw [show subsOfList (v :: vs) = subsOf v ++ subsOfList vs from rfl] at hc
    rw [show keyStringsOfList (v :: vs)
      = keyStringsOf v ++ keyStringsOfList vs from rfl]
    rcases List.mem_append.mp hc with h | h
    · exact List.mem_append.mpr (Or.inl (ih1 c h k hk))
    · exact List.mem_append.mpr (Or.inr (ih2 c h k hk))

theorem awf_sub (a : AVal) :
    awf a = true → ∀ c ∈ subsOf a, awf c = true := by
  induction a using subsOf.induct
  case motive_2 vs =>
    exact awfList vs = true → ∀ c ∈ subsOfList vs, awf c = true
  case motive_3 es =>
    exact awfEntries es = true → ∀ c ∈ subsOfEntries es, awf c = true
  case case1 =>
    rename_i i es ih
    intro hwf c hc
    rcases List.mem_cons.mp hc with h | h
    · subst h
      exact hwf
    · exact ih (by simpa [awf] using hwf) c h
  case case2 =>
    rename_i i vs ih
    intro hwf c hc
    rcases List.mem_cons.mp hc with h | h
    · subst h
      exact hwf
    · exact ih (by simpa [awf] using hwf) c h
  case case3 =>
    rename_i a hnd hna
    intro hwf c hc
    have hsub : subsOf a = [a] := by
      cases a with
      | aDict i es => exact absurd rfl (hnd i es)
      | aArray i vs => exact absurd rfl (hna i vs)
      | _ => rfl
    rw [hsub] at hc
    rw [List.mem_singleton.mp hc]
    exact hwf
  case case4 =>
    intro _ c hc
    cases hc
  case case5 =>
    rename_i e es ih1 ih2
    intro hwf c hc
    rw [show awfEntries (e :: es)
      = ((e.1.all fun r => decide (validRune r)) && awf e.2 && awfEntries es)
      from rfl] at hwf
    simp only [Bool.and_eq_true] at hwf
    rcases List.mem_append.mp hc with h | h
    · exact ih1 hwf.1.2 c h
    · exact ih2 hwf.2 c h
  case case6 =>
    intro _ c hc
    cases hc
  case case7 =>
    rename_i v vs ih1 ih2
    intro hwf c hc
    rw [show awfList (v :: vs) = (awf v && awfList vs) from rfl] at hwf
    simp only [Bool.and_eq_true] at hwf
    rcases List.mem_append.mp hc with h | h
    · exact ih1 hwf.1 c h
    · exact ih2 hwf.2 c h

theorem awf_keys (a : AVal) :
    awf a = true → ∀ k ∈ keyStringsOf a, ∀ r ∈ k, validRune r := by
  induction a using subsOf.induct
  case motive_2 vs =>
    exact awfList vs = true → ∀ k ∈ keyStringsOfList vs, ∀ r ∈ k, validRune r
  case motive_3 es =>
    exact awfEntries es = true →
      ∀ k ∈ keyStringsOfEntries es, ∀ r ∈ k, validRune r
  case case1 =>
    rename_i i es ih
    intro hwf k hk
    rw [show keyStringsOf (.aDict i es)
      = es.map Prod.fst ++ keyStringsOfEntries es from rfl] at hk
    rcases List.mem_append.mp hk with h | h
    · obtain ⟨e, he, hek⟩ := List.mem_map.mp h
      subst hek
      intro r hr
      have hwf2 : awfEntries es = true := by simpa [awf] using hwf
      clear hwf ih hk h
      induction es with
      | nil => cases he
      | cons e2 es2 ih3 =>
        rw [show awfEntries (e2 :: es2)
          = ((e2.1.all fun r => decide (validRune r)) && awf e2.2
            && awfEntries es2) from rfl] at hwf2
        simp only [Bool.and_eq_true] at hwf2
        rcases List.mem_cons.mp he with h2 | h2
        · subst h2
          have := (List.all_eq_true.mp hwf2.1.1) r hr
          simpa using this
        · exact ih3 h2 hwf2.2
    · exact ih (by simpa [awf] using hwf) k h
  case case2 =>
    rename_i i vs ih
    intro hwf k hk
    exact ih (by simpa [awf] using hwf) k hk
  case case3 =>
    rename_i a hnd hna
    intro hwf k hk
    have hke : keyStringsOf a = [] := by
      cases a with
      | aDict i es => exact absurd rfl (hnd i es)
      | aArray i vs => exact absurd rfl (hna i vs)
      | _ => rfl
    rw [hke] at hk
    cases hk
  case case4 =>
    intro _ k hk
    cases hk
  case case5 =>
    rename_i e es ih1 ih2
    intro hwf k hk
    rw [show awfEntries (e :: es)
      = ((e.1.all fun r => decide (validRune r)) && awf e.2 && awfEntries es)
      from rfl] at hwf
    simp only [Bool.and_eq_true] at hwf
    rw [show keyStringsOfEntries (e :: es)
      = keyStringsOf e.2 ++ keyStringsOfEntries es from rfl] at hk
    rcases List.mem_append.mp hk with h | h
    · exact ih1 hwf.1.2 k h
    · exact ih2 hwf.2 k h
  case case6 =>
    intro _ k hk
    cases hk
  case case7 =>
    rename_i v vs ih1 ih2
    intro hwf k hk
    rw [show awfList (v :: vs) = (awf v && awfList vs) from rfl] at hwf
    simp only [Bool.and_eq_true] at hwf
    rw [show keyStringsOfList (v :: vs)
      = keyStringsOf v ++ keyStringsOfList vs from rfl] at hk
    rcases List.mem_append.mp hk with h | h
    · exact ih1 hwf.1 k h
    · exact ih2 hwf.2 k h

theorem minSize_legal (n : Nat) : minimumSizeForInt n = 1
    ∨ minimumSizeForInt n = 2 ∨ minimumSizeForInt n = 4
    ∨ minimumSizeForInt n = 8 := by
  unfold minimumSizeForInt
  split_ifs <;> simp

theorem minSize_bound (n : Nat) (h : n < 2 ^ 64) :
    n < 2 ^ (8 * minimumSizeForInt n) := by
  unfold minimumSizeForInt
  split_ifs <;> omega

theorem writeSizedInt_legal (o w : Nat)
    (hleg : w = 1 ∨ w = 2 ∨ w = 4 ∨ w = 8) :
    writeSizedInt o w = .ok (beBytes w o) := by
  unfold writeSizedInt
  rw [if_pos hleg]

theorem writeDict_ok (objmap : List (hashKey × Nat)) (refSize : Nat)
    (es : List (GoStr × AVal))
    (hk : ∀ e ∈ es, (lookupObjmap objmap (.hString e.1)).isSome)
    (hv : ∀ e ∈ es, (lookupObjmap objmap (hashOfA e.2)).isSome)
    (hleg : refSize = 1 ∨ refSize = 2 ∨ refSize = 4 ∨ refSize = 8) :
    writeDictionaryTag objmap refSize es
      = .ok (writeCountedTag 0xD0 es.length
          ++ ((es.map (fun e => (lookupObjmap objmap (.hString e.1)).getD 0)
              ++ es.map (fun e =>
                  (lookupObjmap objmap (hashOfA e.2)).getD 0)).map
              (fun i => beBytes refSize i)).flatten) := by
  have h1 : es.mapM (fun e =>
      match lookupObjmap objmap (.hString e.1) with
      | some i => Except.ok i
      | none => Except.error genError.keyNotFound)
      = .ok (es.map (fun e => (lookupObjmap objmap (.hString e.1)).getD 0)) := by
    apply exceptMapM_congr
    intro e he
    obtain ⟨i, hi⟩ := Option.isSome_iff_exists.mp (hk e he)
    rw [hi]
    rfl
  have h2 : es.mapM (fun e =>
      match indexForPlistValue objmap e.2 with
      | some i => Except.ok i
      | none => Except.error genError.valueNotFound)
      = .ok (es.map (fun e => (lookupObjmap objmap (hashOfA e.2)).getD 0)) := by
    apply exceptMapM_congr
    intro e he
    obtain ⟨i, hi⟩ := Option.isSome_iff_exists.mp (hv e he)
    unfold indexForPlistValue
    rw [hi]
    rfl
  have h3 : ((es.map (fun e => (lookupObjmap objmap (.hString e.1)).getD 0)
      ++ es.map (fun e => (lookupObjmap objmap (hashOfA e.2)).getD 0)).mapM
      (fun i => writeSizedInt i refSize))
      = .ok ((es.map (fun e => (lookupObjmap objmap (.hString e.1)).getD 0)
          ++ es.map (fun e =>
            (lookupObjmap objmap (hashOfA e.2)).getD 0)).map
          (fun i => beBytes refSize i)) := by
    apply exceptMapM_congr
    intro i _
    exact writeSizedInt_legal i refSize hleg
  simp only [writeDictionaryTag, h1, h2, except_ok_seq2, h3, except_pure_ok2]

theorem writeArr_ok (objmap : List (hashKey × Nat)) (refSize : Nat)
    (vs : List AVal)
    (hv : ∀ v ∈ vs, (lookupObjmap objmap (hashOfA v)).isSome)
    (hleg : refSize = 1 ∨ refSize = 2 ∨ refSize = 4 ∨ refSize = 8) :
    writeArrayTag objmap refSize vs
      = .ok (writeCountedTag 0xA0 vs.length
          ++ ((vs.map (fun v => (lookupObjmap objmap (hashOfA v)).getD 0)).map
              (fun i => beBytes refSize i)).flatten) := by
  have h2 : vs.mapM (fun v =>
      match indexForPlistValue objmap v with
      | some i => Except.ok i
      | none => Except.error genError.valueNotFound)
      = .ok (vs.map (fun v => (lookupObjmap objmap (hashOfA v)).getD 0)) := by
    apply exceptMapM_congr
    intro v hvm
    obtain ⟨i, hi⟩ := Option.isSome_iff_exists.mp (hv v hvm)
    unfold indexForPlistValue
    rw [hi]
    rfl
  have h3 : ((vs.map (fun v => (lookupObjmap objmap (hashOfA v)).getD 0)).mapM
      (fun i => writeSizedInt i refSize))
      = .ok ((vs.map (fun v => (lookupObjmap objmap (hashOfA v)).getD 0)).map
          (fun i => beBytes refSize i)) := by
    apply exceptMapM_congr
    intro i _
    exact writeSizedInt_legal i refSize hleg
  simp only [writeArrayTag, h2, except_ok_seq2, h3, except_pure_ok2]

theorem writeCountedTag_ne_nil (tag cnt : Nat) :
    writeCountedTag tag cnt ≠ [] := by
  unfold writeCountedTag
  split <;> simp

theorem offsetsFrom_length (b : Nat) (rs : List (List Nat)) :
    (offsetsFrom b rs).length = rs.length := by
  induction rs generalizing b with
  | nil => rfl
  | cons r rs ih => simp [offsetsFrom, ih]

theorem offsetsFrom_get (rs : List (List Nat)) (b j : Nat)
    (hj : j < rs.length) :
    (offsetsFrom b rs).getD j 0
      = b + ((rs.take j).map List.length).sum := by
  induction rs generalizing b j with
  | nil => cases hj
  | cons r rs ih =>
    cases j with
    | zero => simp [offsetsFrom]
    | succ j =>
      rw [show offsetsFrom b (r :: rs) = b :: offsetsFrom (b + r.length) rs
        from rfl]
      rw [show (b :: offsetsFrom (b + r.length) rs).getD (j + 1) 0
        = (offsetsFrom (b + r.length) rs).getD j 0 from rfl]
      rw [ih (b + r.length) j (by simpa using hj)]
      simp [List.sum_cons]
      omega

theorem flatten_take_length (rs : List (List Nat)) (j : Nat) :
    ((rs.take j).flatten).length = ((rs.take j).map List.length).sum := by
  simp [List.length_flatten]

theorem flatten_decomp (rs : List (List Nat)) (j : Nat) (hj : j < rs.length) :
    rs.flatten = (rs.take j).flatten ++ (rs.getD j [] ++ (rs.drop (j + 1)).flatten) := by
  conv_lhs => rw [show rs = rs.take j ++ rs.drop j from (List.take_append_drop j rs).symm]
  rw [List.flatten_append]
  congr 1
  rw [show rs.drop j = rs.getD j [] :: rs.drop (j + 1) from ?_]
  · rfl
  · rw [List.getD_eq_getElem?_getD, List.getElem?_eq_getElem hj]
    simpa using (List.drop_eq_getElem_cons hj).symm

theorem refbytes_len (refSize : Nat) (idxs : List Nat) :
    ((idxs.map (fun x => beBytes refSize x)).flatten).length
      = refSize * idxs.length := by
  induction idxs with
  | nil => simp
  | cons x idxs ih =>
    simp only [List.map_cons, List.flatten_cons, List.length_append,
      beBytes_len, ih, List.length_cons]
    ring

theorem readRefList_at (ctx : ParseCtx) (refSize : Nat) (idxs : List Nat) :
    ∀ (pre post : List Nat) (pos : Nat),
    ctx.bytes = pre ++ ((idxs.map (fun i => beBytes refSize i)).flatten ++ post) →
    pos = pre.length →
    ctx.trailer.objectRefSize = refSize →
    (refSize = 1 ∨ refSize = 2 ∨ refSize = 4 ∨ refSize = 8) →
    (∀ i ∈ idxs, i < 2 ^ (8 * refSize) ∧ i < ctx.trailer.numObjects) →
    readRefList ctx idxs.length pos = .ok (idxs, pos + refSize * idxs.length) := by
  induction idxs with
  | nil =>
    intro pre post pos _ _ _ _ _
    simp [readRefList]
  | cons i idxs ih =>
    intro pre post pos hB hpos hrw hleg hbound
    obtain ⟨hb1, hb2⟩ := hbound i (List.mem_cons_self i idxs)
    rw [show (i :: idxs).length = idxs.length + 1 from rfl]
    rw [readRefList]
    rw [hrw]
    rw [readSizedInt_at ctx.bytes pre
      ((idxs.map (fun x => beBytes refSize x)).flatten ++ post) pos refSize i
      hleg (by rw [hB]; simp) hpos hb1]
    dsimp only
    rw [if_neg (by omega)]
    rw [ih (pre ++ beBytes refSize i) post (pos + refSize)
      (by rw [hB]; simp) (by simp [beBytes_len]; omega) hrw hleg
      (fun x hx => hbound x (List.mem_cons_of_mem i hx))]
    dsimp only
    rw [show pos + refSize + refSize * idxs.length
      = pos + refSize * (idxs.length + 1) from by ring]

theorem readRefList_count (ctx : ParseCtx) (refSize n : Nat)
    (idxs : List Nat) (pre post : List Nat) (pos : Nat)
    (hn : n = idxs.length)
    (hB : ctx.bytes
      = pre ++ ((idxs.map (fun i => beBytes refSize i)).flatten ++ post))
    (hpos : pos = pre.length)
    (hrw : ctx.trailer.objectRefSize = refSize)
    (hleg : refSize = 1 ∨ refSize = 2 ∨ refSize = 4 ∨ refSize = 8)
    (hbound : ∀ i ∈ idxs, i < 2 ^ (8 * refSize)
      ∧ i < ctx.trailer.numObjects) :
    readRefList ctx n pos = .ok (idxs, pos + refSize * n) := by
  subst hn
  exact readRefList_at ctx refSize idxs pre post pos hB hpos hrw hleg hbound

theorem parse_rec_array (fuel : Nat) (ctx : ParseCtx) (st : PSt)
    (pre post : List Nat) (i : Nat) (vs : List AVal)
    (objmap : List (hashKey × Nat)) (refSize : Nat)
    (hleg : refSize = 1 ∨ refSize = 2 ∨ refSize = 4 ∨ refSize = 8)
    (hrw : ctx.trailer.objectRefSize = refSize)
    (hidx : ∀ v ∈ vs, ((lookupObjmap objmap (hashOfA v)).getD 0
          < 2 ^ (8 * refSize))
        ∧ (lookupObjmap objmap (hashOfA v)).getD 0 < ctx.trailer.numObjects)
    (hne : ∀ v ∈ vs,
        ctx.offtable.getD ((lookupObjmap objmap (hashOfA v)).getD 0) 0
          ≠ pre.length)
    (hB : ctx.bytes = pre ++ (writeCountedTag 0xA0 vs.length
        ++ ((vs.map (fun v => (lookupObjmap objmap (hashOfA v)).getD 0)).map
            (fun x => beBytes refSize x)).flatten) ++ post)
    (hOTO : pre.length + (writeCountedTag 0xA0 vs.length
        ++ ((vs.map (fun v => (lookupObjmap objmap (hashOfA v)).getD 0)).map
            (fun x => beBytes refSize x)).flatten).length
        ≤ ctx.trailer.offsetTableOffset)
    (hOTO64 : ctx.trailer.offsetTableOffset < 2 ^ 64) :
    parseTagAtOffset (fuel + 1) ctx st pre.length
      = .ok (pvalOfA ctx.offtable objmap (.aArray i vs),
          { st with delayed := st.delayed ++ vs.map (fun v =>
              ctx.offtable.getD
                ((lookupObjmap objmap (hashOfA v)).getD 0) 0) }) := by
  rw [parseTagAtOffset_succ]
  have harr : arrayElemOffsets ctx pre.length
      (vs.map (fun v => (lookupObjmap objmap (hashOfA v)).getD 0))
      = .ok (vs.map (fun v =>
          ctx.offtable.getD ((lookupObjmap objmap (hashOfA v)).getD 0) 0)) := by
    unfold arrayElemOffsets
    have hcg := exceptMapM_congr
      (fun idx =>
        let vo := ctx.offtable.getD idx 0
        if vo = pre.length then
          Except.error bplistError.selfReferentialArrayValue
        else Except.ok vo)
      (fun idx => ctx.offtable.getD idx 0)
      (vs.map (fun v => (lookupObjmap objmap (hashOfA v)).getD 0))
      (by
        intro x hx
        obtain ⟨v, hv, hvx⟩ := List.mem_map.mp hx
        subst hvx
        show (if ctx.offtable.getD ((lookupObjmap objmap (hashOfA v)).getD 0) 0
            = pre.length then Except.error
              bplistError.selfReferentialArrayValue
          else Except.ok (ctx.offtable.getD
            ((lookupObjmap objmap (hashOfA v)).getD 0) 0)) = _
        rw [if_neg (hne v hv)])
    rw [hcg]
    rw [List.map_map]
    rfl
  have hlen2 : (((vs.map (fun v => (lookupObjmap objmap (hashOfA v)).getD 0)).map
      (fun x => beBytes refSize x)).flatten).length = vs.length * refSize := by
    rw [refbytes_len]
    simp
    ring
  have hrs1 : 1 ≤ refSize := by rcases hleg with h | h | h | h <;> omega
  have hvlen : vs.length * 1 ≤ vs.length * refSize :=
    Nat.mul_le_mul_left _ hrs1
  rw [Nat.mul_one] at hvlen
  by_cases hbig : vs.length ≥ 0xF
  · rw [writeCountedTag, if_pos hbig] at hB hOTO
    have hOTO2 : pre.length + (1 + ((writeIntTag vs.length).length
        + vs.length * refSize)) ≤ ctx.trailer.offsetTableOffset := by
      simp only [List.length_append, List.length_cons] at hOTO
      rw [hlen2] at hOTO
      omega
    have hc64 : vs.length < 2 ^ 64 := by omega
    rw [readTagByte ctx.bytes pre (writeIntTag vs.length
      ++ (((vs.map (fun v => (lookupObjmap objmap (hashOfA v)).getD 0)).map
        (fun x => beBytes refSize x)).flatten ++ post)) 0xAF
      (by norm_num) (by rw [hB]; simp)]
    show parseTagBody _ ctx st pre.length 0xAF (pre.length + 1) = _
    rw [parseTagBody]
    norm_num
    rw [parseArrayCase]
    rw [countForTag_large ctx.bytes (pre ++ [0xAF])
      (((vs.map (fun v => (lookupObjmap objmap (hashOfA v)).getD 0)).map
        (fun x => beBytes refSize x)).flatten ++ post) 0xAF vs.length
      (pre.length + 1) (by norm_num) hc64 (by rw [hB]; simp) (by simp)]
    dsimp only
    rw [validateObjectListLength]
    rw [if_neg (by
      unfold u64
      rw [hrw]
      generalize hq : vs.length * refSize = q at hOTO2 ⊢
      rw [Nat.mod_eq_of_lt (by omega), Nat.mod_eq_of_lt (by omega)]
      omega)]
    rw [readRefList_count ctx refSize vs.length
      (vs.map (fun v => (lookupObjmap objmap (hashOfA v)).getD 0))
      (pre ++ [0xAF] ++ writeIntTag vs.length) post
      (pre.length + 1 + (writeIntTag vs.length).length)
      (by simp) (by rw [hB]; simp) (by simp; omega) hrw hleg
      (by
        intro x hx
        obtain ⟨v, hv, hvx⟩ := List.mem_map.mp hx
        subst hvx
        exact ⟨(hidx v hv).1, (hidx v hv).2⟩)]
    dsimp only
    rw [harr]
    simp only [pvalOfA, List.getD_eq_getElem?_getD]
  · push_neg at hbig
    rw [writeCountedTag, if_neg (by omega)] at hB hOTO
    have hOTO2 : pre.length + (1 + vs.length * refSize)
        ≤ ctx.trailer.offsetTableOffset := by
      simp only [List.length_append, List.length_cons] at hOTO
      rw [hlen2] at hOTO
      omega
    rw [readTagByte ctx.bytes pre
      ((((vs.map (fun v => (lookupObjmap objmap (hashOfA v)).getD 0)).map
        (fun x => beBytes refSize x)).flatten ++ post))
      (0xA0 + vs.length) (by omega) (by rw [hB]; simp)]
    show parseTagBody _ ctx st pre.length (0xA0 + vs.length)
      (pre.length + 1) = _
    have hq10 : (0xA0 + vs.length) / 16 = 10 := by omega
    have hno : ∀ m : Nat, m ≠ 10 → ¬ (0xA0 + vs.length) / 16 = m :=
      fun m hm hc => hm (hc.symm.trans hq10)
    rw [parseTagBody]
    rw [if_neg (hno 0 (by decide)), if_neg (hno 1 (by decide)),
      if_neg (hno 2 (by decide)), if_neg (hno 3 (by decide)),
      if_neg (hno 4 (by decide)),
      if_neg (by rintro (h | h) <;> omega),
      if_neg (hno 8 (by decide)), if_neg (hno 13 (by decide)),
      if_pos hq10]
    rw [parseArrayCase]
    rw [countForTag_small ctx.bytes 0xA0 vs.length (pre.length + 1)
      (by norm_num) hbig]
    dsimp only
    rw [validateObjectListLength]
    rw [if_neg (by
      unfold u64
      rw [hrw]
      generalize hq : vs.length * refSize = q at hOTO2 ⊢
      rw [Nat.mod_eq_of_lt (by omega), Nat.mod_eq_of_lt (by omega)]
      omega)]
    rw [readRefList_count ctx refSize vs.length
      (vs.map (fun v => (lookupObjmap objmap (hashOfA v)).getD 0))
      (pre ++ [0xA0 + vs.length]) post (pre.length + 1)
      (by simp) (by rw [hB]; simp) (by simp) hrw hleg
      (by
        intro x hx
        obtain ⟨v, hv, hvx⟩ := List.mem_map.mp hx
        subst hvx
        exact ⟨(hidx v hv).1, (hidx v hv).2⟩)]
    dsimp only
    rw [harr]
    simp only [pvalOfA, List.getD_eq_getElem?_getD]


theorem parseDictEntriesF_ok
    (recur : PSt → Nat → Except bplistError (PVal × PSt))
    (ctx : ParseCtx) (off cnt : Nat) (indices : List Nat)
    (KS : Nat → Option GoStr)
    (hrecur : ∀ (st : PSt) (o : Nat) (s : GoStr), KS o = some s →
      recur st o = .ok (.pString s, st)) :
    ∀ (ks : List GoStr) (vos : List Nat) (i : Nat) (st : PSt),
    vos.length = ks.length →
    i + ks.length = cnt →
    (∀ p, p < ks.length →
        ctx.offtable.getD (indices.getD (i + p) 0) 0 ≠ off
      ∧ KS (ctx.offtable.getD (indices.getD (i + p) 0) 0)
          = some (ks.getD p [])
      ∧ ctx.offtable.getD (indices.getD (i + p + cnt) 0) 0 = vos.getD p 0
      ∧ vos.getD p 0 ≠ off) →
    (∀ q ∈ st.objrefs, ∀ s, KS q.1 = some s → q.2 = .pString s) →
    ∃ objAdd : List (Nat × PVal),
      parseDictEntriesF recur ctx off cnt indices ks.length i st
        = .ok (ks, vos, ⟨objAdd ++ st.objrefs, st.delayed ++ vos⟩)
      ∧ ∀ q ∈ objAdd, ∃ s, KS q.1 = some s ∧ q.2 = .pString s := by
  intro ks
  induction ks with
  | nil =>
    intro vos i st hlen hcnt hp hmemo
    cases vos with
    | nil => exact ⟨[], by simp [parseDictEntriesF], by simp⟩
    | cons v vs => simp at hlen
  | cons k ks ih =>
    intro vos i st hlen hcnt hp hmemo
    cases vos with
    | nil => simp at hlen
    | cons vo vos =>
      have hp0 := hp 0 (by simp)
      simp only [Nat.add_zero, List.getD_cons_zero] at hp0
      obtain ⟨hne1, hKS0, hvo0, hvne0⟩ := hp0
      have hlen2 : vos.length = ks.length := by simpa using hlen
      have hcnt2 : (i + 1) + ks.length = cnt := by
        simp only [List.length_cons] at hcnt
        omega
      have hp2 : ∀ p, p < ks.length →
          ctx.offtable.getD (indices.getD ((i + 1) + p) 0) 0 ≠ off
        ∧ KS (ctx.offtable.getD (indices.getD ((i + 1) + p) 0) 0)
            = some (ks.getD p [])
        ∧ ctx.offtable.getD (indices.getD ((i + 1) + p + cnt) 0) 0
            = vos.getD p 0
        ∧ vos.getD p 0 ≠ off := by
        intro p hpp
        have h := hp (p + 1) (by simp; omega)
        have he1 : i + (p + 1) = i + 1 + p := by omega
        rw [he1] at h
        simpa using h
      simp only [List.length_cons]
      rw [parseDictEntriesF]
      rw [if_neg hne1]
      rw [hvo0]
      rw [if_neg hvne0]
      cases hmo : lookupObjrefs st.objrefs
          (ctx.offtable.getD (indices.getD i 0) 0) with
      | some pv =>
        have hpv : pv = .pString k := by
          unfold lookupObjrefs at hmo
          obtain ⟨q, hq1, hq2⟩ := Option.map_eq_some'.mp hmo
          have hqmem := List.mem_of_find?_eq_some hq1
          have hqeq : q.1 = ctx.offtable.getD (indices.getD i 0) 0 := by
            have := List.find?_some hq1
            simpa using this
          rw [← hq2]
          exact hmemo q hqmem k (by rw [hqeq]; simpa using hKS0)
        obtain ⟨objAdd, heq, hgood⟩ := ih vos (i + 1)
          ⟨st.objrefs, st.delayed ++ [vo]⟩ hlen2 hcnt2 hp2 hmemo
        refine ⟨objAdd, ?_, hgood⟩
        rw [show valueAtOffsetF recur st
            (ctx.offtable.getD (indices.getD i 0) 0)
            = .ok (pv, st) from by unfold valueAtOffsetF; rw [hmo]]
        subst hpv
        dsimp only
        rw [heq]
        simp
      | none =>
        have hrec := hrecur st (ctx.offtable.getD (indices.getD i 0) 0) k
          (by simpa using hKS0)
        have hmemo2 : ∀ q ∈ ((ctx.offtable.getD (indices.getD i 0) 0,
            PVal.pString k) :: st.objrefs), ∀ s, KS q.1 = some s
            → q.2 = .pString s := by
          intro q hq s hks
          rcases List.mem_cons.mp hq with h | h
          · subst h
            simp only at hks ⊢
            have hsk : some k = some s := by
              rw [← hks]
              simpa using hKS0.symm
            rw [Option.some.injEq] at hsk
            rw [hsk]
          · exact hmemo q h s hks
        obtain ⟨objAdd, heq, hgood⟩ := ih vos (i + 1)
          ⟨(ctx.offtable.getD (indices.getD i 0) 0, PVal.pString k)
              :: st.objrefs, st.delayed ++ [vo]⟩ hlen2 hcnt2 hp2 hmemo2
        refine ⟨objAdd ++ [(ctx.offtable.getD (indices.getD i 0) 0,
          PVal.pString k)], ?_, ?_⟩
        · rw [show valueAtOffsetF recur st
              (ctx.offtable.getD (indices.getD i 0) 0)
              = .ok (.pString k, ⟨(ctx.offtable.getD (indices.getD i 0) 0,
                  PVal.pString k) :: st.objrefs, st.delayed⟩) from by
            unfold valueAtOffsetF; rw [hmo]; rw [hrec]]
          dsimp only
          rw [heq]
          simp
        · intro q hq
          rcases List.mem_append.mp hq with h | h
          · exact hgood q h
          · rcases List.mem_singleton.mp h with rfl
            exact ⟨k, by simpa using hKS0, rfl⟩

theorem parse_rec_dict (fuel : Nat) (ctx : ParseCtx) (st : PSt)
    (pre post : List Nat) (i : Nat) (es : List (GoStr × AVal))
    (objmap : List (hashKey × Nat)) (refSize : Nat)
    (KS : Nat → Option GoStr)
    (hleg : refSize = 1 ∨ refSize = 2 ∨ refSize = 4 ∨ refSize = 8)
    (hrw : ctx.trailer.objectRefSize = refSize)
    (hkidx : ∀ e ∈ es, ((lookupObjmap objmap (.hString e.1)).getD 0
          < 2 ^ (8 * refSize))
        ∧ (lookupObjmap objmap (.hString e.1)).getD 0
          < ctx.trailer.numObjects)
    (hvidx : ∀ e ∈ es, ((lookupObjmap objmap (hashOfA e.2)).getD 0
          < 2 ^ (8 * refSize))
        ∧ (lookupObjmap objmap (hashOfA e.2)).getD 0
          < ctx.trailer.numObjects)
    (hkne : ∀ e ∈ es,
        ctx.offtable.getD ((lookupObjmap objmap (.hString e.1)).getD 0) 0
          ≠ pre.length)
    (hvne : ∀ e ∈ es,
        ctx.offtable.getD ((lookupObjmap objmap (hashOfA e.2)).getD 0) 0
          ≠ pre.length)
    (hKSk : ∀ e ∈ es,
        KS (ctx.offtable.getD
          ((lookupObjmap objmap (.hString e.1)).getD 0) 0) = some e.1)
    (hrecur : ∀ (st2 : PSt) (o : Nat) (s : GoStr), KS o = some s →
      parseTagAtOffset fuel ctx st2 o = .ok (.pString s, st2))
    (hmemo : ∀ q ∈ st.objrefs, ∀ s, KS q.1 = some s → q.2 = .pString s)
    (hB : ctx.bytes = pre ++ (writeCountedTag 0xD0 es.length
        ++ ((es.map (fun e => (lookupObjmap objmap (.hString e.1)).getD 0)
            ++ es.map (fun e => (lookupObjmap objmap (hashOfA e.2)).getD 0)).map
            (fun x => beBytes refSize x)).flatten) ++ post)
    (hOTO : pre.length + (writeCountedTag 0xD0 es.length
        ++ ((es.map (fun e => (lookupObjmap objmap (.hString e.1)).getD 0)
            ++ es.map (fun e => (lookupObjmap objmap (hashOfA e.2)).getD 0)).map
            (fun x => beBytes refSize x)).flatten).length
        ≤ ctx.trailer.offsetTableOffset)
    (hOTO64 : ctx.trailer.offsetTableOffset < 2 ^ 64) :
    ∃ objAdd : List (Nat × PVal),
    parseTagAtOffset (fuel + 1) ctx st pre.length
      = .ok (pvalOfA ctx.offtable objmap (.aDict i es),
          ⟨objAdd ++ st.objrefs, st.delayed ++ es.map (fun e =>
              ctx.offtable.getD
                ((lookupObjmap objmap (hashOfA e.2)).getD 0) 0)⟩)
      ∧ ∀ q ∈ objAdd, ∃ s, KS q.1 = some s ∧ q.2 = .pString s := by
  rw [parseTagAtOffset_succ]
  have hrs1 : 1 ≤ refSize := by rcases hleg with h | h | h | h <;> omega
  have hlen2 : (((es.map (fun e => (lookupObjmap objmap (.hString e.1)).getD 0)
      ++ es.map (fun e => (lookupObjmap objmap (hashOfA e.2)).getD 0)).map
      (fun x => beBytes refSize x)).flatten).length
      = (es.length * 2) * refSize := by
    rw [refbytes_len]
    simp
    ring
  have hmul : (es.length * 2) * 1 ≤ (es.length * 2) * refSize :=
    Nat.mul_le_mul_left _ hrs1
  rw [Nat.mul_one] at hmul
  have hP : ∀ p, p < (es.map Prod.fst).length →
      ctx.offtable.getD
        ((es.map (fun e => (lookupObjmap objmap (.hString e.1)).getD 0)
          ++ es.map (fun e =>
            (lookupObjmap objmap (hashOfA e.2)).getD 0)).getD (0 + p) 0) 0
        ≠ pre.length
    ∧ KS (ctx.offtable.getD
        ((es.map (fun e => (lookupObjmap objmap (.hString e.1)).getD 0)
          ++ es.map (fun e =>
            (lookupObjmap objmap (hashOfA e.2)).getD 0)).getD (0 + p) 0) 0)
        = some ((es.map Prod.fst).getD p [])
    ∧ ctx.offtable.getD
        ((es.map (fun e => (lookupObjmap objmap (.hString e.1)).getD 0)
          ++ es.map (fun e =>
            (lookupObjmap objmap (hashOfA e.2)).getD 0)).getD
          (0 + p + es.length) 0) 0
        = (es.map (fun e => ctx.offtable.getD
            ((lookupObjmap objmap (hashOfA e.2)).getD 0) 0)).getD p 0
    ∧ (es.map (fun e => ctx.offtable.getD
        ((lookupObjmap objmap (hashOfA e.2)).getD 0) 0)).getD p 0
        ≠ pre.length := by
    intro p hp
    simp only [List.length_map] at hp
    have hmem : es.get ⟨p, hp⟩ ∈ es := List.get_mem es p hp
    have hk1 : (es.map (fun e => (lookupObjmap objmap (.hString e.1)).getD 0)
        ++ es.map (fun e =>
          (lookupObjmap objmap (hashOfA e.2)).getD 0)).getD (0 + p) 0
        = (lookupObjmap objmap (.hString (es.get ⟨p, hp⟩).1)).getD 0 := by
      rw [Nat.zero_add, List.getD_eq_getElem?_getD, List.getElem?_append,
        if_pos (by simpa using hp)]
      rw [List.getElem?_map, List.getElem?_eq_getElem hp]
      simp
    have hv1 : (es.map (fun e => (lookupObjmap objmap (.hString e.1)).getD 0)
        ++ es.map (fun e =>
          (lookupObjmap objmap (hashOfA e.2)).getD 0)).getD
        (0 + p + es.length) 0
        = (lookupObjmap objmap (hashOfA (es.get ⟨p, hp⟩).2)).getD 0 := by
      rw [List.getD_eq_getElem?_getD, List.getElem?_append,
        if_neg (by simp)]
      simp only [List.length_map]
      rw [show 0 + p + es.length - es.length = p from by omega]
      rw [List.getElem?_map, List.getElem?_eq_getElem hp]
      simp
    have hks1 : (es.map Prod.fst).getD p [] = (es.get ⟨p, hp⟩).1 := by
      rw [List.getD_eq_getElem?_getD, List.getElem?_map,
        List.getElem?_eq_getElem hp]
      simp
    have hvo1 : (es.map (fun e => ctx.offtable.getD
        ((lookupObjmap objmap (hashOfA e.2)).getD 0) 0)).getD p 0
        = ctx.offtable.getD
          ((lookupObjmap objmap (hashOfA (es.get ⟨p, hp⟩).2)).getD 0) 0 := by
      rw [List.getD_eq_getElem?_getD, List.getElem?_map,
        List.getElem?_eq_getElem hp]
      simp
    refine ⟨?_, ?_, ?_, ?_⟩
    · rw [hk1]
      exact hkne _ hmem
    · rw [hk1, hks1]
      exact hKSk _ hmem
    · rw [hv1, hvo1]
    · rw [hvo1]
      exact hvne _ hmem
  obtain ⟨objAdd, hloop, hgood⟩ := parseDictEntriesF_ok
    (parseTagAtOffset fuel ctx) ctx pre.length es.length
    (es.map (fun e => (lookupObjmap objmap (.hString e.1)).getD 0)
      ++ es.map (fun e => (lookupObjmap objmap (hashOfA e.2)).getD 0))
    KS hrecur (es.map Prod.fst)
    (es.map (fun e => ctx.offtable.getD
      ((lookupObjmap objmap (hashOfA e.2)).getD 0) 0))
    0 st (by simp) (by simp) hP hmemo
  simp only [List.length_map] at hloop
  refine ⟨objAdd, ?_, hgood⟩
  by_cases hbig : es.length ≥ 0xF
  · rw [writeCountedTag, if_pos hbig] at hB hOTO
    have hOTO2 : pre.length + (1 + ((writeIntTag es.length).length
        + (es.length * 2) * refSize)) ≤ ctx.trailer.offsetTableOffset := by
      simp only [List.length_append, List.length_cons] at hOTO
      rw [hlen2] at hOTO
      omega
    have hc64 : es.length < 2 ^ 64 := by omega
    have h2c64 : es.length * 2 < 2 ^ 64 := by omega
    rw [readTagByte ctx.bytes pre (writeIntTag es.length
      ++ (((es.map (fun e => (lookupObjmap objmap (.hString e.1)).getD 0)
        ++ es.map (fun e => (lookupObjmap objmap (hashOfA e.2)).getD 0)).map
        (fun x => beBytes refSize x)).flatten ++ post)) 0xDF
      (by norm_num) (by rw [hB]; simp)]
    show parseTagBody _ ctx st pre.length 0xDF (pre.length + 1) = _
    rw [parseTagBody]
    norm_num
    rw [parseDictCase]
    rw [countForTag_large ctx.bytes (pre ++ [0xDF])
      (((es.map (fun e => (lookupObjmap objmap (.hString e.1)).getD 0)
        ++ es.map (fun e => (lookupObjmap objmap (hashOfA e.2)).getD 0)).map
        (fun x => beBytes refSize x)).flatten ++ post) 0xDF es.length
      (pre.length + 1) (by norm_num) hc64 (by rw [hB]; simp) (by simp)]
    dsimp only
    rw [show u64 (es.length * 2) = es.length * 2 from by
      unfold u64; exact Nat.mod_eq_of_lt h2c64]
    rw [validateObjectListLength]
    rw [if_neg (by
      unfold u64
      rw [hrw]
      generalize hq : es.length * 2 * refSize = q at hOTO2 ⊢
      rw [Nat.mod_eq_of_lt (by omega), Nat.mod_eq_of_lt (by omega)]
      omega)]
    rw [readRefList_count ctx refSize (es.length * 2)
      (es.map (fun e => (lookupObjmap objmap (.hString e.1)).getD 0)
        ++ es.map (fun e => (lookupObjmap objmap (hashOfA e.2)).getD 0))
      (pre ++ [0xDF] ++ writeIntTag es.length) post
      (pre.length + 1 + (writeIntTag es.length).length)
      (by simp; omega) (by rw [hB]; simp) (by simp; omega) hrw hleg
      (by
        intro x hx
        rcases List.mem_append.mp hx with h | h
        · obtain ⟨e, he, hex⟩ := List.mem_map.mp h
          subst hex
          exact ⟨(hkidx e he).1, (hkidx e he).2⟩
        · obtain ⟨e, he, hex⟩ := List.mem_map.mp h
          subst hex
          exact ⟨(hvidx e he).1, (hvidx e he).2⟩)]
    dsimp only
    rw [hloop]
    simp only [pvalOfA, List.getD_eq_getElem?_getD]
  · push_neg at hbig
    rw [writeCountedTag, if_neg (by omega)] at hB hOTO
    have hOTO2 : pre.length + (1 + (es.length * 2) * refSize)
        ≤ ctx.trailer.offsetTableOffset := by
      simp only [List.length_append, List.length_cons] at hOTO
      rw [hlen2] at hOTO
      omega
    have h2c64 : es.length * 2 < 2 ^ 64 := by omega
    rw [readTagByte ctx.bytes pre
      ((((es.map (fun e => (lookupObjmap objmap (.hString e.1)).getD 0)
        ++ es.map (fun e => (lookupObjmap objmap (hashOfA e.2)).getD 0)).map
        (fun x => beBytes refSize x)).flatten ++ post))
      (0xD0 + es.length) (by omega) (by rw [hB]; simp)]
    show parseTagBody _ ctx st pre.length (0xD0 + es.length)
      (pre.length + 1) = _
    have hq13 : (0xD0 + es.length) / 16 = 13 := by omega
    have hno : ∀ m : Nat, m ≠ 13 → ¬ (0xD0 + es.length) / 16 = m :=
      fun m hm hc => hm (hc.symm.trans hq13)
    rw [parseTagBody]
    rw [if_neg (hno 0 (by decide)), if_neg (hno 1 (by decide)),
      if_neg (hno 2 (by decide)), if_neg (hno 3 (by decide)),
      if_neg (hno 4 (by decide)),
      if_neg (by rintro (h | h) <;> omega),
      if_neg (hno 8 (by decide)), if_pos hq13]
    rw [parseDictCase]
    rw [countForTag_small ctx.bytes 0xD0 es.length (pre.length + 1)
      (by norm_num) hbig]
    dsimp only
    rw [show u64 (es.length * 2) = es.length * 2 from by
      unfold u64; exact Nat.mod_eq_of_lt h2c64]
    rw [validateObjectListLength]
    rw [if_neg (by
      unfold u64
      rw [hrw]
      generalize hq : es.length * 2 * refSize = q at hOTO2 ⊢
      rw [Nat.mod_eq_of_lt (by omega), Nat.mod_eq_of_lt (by omega)]
      omega)]
    rw [readRefList_count ctx refSize (es.length * 2)
      (es.map (fun e => (lookupObjmap objmap (.hString e.1)).getD 0)
        ++ es.map (fun e => (lookupObjmap objmap (hashOfA e.2)).getD 0))
      (pre ++ [0xD0 + es.length]) post (pre.length + 1)
      (by simp; omega) (by rw [hB]; simp) (by simp) hrw hleg
      (by
        intro x hx
        rcases List.mem_append.mp hx with h | h
        · obtain ⟨e, he, hex⟩ := List.mem_map.mp h
          subst hex
          exact ⟨(hkidx e he).1, (hkidx e he).2⟩
        · obtain ⟨e, he, hex⟩ := List.mem_map.mp h
          subst hex
          exact ⟨(hvidx e he).1, (hvidx e he).2⟩)]
    dsimp only
    rw [hloop]
    simp only [pvalOfA, List.getD_eq_getElem?_getD]

theorem take_sum_lt (rs : List (List Nat)) (hnn : ∀ r ∈ rs, r ≠ []) :
    ∀ j1 j2 : Nat, j1 < j2 → j2 ≤ rs.length →
    ((rs.take j1).map List.length).sum < ((rs.take j2).map List.length).sum := by
  induction rs with
  | nil =>
    intro j1 j2 h12 hj2
    simp at hj2
    omega
  | cons r rs ih =>
    intro j1 j2 h12 hj2
    cases j2 with
    | zero => omega
    | succ j2 =>
      cases j1 with
      | zero =>
        have hr : 1 ≤ r.length := by
          have := hnn r (List.mem_cons_self r rs)
          cases r
          · simp at this
          · simp
        simp only [List.take_zero, List.map_nil, List.sum_nil,
          List.take_succ_cons, List.map_cons, List.sum_cons]
        omega
      | succ j1 =>
        simp only [List.take_succ_cons, List.map_cons, List.sum_cons]
        have := ih (fun x hx => hnn x (List.mem_cons_of_mem r hx)) j1 j2
          (by omega) (by simpa using hj2)
        omega

theorem depthA_entry_le (es : List (GoStr × AVal)) (e : GoStr × AVal)
    (he : e ∈ es) : depthA e.2 ≤ depthAEntries es := by
  induction es with
  | nil => cases he
  | cons e2 es ih =>
    rw [show depthAEntries (e2 :: es) = max (depthA e2.2) (depthAEntries es)
      from rfl]
    rcases List.mem_cons.mp he with h | h
    · subst h
      exact Nat.le_max_left _ _
    · exact Nat.le_trans (ih h) (Nat.le_max_right _ _)

theorem depthA_elem_le (vs : List AVal) (v : AVal) (hv : v ∈ vs) :
    depthA v ≤ depthAList vs := by
  induction vs with
  | nil => cases hv
  | cons v2 vs ih =>
    rw [show depthAList (v2 :: vs) = max (depthA v2) (depthAList vs)
      from rfl]
    rcases List.mem_cons.mp hv with h | h
    · subst h
      exact Nat.le_max_left _ _
    · exact Nat.le_trans (ih h) (Nat.le_max_right _ _)

theorem childrenOfSlot_ne (t : AVal) : ∀ c ∈ childrenOfSlot t, c ≠ t := by
  intro c hc
  cases t with
  | aDict i es =>
    rcases List.mem_append.mp hc with h | h
    · obtain ⟨e, he, hec⟩ := List.mem_map.mp h
      subst hec
      simp
    · obtain ⟨e, he, hec⟩ := List.mem_map.mp h
      subst hec
      intro hcon
      have h1 : depthA e.2 ≤ depthAEntries es := depthA_entry_le es e he
      rw [hcon] at h1
      rw [show depthA (.aDict i es) = 1 + depthAEntries es from rfl] at h1
      omega
  | aArray i vs =>
    intro hcon
    have h1 : depthA c ≤ depthAList vs := depthA_elem_le vs c hc
    rw [hcon] at h1
    rw [show depthA (.aArray i vs) = 1 + depthAList vs from rfl] at h1
    omega
  | aString s => cases hc
  | aNumber sg v => cases hc
  | aReal w b => cases hc
  | aBoolean b => cases hc
  | aData bs => cases hc
  | aDate d => cases hc
  | aUID u => cases hc
  | aNil => cases hc

theorem offAt_eq (ctx : ParseCtx) (stF : FlattenSt) (recs : List (List Nat))
    (refSize : Nat) (G : GoodCtx ctx stF recs refSize) (j : Nat)
    (hj : j < stF.objtable.length) :
    ctx.offtable.getD j 0 = 8 + ((recs.take j).map List.length).sum := by
  rw [G.hofft]
  exact offsetsFrom_get recs 8 j (by rw [G.hlen]; exact hj)

theorem offAt_lt (ctx : ParseCtx) (stF : FlattenSt) (recs : List (List Nat))
    (refSize : Nat) (G : GoodCtx ctx stF recs refSize) (j : Nat)
    (hj : j < stF.objtable.length) :
    ctx.offtable.getD j 0 < ctx.trailer.offsetTableOffset := by
  rw [offAt_eq ctx stF recs refSize G j hj, G.hOTO]
  have h1 := take_sum_lt recs G.hrecnn j recs.length
    (by rw [G.hlen]; exact hj) (Nat.le_refl _)
  rw [List.take_length] at h1
  have h2 : recs.flatten.length = (recs.map List.length).sum := by
    simp [List.length_flatten]
  omega

theorem offAt_inj (ctx : ParseCtx) (stF : FlattenSt) (recs : List (List Nat))
    (refSize : Nat) (G : GoodCtx ctx stF recs refSize) (j1 j2 : Nat)
    (hj1 : j1 < stF.objtable.length) (hj2 : j2 < stF.objtable.length)
    (heq : ctx.offtable.getD j1 0 = ctx.offtable.getD j2 0) : j1 = j2 := by
  rw [offAt_eq ctx stF recs refSize G j1 hj1,
    offAt_eq ctx stF recs refSize G j2 hj2] at heq
  by_contra hne
  rcases Nat.lt_or_ge j1 j2 with h | h
  · have := take_sum_lt recs G.hrecnn j1 j2 h (by rw [G.hlen]; omega)
    omega
  · have hlt : j2 < j1 := by omega
    have := take_sum_lt recs G.hrecnn j2 j1 hlt (by rw [G.hlen]; omega)
    omega

theorem slot_bytes (ctx : ParseCtx) (stF : FlattenSt) (recs : List (List Nat))
    (refSize : Nat) (G : GoodCtx ctx stF recs refSize) (j : Nat)
    (hj : j < stF.objtable.length) :
    ∃ pre post, ctx.bytes = pre ++ (recs.getD j [] ++ post)
      ∧ pre.length = ctx.offtable.getD j 0
      ∧ pre.length + (recs.getD j []).length ≤ ctx.trailer.offsetTableOffset := by
  obtain ⟨rest, hb⟩ := G.hbytes
  have hjr : j < recs.length := by rw [G.hlen]; exact hj
  refine ⟨bplistHeader ++ (recs.take j).flatten,
    (recs.drop (j + 1)).flatten ++ rest, ?_, ?_, ?_⟩
  · rw [hb, flatten_decomp recs j hjr]
    simp
  · rw [offAt_eq ctx stF recs refSize G j hj]
    simp [bplistHeader, flatten_take_length]
    omega
  · rw [G.hOTO]
    conv_rhs => rw [flatten_decomp recs j hjr]
    simp [bplistHeader]
    omega

theorem lookupObjrefs_mem (l : List (Nat × PVal)) (o : Nat) (pv : PVal)
    (h : lookupObjrefs l o = some pv) : ∃ q ∈ l, q.1 = o ∧ q.2 = pv := by
  unfold lookupObjrefs at h
  obtain ⟨q, hq1, hq2⟩ := Option.map_eq_some'.mp h
  refine ⟨q, List.mem_of_find?_eq_some hq1, ?_, hq2⟩
  have := List.find?_some hq1
  simpa using this

theorem lookupObjrefs_isSome_of (l : List (Nat × PVal)) (o : Nat)
    (q : Nat × PVal) (hq : q ∈ l) (ho : q.1 = o) :
    (lookupObjrefs l o).isSome := by
  unfold lookupObjrefs
  cases hf : List.find? (fun p => p.1 == o) l with
  | none =>
    have := List.find?_eq_none.mp hf q hq
    simp [ho] at this
  | some p => simp

theorem KS_inv (offsets : List Nat) (objtable : List AVal) (o : Nat)
    (s : GoStr) (h : KSof offsets objtable o = some s) :
    ∃ j, j < objtable.length ∧ offsets.getD j 0 = o
      ∧ objtable.getD j .aNil = .aString s := by
  unfold KSof at h
  obtain ⟨j, hj1, hj2⟩ := Option.bind_eq_some.mp h
  have hjm : j < objtable.length := by
    have := List.mem_of_find?_eq_some hj1
    simpa using this
  have hjp : offsets.getD j 0 = o := by
    have := List.find?_some hj1
    simpa using this
  refine ⟨j, hjm, hjp, ?_⟩
  cases hcase : objtable.getD j AVal.aNil <;> rw [hcase] at hj2 <;>
    simp at hj2
  rw [hj2]

theorem KS_at (offsets : List Nat) (objtable : List AVal) (j : Nat)
    (s : GoStr) (hj : j < objtable.length)
    (hs : objtable.getD j .aNil = .aString s)
    (hinj : ∀ j1 j2, j1 < objtable.length → j2 < objtable.length →
      offsets.getD j1 0 = offsets.getD j2 0 → j1 = j2) :
    KSof offsets objtable (offsets.getD j 0) = some s := by
  unfold KSof
  have hsome : ((List.range objtable.length).find?
      (fun j2 => offsets.getD j2 0 == offsets.getD j 0)).isSome := by
    rw [List.find?_isSome]
    exact ⟨j, List.mem_range.mpr hj, by simp⟩
  obtain ⟨j2, hj2⟩ := Option.isSome_iff_exists.mp hsome
  rw [hj2]
  have hj2m : j2 < objtable.length := by
    have := List.mem_of_find?_eq_some hj2
    simpa using this
  have hj2p : offsets.getD j2 0 = offsets.getD j 0 := by
    have := List.find?_some hj2
    simpa using this
  have : j2 = j := hinj j2 j hj2m hj hj2p
  subst this
  simp only [Option.some_bind]
  rw [hs]

theorem getD_mem {α : Type} (l : List α) (j : Nat) (d : α)
    (hj : j < l.length) : l.getD j d ∈ l := by
  simp only [List.getD_eq_getElem?_getD]
  rw [List.getElem?_eq_getElem hj]
  exact List.getElem_mem _

theorem delayedOfSlot_scalar (offsets : List Nat)
    (objmap : List (hashKey × Nat)) (a : AVal)
    (h : isContainerA a = false) : delayedOfSlot offsets objmap a = [] := by
  cases a <;> simp [delayedOfSlot] <;> simp [isContainerA] at h

theorem refSize_legal (ctx : ParseCtx) (stF : FlattenSt)
    (recs : List (List Nat)) (refSize : Nat)
    (G : GoodCtx ctx stF recs refSize) :
    refSize = 1 ∨ refSize = 2 ∨ refSize = 4 ∨ refSize = 8 := by
  rcases G.hleg with h | h | h <;> simp [h]

theorem OTO_lt64 (ctx : ParseCtx) (stF : FlattenSt)
    (recs : List (List Nat)) (refSize : Nat)
    (G : GoodCtx ctx stF recs refSize) :
    ctx.trailer.offsetTableOffset < 2 ^ 64 := by
  have h := G.hOTO32
  have h2 : (2:Nat) ^ 32 < 2 ^ 64 := by norm_num
  omega

theorem memoGood_KS (ctx : ParseCtx) (stF : FlattenSt)
    (recs : List (List Nat)) (refSize : Nat)
    (G : GoodCtx ctx stF recs refSize) (l : List (Nat × PVal))
    (hmg : MemoGood ctx stF l) :
    ∀ q ∈ l, ∀ s, KSof ctx.offtable stF.objtable q.1 = some s →
      q.2 = .pString s := by
  intro q hq s hks
  obtain ⟨j2, hj2, hq1, hq2⟩ := hmg q hq
  obtain ⟨j3, hj3, hoff3, hslot3⟩ := KS_inv _ _ _ _ hks
  have hj32 : j3 = j2 := offAt_inj ctx stF recs refSize G j3 j2 hj3 hj2
    (by rw [hoff3, hq1])
  subst hj32
  rw [hq2, hslot3]
  rfl

theorem KSgood_entry (ctx : ParseCtx) (stF : FlattenSt)
    (recs : List (List Nat)) (refSize : Nat)
    (G : GoodCtx ctx stF recs refSize) (q : Nat × PVal)
    (h : ∃ s, KSof ctx.offtable stF.objtable q.1 = some s
      ∧ q.2 = .pString s) :
    ∃ j2, j2 < stF.objtable.length ∧ q.1 = ctx.offtable.getD j2 0
      ∧ q.2 = pvalOfA ctx.offtable stF.objmap (stF.objtable.getD j2 .aNil) := by
  obtain ⟨s, hks, hq2⟩ := h
  obtain ⟨j2, hj2, hoff2, hslot2⟩ := KS_inv _ _ _ _ hks
  refine ⟨j2, hj2, hoff2.symm, ?_⟩
  rw [hq2, hslot2]
  rfl

theorem string_slot_parse (ctx : ParseCtx) (stF : FlattenSt)
    (recs : List (List Nat)) (refSize : Nat)
    (G : GoodCtx ctx stF recs refSize) (f : Nat) :
    ∀ (st2 : PSt) (o : Nat) (s : GoStr),
    KSof ctx.offtable stF.objtable o = some s →
    parseTagAtOffset (f + 1) ctx st2 o = .ok (.pString s, st2) := by
  intro st2 o s hks
  obtain ⟨j, hj, hoff, hslot⟩ := KS_inv _ _ _ _ hks
  obtain ⟨pre, post, hb, hpre, hOTO⟩ := slot_bytes ctx stF recs refSize G j hj
  have hw := G.hrec j hj
  rw [hslot] at hw
  have hrec : writeStringTag s = recs.getD j [] := Except.ok.inj hw
  have hawf : awf (.aString s) = true := by
    rw [← hslot]
    exact G.hawf _ (getD_mem _ j .aNil hj)
  have hval : ∀ r ∈ s, validRune r := by
    intro r hr
    have := (List.all_eq_true.mp hawf) r hr
    simpa using this
  rw [← hoff, ← hpre]
  exact parse_rec_string f ctx st2 pre post s hval
    (by rw [hrec]; exact hOTO)
    (OTO_lt64 ctx stF recs refSize G)
    (by rw [hb, ← hrec, List.append_assoc])

theorem parse_slot (ctx : ParseCtx) (stF : FlattenSt)
    (recs : List (List Nat)) (refSize : Nat)
    (G : GoodCtx ctx stF recs refSize) (f : Nat) (j : Nat)
    (hj : j < stF.objtable.length) (st : PSt)
    (hmg : MemoGood ctx stF st.objrefs) :
    ∃ objAdd, parseTagAtOffset (f + 2) ctx st (ctx.offtable.getD j 0)
        = .ok (pvalOfA ctx.offtable stF.objmap (stF.objtable.getD j .aNil),
            ⟨objAdd ++ st.objrefs, st.delayed ++ delayedOfSlot ctx.offtable
              stF.objmap (stF.objtable.getD j .aNil)⟩)
      ∧ MemoGood ctx stF objAdd := by
  obtain ⟨pre, post, hb, hpre, hOTO⟩ := slot_bytes ctx stF recs refSize G j hj
  have htmem : stF.objtable.getD j .aNil ∈ stF.objtable :=
    getD_mem _ j .aNil hj
  have hawf := G.hawf _ htmem
  have hw := G.hrec j hj
  have hOTO64 := OTO_lt64 ctx stF recs refSize G
  have hleg8 := refSize_legal ctx stF recs refSize G
  have hinj : ∀ j1 j2, j1 < stF.objtable.length → j2 < stF.objtable.length →
      ctx.offtable.getD j1 0 = ctx.offtable.getD j2 0 → j1 = j2 :=
    fun j1 j2 h1 h2 he => offAt_inj ctx stF recs refSize G j1 j2 h1 h2 he
  rw [← hpre]
  by_cases hcont : isContainerA (stF.objtable.getD j .aNil) = true
  case neg =>
    rw [Bool.not_eq_true] at hcont
    refine ⟨[], ?_, by intro q hq; cases hq⟩
    rw [parse_rec_scalar (f + 1) ctx st pre post (recs.getD j [])
      (stF.objtable.getD j .aNil) stF.objmap refSize ctx.offtable stF.objmap
      hawf hcont hw hOTO hOTO64 (by rw [hb, List.append_assoc])]
    rw [delayedOfSlot_scalar _ _ _ hcont]
    simp
  case pos =>
    have hresd := G.hres _ htmem
    cases hcase : stF.objtable.getD j .aNil with
    | aDict i es =>
      rw [hcase] at hresd hawf hw
      have hkey : ∀ e ∈ es, ∃ ik,
          lookupObjmap stF.objmap (.hString e.1) = some ik
          ∧ ik < stF.objtable.length
          ∧ stF.objtable.getD ik .aNil = .aString e.1 := by
        intro e he
        exact hresd (.aString e.1) (List.mem_append.mpr
          (Or.inl (List.mem_map.mpr ⟨e, he, rfl⟩)))
      have hval : ∀ e ∈ es, ∃ iv,
          lookupObjmap stF.objmap (hashOfA e.2) = some iv
          ∧ iv < stF.objtable.length
          ∧ stF.objtable.getD iv .aNil = e.2 := by
        intro e he
        exact hresd e.2 (List.mem_append.mpr
          (Or.inr (List.mem_map.mpr ⟨e, he, rfl⟩)))
      have hwd := writeDict_ok stF.objmap refSize es
        (by
          intro e he
          obtain ⟨ik, hik, _, _⟩ := hkey e he
          rw [hik]
          rfl)
        (by
          intro e he
          obtain ⟨iv, hiv, _, _⟩ := hval e he
          rw [hiv]
          rfl)
        hleg8
      have hreceq : recs.getD j [] = writeCountedTag 0xD0 es.length
          ++ ((es.map (fun e => (lookupObjmap stF.objmap (.hString e.1)).getD 0)
              ++ es.map (fun e =>
                (lookupObjmap stF.objmap (hashOfA e.2)).getD 0)).map
              (fun x => beBytes refSize x)).flatten :=
        Except.ok.inj (hw.symm.trans hwd)
      obtain ⟨objAdd, hpd, hgood⟩ := parse_rec_dict (f + 1) ctx st pre post
        i es stF.objmap refSize (KSof ctx.offtable stF.objtable) hleg8 G.hrw
        (by
          intro e he
          obtain ⟨ik, hik, hikN, _⟩ := hkey e he
          rw [hik]
          exact ⟨Nat.lt_of_lt_of_le hikN G.hNbound, by rw [G.hnum]; exact hikN⟩)
        (by
          intro e he
          obtain ⟨iv, hiv, hivN, _⟩ := hval e he
          rw [hiv]
          exact ⟨Nat.lt_of_lt_of_le hivN G.hNbound, by rw [G.hnum]; exact hivN⟩)
        (by
          intro e he
          obtain ⟨ik, hik, hikN, hslotk⟩ := hkey e he
          rw [hik]
          show ctx.offtable.getD ik 0 ≠ pre.length
          rw [hpre]
          intro hcon
          have := hinj ik j hikN hj hcon
          subst this
          rw [hcase] at hslotk
          cases hslotk)
        (by
          intro e he
          obtain ⟨iv, hiv, hivN, hslotv⟩ := hval e he
          rw [hiv]
          show ctx.offtable.getD iv 0 ≠ pre.length
          rw [hpre]
          intro hcon
          have := hinj iv j hivN hj hcon
          subst this
          rw [hcase] at hslotv
          exact childrenOfSlot_ne (.aDict i es) e.2
            (List.mem_append.mpr (Or.inr (List.mem_map.mpr ⟨e, he, rfl⟩)))
            hslotv.symm)
        (by
          intro e he
          obtain ⟨ik, hik, hikN, hslotk⟩ := hkey e he
          rw [hik]
          exact KS_at ctx.offtable stF.objtable ik e.1 hikN hslotk hinj)
        (string_slot_parse ctx stF recs refSize G f)
        (memoGood_KS ctx stF recs refSize G st.objrefs hmg)
        (by rw [hb, hreceq]; simp)
        (by rw [← hreceq]; exact hOTO)
        hOTO64
      refine ⟨objAdd, ?_,
        fun q hq => KSgood_entry ctx stF recs refSize G q (hgood q hq)⟩
      rw [hpd]
      rfl
    | aArray i vs =>
      rw [hcase] at hresd hawf hw
      have hval : ∀ v ∈ vs, ∃ iv,
          lookupObjmap stF.objmap (hashOfA v) = some iv
          ∧ iv < stF.objtable.length
          ∧ stF.objtable.getD iv .aNil = v := by
        intro v hv
        exact hresd v hv
      have hwa := writeArr_ok stF.objmap refSize vs
        (by
          intro v hv
          obtain ⟨iv, hiv, _, _⟩ := hval v hv
          rw [hiv]
          rfl)
        hleg8
      have hreceq : recs.getD j [] = writeCountedTag 0xA0 vs.length
          ++ ((vs.map (fun v => (lookupObjmap stF.objmap (hashOfA v)).getD 0)).map
              (fun x => beBytes refSize x)).flatten :=
        Except.ok.inj (hw.symm.trans hwa)
      refine ⟨[], ?_, by intro q hq; cases hq⟩
      rw [parse_rec_array (f + 1) ctx st pre post i vs stF.objmap refSize
        hleg8 G.hrw
        (by
          intro v hv
          obtain ⟨iv, hiv, hivN, _⟩ := hval v hv
          rw [hiv]
          exact ⟨Nat.lt_of_lt_of_le hivN G.hNbound, by rw [G.hnum]; exact hivN⟩)
        (by
          intro v hv
          obtain ⟨iv, hiv, hivN, hslotv⟩ := hval v hv
          rw [hiv]
          show ctx.offtable.getD iv 0 ≠ pre.length
          rw [hpre]
          intro hcon
          have := hinj iv j hivN hj hcon
          subst this
          rw [hcase] at hslotv
          exact childrenOfSlot_ne (.aArray i vs) v hv hslotv.symm)
        (by rw [hb, hreceq]; simp)
        (by rw [← hreceq]; exact hOTO)
        hOTO64]
      rfl
    | aString s => rw [hcase] at hcont; simp [isContainerA] at hcont
    | aNumber sg v => rw [hcase] at hcont; simp [isContainerA] at hcont
    | aReal w b => rw [hcase] at hcont; simp [isContainerA] at hcont
    | aBoolean b => rw [hcase] at hcont; simp [isContainerA] at hcont
    | aData bs => rw [hcase] at hcont; simp [isContainerA] at hcont
    | aDate d => rw [hcase] at hcont; simp [isContainerA] at hcont
    | aUID u => rw [hcase] at hcont; simp [isContainerA] at hcont
    | aNil => rw [hcase] at hcont; simp [isContainerA] at hcont

theorem delayed_good (ctx : ParseCtx) (stF : FlattenSt)
    (recs : List (List Nat)) (refSize : Nat)
    (G : GoodCtx ctx stF recs refSize) (j : Nat)
    (hj : j < stF.objtable.length) :
    OffsGood ctx stF (delayedOfSlot ctx.offtable stF.objmap
      (stF.objtable.getD j .aNil)) := by
  have htmem : stF.objtable.getD j .aNil ∈ stF.objtable :=
    getD_mem _ j .aNil hj
  have hresd := G.hres _ htmem
  intro o ho
  cases hcase : stF.objtable.getD j .aNil with
  | aDict i es =>
    rw [hcase] at ho hresd
    obtain ⟨e, he, heo⟩ := List.mem_map.mp ho
    obtain ⟨iv, hiv, hivN, _⟩ := hresd e.2 (List.mem_append.mpr
      (Or.inr (List.mem_map.mpr ⟨e, he, rfl⟩)))
    refine ⟨iv, hivN, ?_⟩
    rw [← heo, hiv]
    rfl
  | aArray i vs =>
    rw [hcase] at ho hresd
    obtain ⟨v, hv, hvo⟩ := List.mem_map.mp ho
    obtain ⟨iv, hiv, hivN, _⟩ := hresd v hv
    refine ⟨iv, hivN, ?_⟩
    rw [← hvo, hiv]
    rfl
  | aString s => rw [hcase] at ho; cases ho
  | aNumber sg v => rw [hcase] at ho; cases ho
  | aReal w b => rw [hcase] at ho; cases ho
  | aBoolean b => rw [hcase] at ho; cases ho
  | aData bs => rw [hcase] at ho; cases ho
  | aDate d => rw [hcase] at ho; cases ho
  | aUID u => rw [hcase] at ho; cases ho
  | aNil => rw [hcase] at ho; cases ho

theorem parseAllObjects_main (ctx : ParseCtx) (stF : FlattenSt)
    (recs : List (List Nat)) (refSize : Nat)
    (G : GoodCtx ctx stF recs refSize) (f : Nat) :
    ∀ (offs : List Nat) (st : PSt),
    OffsGood ctx stF offs →
    MemoGood ctx stF st.objrefs →
    OffsGood ctx stF st.delayed →
    ∃ st2, parseAllObjects (f + 2) ctx offs st = .ok st2
      ∧ MemoGood ctx stF st2.objrefs
      ∧ OffsGood ctx stF st2.delayed
      ∧ (∀ q ∈ st.objrefs, q ∈ st2.objrefs)
      ∧ (∀ o ∈ offs, (lookupObjrefs st2.objrefs o).isSome) := by
  intro offs
  induction offs with
  | nil =>
    intro st hoffs hmg hdg
    exact ⟨st, rfl, hmg, hdg, fun q hq => hq, by simp⟩
  | cons o os ih =>
    intro st hoffs hmg hdg
    obtain ⟨j, hj, hoeq⟩ := hoffs o (List.mem_cons_self o os)
    subst hoeq
    cases hmo : lookupObjrefs st.objrefs (ctx.offtable.getD j 0) with
    | some pv =>
      have hv : valueAtOffset (f + 2) ctx st (ctx.offtable.getD j 0)
          = .ok (pv, st) := by
        unfold valueAtOffset valueAtOffsetF
        rw [hmo]
      obtain ⟨st2, h1, h2, h3, h4, h5⟩ := ih st
        (fun o2 ho2 => hoffs o2 (List.mem_cons_of_mem _ ho2)) hmg hdg
      refine ⟨st2, ?_, h2, h3, h4, ?_⟩
      · rw [parseAllObjects, hv]
        exact h1
      · intro o2 ho2
        rcases List.mem_cons.mp ho2 with h | h
        · subst h
          obtain ⟨q, hq, hq1, _⟩ := lookupObjrefs_mem _ _ _ hmo
          exact lookupObjrefs_isSome_of _ _ q (h4 q hq) hq1
        · exact h5 o2 h
    | none =>
      obtain ⟨objAdd, hps, hgood⟩ := parse_slot ctx stF recs refSize G f j
        hj st hmg
      have hv : valueAtOffset (f + 2) ctx st (ctx.offtable.getD j 0)
          = .ok (pvalOfA ctx.offtable stF.objmap (stF.objtable.getD j .aNil),
              ⟨(ctx.offtable.getD j 0,
                  pvalOfA ctx.offtable stF.objmap (stF.objtable.getD j .aNil))
                :: (objAdd ++ st.objrefs),
                st.delayed ++ delayedOfSlot ctx.offtable stF.objmap
                  (stF.objtable.getD j .aNil)⟩) := by
        unfold valueAtOffset valueAtOffsetF
        rw [hmo, hps]
      obtain ⟨st2, h1, h2, h3, h4, h5⟩ := ih
        ⟨(ctx.offtable.getD j 0,
            pvalOfA ctx.offtable stF.objmap (stF.objtable.getD j .aNil))
          :: (objAdd ++ st.objrefs),
          st.delayed ++ delayedOfSlot ctx.offtable stF.objmap
            (stF.objtable.getD j .aNil)⟩
        (fun o2 ho2 => hoffs o2 (List.mem_cons_of_mem _ ho2))
        (by
          intro q hq
          rcases List.mem_cons.mp hq with h | h
          · subst h
            exact ⟨j, hj, rfl, rfl⟩
          · rcases List.mem_append.mp h with h2 | h2
            · exact hgood q h2
            · exact hmg q h2)
        (by
          intro o2 ho2
          rcases List.mem_append.mp ho2 with h | h
          · exact hdg o2 h
          · exact delayed_good ctx stF recs refSize G j hj o2 h)
      refine ⟨st2, ?_, h2, h3, ?_, ?_⟩
      · rw [parseAllObjects, hv]
        exact h1
      · intro q hq
        exact h4 q (List.mem_cons_of_mem _ (List.mem_append.mpr (Or.inr hq)))
      · intro o2 ho2
        rcases List.mem_cons.mp ho2 with h | h
        · subst h
          refine lookupObjrefs_isSome_of _ _
            (ctx.offtable.getD j 0,
              pvalOfA ctx.offtable stF.objmap (stF.objtable.getD j .aNil))
            (h4 _ (List.mem_cons_self _ _)) rfl
        · exact h5 o2 h

theorem memo_exact (ctx : ParseCtx) (stF : FlattenSt)
    (recs : List (List Nat)) (refSize : Nat)
    (G : GoodCtx ctx stF recs refSize) (objrefs : List (Nat × PVal))
    (hmg : MemoGood ctx stF objrefs)
    (hcomp : ∀ j, j < stF.objtable.length →
      (lookupObjrefs objrefs (ctx.offtable.getD j 0)).isSome) :
    ∀ j, j < stF.objtable.length →
      lookupObjrefs objrefs (ctx.offtable.getD j 0)
        = some (pvalOfA ctx.offtable stF.objmap (stF.objtable.getD j .aNil)) := by
  intro j hj
  obtain ⟨pv, hpv⟩ := Option.isSome_iff_exists.mp (hcomp j hj)
  rw [hpv]
  obtain ⟨q, hq, hq1, hq2⟩ := lookupObjrefs_mem _ _ _ hpv
  obtain ⟨j2, hj2, hqo, hqp⟩ := hmg q hq
  have hjj : j2 = j := offAt_inj ctx stF recs refSize G j2 j hj2 hj
    (hqo.symm.trans hq1)
  subst hjj
  rw [← hq2, hqp]

theorem resolveOffsetListF_map {α : Type} (r : Nat → Except bplistError cfValue)
    (f : α → Nat) (g : α → cfValue) (l : List α)
    (h : ∀ x ∈ l, r (f x) = .ok (g x)) :
    resolveOffsetListF r (l.map f) = .ok (l.map g) := by
  induction l with
  | nil => rfl
  | cons a l ih =>
    rw [List.map_cons, List.map_cons, resolveOffsetListF]
    rw [h a (List.mem_cons_self a l)]
    rw [ih (fun x hx => h x (List.mem_cons_of_mem a hx))]

theorem decAList_map (vs : List AVal) : decAList vs = vs.map decA := by
  induction vs with
  | nil => rfl
  | cons v vs ih => rw [List.map_cons, show decAList (v :: vs)
      = decA v :: decAList vs from rfl, ih]

theorem decAEntries_map (es : List (GoStr × AVal)) :
    decAEntries es = es.map (fun e => (e.1, decA e.2)) := by
  induction es with
  | nil => rfl
  | cons e es ih => rw [List.map_cons, show decAEntries (e :: es)
      = (e.1, decA e.2) :: decAEntries es from rfl, ih]

theorem resolve_ok (ctx : ParseCtx) (stF : FlattenSt)
    (recs : List (List Nat)) (refSize : Nat)
    (G : GoodCtx ctx stF recs refSize) (objrefs : List (Nat × PVal))
    (hex : ∀ j, j < stF.objtable.length →
      lookupObjrefs objrefs (ctx.offtable.getD j 0)
        = some (pvalOfA ctx.offtable stF.objmap (stF.objtable.getD j .aNil))) :
    ∀ (fl : Nat) (c : AVal), depthA c < fl →
    ∀ jc, jc < stF.objtable.length → stF.objtable.getD jc .aNil = c →
    resolveAtOffset fl objrefs (ctx.offtable.getD jc 0) = .ok (decA c) := by
  intro fl
  induction fl with
  | zero =>
    intro c hd
    omega
  | succ fl ih =>
    intro c hd jc hjc hslot
    have hx := hex jc hjc
    rw [hslot] at hx
    have hcm : c ∈ stF.objtable := by rw [← hslot]; exact getD_mem _ jc .aNil hjc
    have hresd := G.hres _ hcm
    rw [resolveAtOffset, hx]
    cases c with
    | aNil => rfl
    | aBoolean b => rfl
    | aNumber sg v => rfl
    | aReal w b => rfl
    | aDate d => rfl
    | aData bs => rfl
    | aString s => rfl
    | aUID u => rfl
    | aDict i es =>
      show (match resolveOffsetListF (resolveAtOffset fl objrefs)
          (es.map (fun e => ctx.offtable.getD
            ((lookupObjmap stF.objmap (hashOfA e.2)).getD 0) 0)) with
        | Except.error e => Except.error e
        | Except.ok vs =>
            Except.ok (cfValue.cfDictionary ((es.map Prod.fst).zip vs)))
        = .ok (decA (.aDict i es))
      rw [resolveOffsetListF_map (resolveAtOffset fl objrefs)
        (fun e => ctx.offtable.getD
          ((lookupObjmap stF.objmap (hashOfA e.2)).getD 0) 0)
        (fun e => decA e.2) es
        (by
          intro e he
          obtain ⟨iv, hiv, hivN, hslotv⟩ := hresd e.2 (List.mem_append.mpr
            (Or.inr (List.mem_map.mpr ⟨e, he, rfl⟩)))
          dsimp only
          rw [hiv]
          show resolveAtOffset fl objrefs (ctx.offtable.getD iv 0) = _
          refine ih e.2 ?_ iv hivN hslotv
          have h1 : depthA e.2 ≤ depthAEntries es := depthA_entry_le es e he
          have h2 : depthA (.aDict i es) = 1 + depthAEntries es := rfl
          omega)]
      show Except.ok (cfValue.cfDictionary ((es.map Prod.fst).zip
        (es.map (fun e => decA e.2)))) = _
      rw [List.zip_map']
      rw [show decA (.aDict i es) = .cfDictionary (decAEntries es) from rfl,
        decAEntries_map]
    | aArray i vs =>
      show (match resolveOffsetListF (resolveAtOffset fl objrefs)
          (vs.map (fun c => ctx.offtable.getD
            ((lookupObjmap stF.objmap (hashOfA c)).getD 0) 0)) with
        | Except.error e => Except.error e
        | Except.ok vs2 => Except.ok (cfValue.cfArray vs2))
        = .ok (decA (.aArray i vs))
      rw [resolveOffsetListF_map (resolveAtOffset fl objrefs)
        (fun c => ctx.offtable.getD
          ((lookupObjmap stF.objmap (hashOfA c)).getD 0) 0)
        decA vs
        (by
          intro v hv
          obtain ⟨iv, hiv, hivN, hslotv⟩ := hresd v hv
          dsimp only
          rw [hiv]
          show resolveAtOffset fl objrefs (ctx.offtable.getD iv 0) = _
          refine ih v ?_ iv hivN hslotv
          have h1 : depthA v ≤ depthAList vs := depthA_elem_le vs v hv
          have h2 : depthA (.aArray i vs) = 1 + depthAList vs := rfl
          omega)]
      rw [show decA (.aArray i vs) = .cfArray (decAList vs) from rfl,
        decAList_map]

theorem readOffsets_at (bytes : List Nat) (intSize maxOffset : Nat)
    (offs : List Nat) :
    ∀ (pre post : List Nat) (pos : Nat),
    bytes = pre ++ ((offs.map (fun o => beBytes intSize o)).flatten ++ post) →
    pos = pre.length →
    (intSize = 1 ∨ intSize = 2 ∨ intSize = 4 ∨ intSize = 8) →
    (∀ o ∈ offs, o < 2 ^ (8 * intSize) ∧ o ≤ maxOffset) →
    readOffsets bytes intSize maxOffset offs.length pos = .ok offs := by
  induction offs with
  | nil =>
    intro pre post pos _ _ _ _
    simp [readOffsets]
  | cons o offs ih =>
    intro pre post pos hB hpos hleg hbound
    obtain ⟨hb1, hb2⟩ := hbound o (List.mem_cons_self o offs)
    rw [show (o :: offs).length = offs.length + 1 from rfl]
    rw [readOffsets]
    rw [readSizedInt_at bytes pre
      ((offs.map (fun x => beBytes intSize x)).flatten ++ post) pos intSize o
      hleg (by rw [hB]; simp) hpos hb1]
    dsimp only
    rw [if_neg (by omega)]
    rw [ih (pre ++ beBytes intSize o) post (pos + intSize)
      (by rw [hB]; simp) (by simp [beBytes_len]; omega) hleg
      (fun x hx => hbound x (List.mem_cons_of_mem o hx))]

theorem readOffsets_count (bytes : List Nat) (intSize maxOffset n : Nat)
    (offs : List Nat) (pre post : List Nat) (pos : Nat)
    (hn : n = offs.length)
    (hB : bytes = pre ++ ((offs.map (fun o => beBytes intSize o)).flatten
      ++ post))
    (hpos : pos = pre.length)
    (hleg : intSize = 1 ∨ intSize = 2 ∨ intSize = 4 ∨ intSize = 8)
    (hbound : ∀ o ∈ offs, o < 2 ^ (8 * intSize) ∧ o ≤ maxOffset) :
    readOffsets bytes intSize maxOffset n pos = .ok offs := by
  subst hn
  exact readOffsets_at bytes intSize maxOffset offs pre post pos hB hpos
    hleg hbound

theorem beVal_one (x : Nat) : beVal [x] = x := by
  simp [beVal]

theorem parseTrailer_at (bytes pre : List Nat)
    (intSize refSize N top OTO : Nat)
    (hB : bytes = pre ++ trailerBytes
      ⟨[0, 0, 0, 0, 0], 0, intSize, refSize, N, top, OTO⟩)
    (hint : intSize < 256) (href : refSize < 256)
    (hN : N < 2 ^ 64) (htop : top < 2 ^ 64) (hOTO : OTO < 2 ^ 64) :
    parseTrailer bytes pre.length
      = ⟨[0, 0, 0, 0, 0], 0, intSize, refSize, N, top, OTO⟩ := by
  have hT : trailerBytes ⟨[0, 0, 0, 0, 0], 0, intSize, refSize, N, top, OTO⟩
      = [0, 0, 0, 0, 0, 0, intSize % 256, refSize % 256]
        ++ (beBytes 8 N ++ (beBytes 8 top ++ beBytes 8 OTO)) := by
    simp [trailerBytes]
  rw [hT] at hB
  have h5 : readFull bytes (pre.length + 5) 1 = (0, pre.length + 5 + 1) := by
    rw [readFull_seg_eq bytes (pre ++ [0, 0, 0, 0, 0]) [0]
      ([intSize % 256, refSize % 256]
        ++ (beBytes 8 N ++ (beBytes 8 top ++ beBytes 8 OTO)))
      (pre.length + 5) 1 (by rw [hB]; simp) (by simp) rfl]
    rw [beVal_one]
  have h6 : readFull bytes (pre.length + 6) 1
      = (intSize % 256, pre.length + 6 + 1) := by
    rw [readFull_seg_eq bytes (pre ++ [0, 0, 0, 0, 0, 0]) [intSize % 256]
      ([refSize % 256] ++ (beBytes 8 N ++ (beBytes 8 top ++ beBytes 8 OTO)))
      (pre.length + 6) 1 (by rw [hB]; simp) (by simp) rfl]
    rw [beVal_one]
  have h7 : readFull bytes (pre.length + 7) 1
      = (refSize % 256, pre.length + 7 + 1) := by
    rw [readFull_seg_eq bytes
      (pre ++ [0, 0, 0, 0, 0, 0, intSize % 256]) [refSize % 256]
      (beBytes 8 N ++ (beBytes 8 top ++ beBytes 8 OTO))
      (pre.length + 7) 1 (by rw [hB]; simp) (by simp) rfl]
    rw [beVal_one]
  have h8 : readFull bytes (pre.length + 8) 8 = (N, pre.length + 8 + 8) := by
    rw [readFull_seg_eq bytes
      (pre ++ [0, 0, 0, 0, 0, 0, intSize % 256, refSize % 256]) (beBytes 8 N)
      (beBytes 8 top ++ beBytes 8 OTO)
      (pre.length + 8) 8 (by rw [hB]; simp) (by simp) (beBytes_len 8 N).symm]
    rw [beVal_beBytes_lt 8 N hN]
  have h16 : readFull bytes (pre.length + 16) 8
      = (top, pre.length + 16 + 8) := by
    rw [readFull_seg_eq bytes
      (pre ++ [0, 0, 0, 0, 0, 0, intSize % 256, refSize % 256]
        ++ beBytes 8 N) (beBytes 8 top) (beBytes 8 OTO)
      (pre.length + 16) 8 (by rw [hB]; simp) (by simp [beBytes_len])
      (beBytes_len 8 top).symm]
    rw [beVal_beBytes_lt 8 top htop]
  have h24 : readFull bytes (pre.length + 24) 8
      = (OTO, pre.length + 24 + 8) := by
    rw [readFull_seg_eq bytes
      (pre ++ [0, 0, 0, 0, 0, 0, intSize % 256, refSize % 256]
        ++ beBytes 8 N ++ beBytes 8 top) (beBytes 8 OTO) []
      (pre.length + 24) 8 (by rw [hB]; simp) (by simp [beBytes_len])
      (beBytes_len 8 OTO).symm]
    rw [beVal_beBytes_lt 8 OTO hOTO]
  unfold parseTrailer
  rw [h5, h6, h7, h8, h16, h24]
  have hdrop : (bytes.drop pre.length).take 5 = [0, 0, 0, 0, 0] := by
    rw [hB]
    rw [List.drop_left]
    simp
  rw [hdrop]
  simp [bplistTrailer.mk.injEq, Nat.mod_eq_of_lt hint,
    Nat.mod_eq_of_lt href]

theorem mem_insertEntry (e x : GoStr × cfValue) (fs : List (GoStr × cfValue))
    (h : x ∈ insertEntry e fs) : x = e ∨ x ∈ fs := by
  induction fs with
  | nil =>
    rw [show insertEntry e [] = [e] from rfl] at h
    rcases List.mem_singleton.mp h with h2
    exact Or.inl h2
  | cons f fs ih =>
    rw [insertEntry] at h
    split at h
    · rcases List.mem_cons.mp h with h2 | h2
      · exact Or.inr (List.mem_cons.mpr (Or.inl h2))
      · rcases ih h2 with h3 | h3
        · exact Or.inl h3
        · exact Or.inr (List.mem_cons.mpr (Or.inr h3))
    · rcases List.mem_cons.mp h with h2 | h2
      · exact Or.inl h2
      · exact Or.inr h2

theorem mem_sortEntries (x : GoStr × cfValue) (es : List (GoStr × cfValue))
    (h : x ∈ sortEntries es) : x ∈ es := by
  induction es with
  | nil => cases h
  | cons e es ih =>
    rw [sortEntries] at h
    rcases mem_insertEntry e x (sortEntries es) h with h2 | h2
    · exact List.mem_cons.mpr (Or.inl h2)
    · exact List.mem_cons.mpr (Or.inr (ih h2))

theorem mem_sortTreeEntries (x : GoStr × cfValue)
    (es : List (GoStr × cfValue)) (h : x ∈ sortTreeEntries es) :
    ∃ e ∈ es, x = (e.1, sortTree e.2) := by
  induction es with
  | nil => cases h
  | cons e es ih =>
    rw [show sortTreeEntries (e :: es)
      = (e.1, sortTree e.2) :: sortTreeEntries es from rfl] at h
    rcases List.mem_cons.mp h with h2 | h2
    · exact ⟨e, List.mem_cons_self e es, h2⟩
    · obtain ⟨e2, he2, hx⟩ := ih h2
      exact ⟨e2, List.mem_cons_of_mem e he2, hx⟩

theorem wfEntries_forall (es : List (GoStr × cfValue)) :
    wfEntries es = true ↔ ∀ e ∈ es,
      e.1.all (fun r => decide (validRune r)) = true ∧ wfValue e.2 = true := by
  induction es with
  | nil => simp [wfEntries]
  | cons e es ih =>
    rw [show wfEntries (e :: es)
      = (e.1.all (fun r => decide (validRune r)) && wfValue e.2
          && wfEntries es) from rfl]
    simp only [Bool.and_eq_true, ih]
    constructor
    · rintro ⟨⟨h1, h2⟩, h3⟩ x hx
      rcases List.mem_cons.mp hx with h | h
      · subst h; exact ⟨h1, h2⟩
      · exact h3 x h
    · intro h
      exact ⟨⟨(h e (List.mem_cons_self e es)).1,
        (h e (List.mem_cons_self e es)).2⟩,
        fun x hx => h x (List.mem_cons_of_mem e hx)⟩

theorem depthCEntries_insert (e : GoStr × cfValue)
    (fs : List (GoStr × cfValue)) :
    depthCEntries (insertEntry e fs) = max (depthC e.2) (depthCEntries fs) := by
  induction fs with
  | nil => rfl
  | cons f fs ih =>
    rw [insertEntry]
    split
    · rw [show depthCEntries (f :: insertEntry e fs)
        = max (depthC f.2) (depthCEntries (insertEntry e fs)) from rfl, ih]
      rw [show depthCEntries (f :: fs)
        = max (depthC f.2) (depthCEntries fs) from rfl]
      omega
    · rfl

theorem depthCEntries_sort (es : List (GoStr × cfValue)) :
    depthCEntries (sortEntries es) = depthCEntries es := by
  induction es with
  | nil => rfl
  | cons e es ih =>
    rw [sortEntries, depthCEntries_insert, ih]
    rfl

theorem mem_dataPayloadsEntries (es : List (GoStr × cfValue)) (b : List Nat) :
    b ∈ dataPayloadsEntries es ↔ ∃ e ∈ es, b ∈ dataPayloads e.2 := by
  induction es with
  | nil => simp [dataPayloadsEntries]
  | cons e es ih =>
    rw [show dataPayloadsEntries (e :: es)
      = dataPayloads e.2 ++ dataPayloadsEntries es from rfl]
    simp only [List.mem_append, ih]
    constructor
    · rintro (h | ⟨e2, he2, hb⟩)
      · exact ⟨e, List.mem_cons_self e es, h⟩
      · exact ⟨e2, List.mem_cons_of_mem e he2, hb⟩
    · rintro ⟨e2, he2, hb⟩
      rcases List.mem_cons.mp he2 with h | h
      · subst h; exact Or.inl hb
      · exact Or.inr ⟨e2, h, hb⟩

theorem wf_sortTree (v : cfValue) :
    wfValue v = true → wfValue (sortTree v) = true := by
  induction v using sortTree.induct
  case motive_2 vs =>
    exact wfList vs = true → wfList (sortTreeList vs) = true
  case motive_3 es =>
    exact wfEntries es = true → wfEntries (sortTreeEntries es) = true
  case case1 =>
    rename_i es ih
    intro h
    show wfEntries (sortEntries (sortTreeEntries es)) = true
    apply (wfEntries_forall _).mpr
    intro e he
    exact (wfEntries_forall _).mp (ih h) e
      (mem_sortEntries e (sortTreeEntries es) he)
  case case2 =>
    rename_i vs ih
    intro h
    show wfList (sortTreeList vs) = true
    exact ih h
  case case3 =>
    rename_i v2 h1 h2
    intro h
    cases v2 with
    | cfDictionary es => exact absurd rfl (h1 es)
    | cfArray vs => exact absurd rfl (h2 vs)
    | cfString s => exact h
    | cfNumber sg n => exact h
    | cfReal w b => exact h
    | cfBoolean b => exact h
    | cfData bs => exact h
    | cfDate d => exact h
    | cfUID u => exact h
    | cfNil => exact h
  case case4 =>
    intro h
    exact h
  case case5 =>
    rename_i f fs ih2 ih1
    intro h
    rw [show wfEntries (f :: fs)
      = (f.1.all (fun r => decide (validRune r)) && wfValue f.2
          && wfEntries fs) from rfl] at h
    simp only [Bool.and_eq_true] at h
    show (f.1.all (fun r => decide (validRune r))
      && wfValue (sortTree f.2) && wfEntries (sortTreeEntries fs)) = true
    simp only [Bool.and_eq_true]
    exact ⟨⟨h.1.1, ih2 h.1.2⟩, ih1 h.2⟩
  case case6 =>
    intro h
    exact h
  case case7 =>
    rename_i v2 vs ih2 ih1
    intro h
    rw [show wfList (v2 :: vs) = (wfValue v2 && wfList vs) from rfl] at h
    simp only [Bool.and_eq_true] at h
    show (wfValue (sortTree v2) && wfList (sortTreeList vs)) = true
    simp only [Bool.and_eq_true]
    exact ⟨ih2 h.1, ih1 h.2⟩

theorem depthC_sortTree (v : cfValue) : depthC (sortTree v) = depthC v := by
  induction v using sortTree.induct
  case motive_2 vs =>
    exact depthCList (sortTreeList vs) = depthCList vs
  case motive_3 es =>
    exact depthCEntries (sortTreeEntries es) = depthCEntries es
  case case1 =>
    rename_i es ih
    show 1 + depthCEntries (sortEntries (sortTreeEntries es))
      = 1 + depthCEntries es
    rw [depthCEntries_sort, ih]
  case case2 =>
    rename_i vs ih
    show 1 + depthCList (sortTreeList vs) = 1 + depthCList vs
    rw [ih]
  case case3 =>
    rename_i v2 h1 h2
    cases v2 with
    | cfDictionary es => exact absurd rfl (h1 es)
    | cfArray vs => exact absurd rfl (h2 vs)
    | cfString s => rfl
    | cfNumber sg n => rfl
    | cfReal w b => rfl
    | cfBoolean b => rfl
    | cfData bs => rfl
    | cfDate d => rfl
    | cfUID u => rfl
    | cfNil => rfl
  case case4 => rfl
  case case5 =>
    rename_i f fs ih2 ih1
    show max (depthC (sortTree f.2)) (depthCEntries (sortTreeEntries fs))
      = max (depthC f.2) (depthCEntries fs)
    rw [ih2, ih1]
  case case6 => rfl
  case case7 =>
    rename_i v2 vs ih2 ih1
    show max (depthC (sortTree v2)) (depthCList (sortTreeList vs))
      = max (depthC v2) (depthCList vs)
    rw [ih2, ih1]

theorem dataPayloads_sortTree (v : cfValue) :
    ∀ b ∈ dataPayloads (sortTree v), b ∈ dataPayloads v := by
  induction v using sortTree.induct
  case motive_2 vs =>
    exact ∀ b ∈ dataPayloadsList (sortTreeList vs), b ∈ dataPayloadsList vs
  case motive_3 es =>
    exact ∀ b ∈ dataPayloadsEntries (sortTreeEntries es),
      b ∈ dataPayloadsEntries es
  case case1 =>
    rename_i es ih
    intro b hb
    show b ∈ dataPayloadsEntries es
    have hb2 : b ∈ dataPayloadsEntries (sortEntries (sortTreeEntries es)) := hb
    obtain ⟨e, he, hbe⟩ := (mem_dataPayloadsEntries _ b).mp hb2
    exact ih b ((mem_dataPayloadsEntries _ b).mpr
      ⟨e, mem_sortEntries e _ he, hbe⟩)
  case case2 =>
    rename_i vs ih
    intro b hb
    exact ih b hb
  case case3 =>
    rename_i v2 h1 h2
    intro b hb
    cases v2 with
    | cfDictionary es => exact absurd rfl (h1 es)
    | cfArray vs => exact absurd rfl (h2 vs)
    | cfString s => exact hb
    | cfNumber sg n => exact hb
    | cfReal w b2 => exact hb
    | cfBoolean b2 => exact hb
    | cfData bs => exact hb
    | cfDate d => exact hb
    | cfUID u => exact hb
    | cfNil => exact hb
  case case4 =>
    intro b hb
    exact hb
  case case5 =>
    rename_i f fs ih2 ih1
    intro b hb
    rcases List.mem_append.mp hb with h | h
    · exact List.mem_append.mpr (Or.inl (ih2 b h))
    · exact List.mem_append.mpr (Or.inr (ih1 b h))
  case case6 =>
    intro b hb
    exact hb
  case case7 =>
    rename_i v2 vs ih2 ih1
    intro b hb
    rcases List.mem_append.mp hb with h | h
    · exact List.mem_append.mpr (Or.inl (ih2 b h))
    · exact List.mem_append.mpr (Or.inr (ih1 b h))

theorem dataPayloadsA_annotate (v : cfValue) (n : Nat) :
    dataPayloadsA (annotateV v n).1 = dataPayloads v := by
  induction v, n using annotateV.induct
  case motive_2 vs n =>
    exact ((subsOfList (annotateList vs n).1).filterMap (fun t =>
      match t with
      | .aData bs => some bs
      | _ => none)) = dataPayloadsList vs
  case motive_3 es n =>
    exact ((subsOfEntries (annotateEntries es n).1).filterMap (fun t =>
      match t with
      | .aData bs => some bs
      | _ => none)) = dataPayloadsEntries es
  case case1 =>
    rename_i es n2 ih
    simp only [annotateV]
    unfold dataPayloadsA
    rw [show subsOf (.aDict n2 (annotateEntries es (n2 + 1)).1)
      = .aDict n2 (annotateEntries es (n2 + 1)).1
        :: subsOfEntries (annotateEntries es (n2 + 1)).1 from rfl]
    rw [List.filterMap_cons]
    dsimp only
    exact ih
  case case2 =>
    rename_i vs n2 ih
    simp only [annotateV]
    unfold dataPayloadsA
    rw [show subsOf (.aArray n2 (annotateList vs (n2 + 1)).1)
      = .aArray n2 (annotateList vs (n2 + 1)).1
        :: subsOfList (annotateList vs (n2 + 1)).1 from rfl]
    rw [List.filterMap_cons]
    dsimp only
    exact ih
  case case12 =>
    rename_i e es n2 r ih2 ih1
    simp only [annotateEntries]
    rw [show subsOfEntries ((e.1, (annotateV e.2 n2).1)
        :: (annotateEntries es (annotateV e.2 n2).2).1)
      = subsOf (annotateV e.2 n2).1
        ++ subsOfEntries (annotateEntries es (annotateV e.2 n2).2).1 from rfl]
    rw [List.filterMap_append]
    rw [show dataPayloadsEntries (e :: es)
      = dataPayloads e.2 ++ dataPayloadsEntries es from rfl]
    rw [show ((subsOf (annotateV e.2 n2).1).filterMap (fun t =>
        match t with
        | .aData bs => some bs
        | _ => none)) = dataPayloadsA (annotateV e.2 n2).1 from rfl]
    rw [ih2]
    rw [show (annotateV e.2 n2).2 = r.2 from rfl, ih1]
  case case14 =>
    rename_i v2 vs n2 r ih2 ih1
    simp only [annotateList]
    rw [show subsOfList ((annotateV v2 n2).1
        :: (annotateList vs (annotateV v2 n2).2).1)
      = subsOf (annotateV v2 n2).1
        ++ subsOfList (annotateList vs (annotateV v2 n2).2).1 from rfl]
    rw [List.filterMap_append]
    rw [show dataPayloadsList (v2 :: vs)
      = dataPayloads v2 ++ dataPayloadsList vs from rfl]
    rw [show ((subsOf (annotateV v2 n2).1).filterMap (fun t =>
        match t with
        | .aData bs => some bs
        | _ => none)) = dataPayloadsA (annotateV v2 n2).1 from rfl]
    rw [ih2]
    rw [show (annotateV v2 n2).2 = r.2 from rfl, ih1]
  all_goals rfl

theorem writePlistValue_ok (objmap : List (hashKey × Nat)) (refSize : Nat)
    (aroot : AVal) (t : AVal)
    (hin : t ∈ subsOf aroot ∨ ∃ k ∈ keyStringsOf aroot, t = .aString k)
    (hlook : ∀ c ∈ subsOf aroot, (lookupObjmap objmap (hashOfA c)).isSome)
    (hlookK : ∀ k ∈ keyStringsOf aroot,
      (lookupObjmap objmap (.hString k)).isSome)
    (hleg : refSize = 1 ∨ refSize = 2 ∨ refSize = 4 ∨ refSize = 8) :
    writePlistValue objmap refSize t = .ok (recOf objmap refSize t) := by
  cases t with
  | aDict i es =>
    have hsub : AVal.aDict i es ∈ subsOf aroot := by
      rcases hin with h | ⟨k, _, hk⟩
      · exact h
      · cases hk
    have hwd := writeDict_ok objmap refSize es
      (by
        intro e he
        exact hlookK e.1 (dict_key_mem aroot i es hsub
          (keyStrings_trans aroot) e he))
      (by
        intro e he
        have h1 : e.2 ∈ subsOfEntries es :=
          mem_subsOfEntries es e he e.2 (self_mem_subsOf e.2)
        have h2 : e.2 ∈ subsOf (.aDict i es) := by
          rw [show subsOf (.aDict i es)
            = .aDict i es :: subsOfEntries es from rfl]
          exact List.mem_cons_of_mem _ h1
        exact hlook e.2 (subsOf_trans aroot _ hsub e.2 h2))
      hleg
    show writeDictionaryTag objmap refSize es
      = .ok (recOf objmap refSize (.aDict i es))
    unfold recOf
    rw [show writePlistValue objmap refSize (.aDict i es)
      = writeDictionaryTag objmap refSize es from rfl]
    rw [hwd]
  | aArray i vs =>
    have hsub : AVal.aArray i vs ∈ subsOf aroot := by
      rcases hin with h | ⟨k, _, hk⟩
      · exact h
      · cases hk
    have hwa := writeArr_ok objmap refSize vs
      (by
        intro v hv
        have h1 : v ∈ subsOfList vs := mem_subsOfList vs v hv v
          (self_mem_subsOf v)
        have h2 : v ∈ subsOf (.aArray i vs) := by
          rw [show subsOf (.aArray i vs)
            = .aArray i vs :: subsOfList vs from rfl]
          exact List.mem_cons_of_mem _ h1
        exact hlook v (subsOf_trans aroot _ hsub v h2))
      hleg
    show writeArrayTag objmap refSize vs
      = .ok (recOf objmap refSize (.aArray i vs))
    unfold recOf
    rw [show writePlistValue objmap refSize (.aArray i vs)
      = writeArrayTag objmap refSize vs from rfl]
    rw [hwa]
  | aString s => rfl
  | aNumber sg v => rfl
  | aReal w b => rfl
  | aBoolean b => rfl
  | aData bs => rfl
  | aDate d => rfl
  | aUID u => rfl
  | aNil => rfl

theorem recOf_ne_nil (objmap : List (hashKey × Nat)) (refSize : Nat)
    (aroot : AVal) (t : AVal)
    (hin : t ∈ subsOf aroot ∨ ∃ k ∈ keyStringsOf aroot, t = .aString k)
    (hlook : ∀ c ∈ subsOf aroot, (lookupObjmap objmap (hashOfA c)).isSome)
    (hlookK : ∀ k ∈ keyStringsOf aroot,
      (lookupObjmap objmap (.hString k)).isSome)
    (hleg : refSize = 1 ∨ refSize = 2 ∨ refSize = 4 ∨ refSize = 8)
    (hawf : awf t = true) :
    recOf objmap refSize t ≠ [] := by
  have hok := writePlistValue_ok objmap refSize aroot t hin hlook hlookK hleg
  cases t with
  | aDict i es =>
    have : writeDictionaryTag objmap refSize es
        = .ok (recOf objmap refSize (.aDict i es)) := hok
    have hwd := writeDict_ok objmap refSize es
      (by
        intro e he
        rcases hin with h | ⟨k, _, hk⟩
        · exact hlookK e.1 (dict_key_mem aroot i es h
            (keyStrings_trans aroot) e he)
        · cases hk)
      (by
        intro e he
        rcases hin with h | ⟨k, _, hk⟩
        · have h1 : e.2 ∈ subsOfEntries es :=
            mem_subsOfEntries es e he e.2 (self_mem_subsOf e.2)
          have h2 : e.2 ∈ subsOf (.aDict i es) := by
            rw [show subsOf (.aDict i es)
              = .aDict i es :: subsOfEntries es from rfl]
            exact List.mem_cons_of_mem _ h1
          exact hlook e.2 (subsOf_trans aroot _ h e.2 h2)
        · cases hk)
      hleg
    have := Except.ok.inj (this.symm.trans hwd)
    rw [this]
    simp [writeCountedTag_ne_nil]
  | aArray i vs =>
    have : writeArrayTag objmap refSize vs
        = .ok (recOf objmap refSize (.aArray i vs)) := hok
    have hwa := writeArr_ok objmap refSize vs
      (by
        intro v hv
        rcases hin with h | ⟨k, _, hk⟩
        · have h1 : v ∈ subsOfList vs := mem_subsOfList vs v hv v
            (self_mem_subsOf v)
          have h2 : v ∈ subsOf (.aArray i vs) := by
            rw [show subsOf (.aArray i vs)
              = .aArray i vs :: subsOfList vs from rfl]
            exact List.mem_cons_of_mem _ h1
          exact hlook v (subsOf_trans aroot _ h v h2)
        · cases hk)
      hleg
    have := Except.ok.inj (this.symm.trans hwa)
    rw [this]
    simp [writeCountedTag_ne_nil]
  | aString s =>
    show writeStringTag s ≠ []
    unfold writeStringTag
    split <;> simp [writeCountedTag_ne_nil]
  | aNumber sg v =>
    show writeIntTag v ≠ []
    unfold writeIntTag
    split_ifs <;> simp
  | aReal w b =>
    show writeRealTag w b ≠ []
    unfold writeRealTag
    split <;> simp
  | aBoolean b =>
    show writeBoolTag b ≠ []
    unfold writeBoolTag
    simp
  | aData bs =>
    show writeDataTag bs ≠ []
    unfold writeDataTag
    simp [writeCountedTag_ne_nil]
  | aDate d =>
    show writeDateTag d ≠ []
    unfold writeDateTag
    simp
  | aUID u =>
    show writeUIDTag u ≠ []
    unfold writeUIDTag
    simp
  | aNil => simp [awf] at hawf

theorem len_le_flatten (rs : List (List Nat)) (hnn : ∀ r ∈ rs, r ≠ []) :
    rs.length ≤ rs.flatten.length := by
  induction rs with
  | nil => simp
  | cons r rs ih =>
    have hr : 1 ≤ r.length := by
      have := hnn r (List.mem_cons_self r rs)
      cases r
      · simp at this
      · simp
    have := ih (fun x hx => hnn x (List.mem_cons_of_mem r hx))
    simp only [List.length_cons, List.flatten_cons, List.length_append]
    omega

theorem minSize_small (n : Nat) (h : n ≤ 0xffffffff) :
    minimumSizeForInt n = 1 ∨ minimumSizeForInt n = 2
    ∨ minimumSizeForInt n = 4 := by
  unfold minimumSizeForInt
  split_ifs <;> simp_all

theorem trailerBytes_length (t : bplistTrailer) (h : t.unused.length = 5) :
    (trailerBytes t).length = 32 := by
  unfold trailerBytes
  simp [beBytes_len, h]

theorem generateDocument_eq (v : cfValue) (recs otbytes : List (List Nat))
    (hmap : (flattenPlistValue ⟨[], []⟩
        (annotateV (sortTree v) 0).1).objtable.mapM
        (writePlistValue
          (flattenPlistValue ⟨[], []⟩ (annotateV (sortTree v) 0).1).objmap
          (minimumSizeForInt (flattenPlistValue ⟨[], []⟩
            (annotateV (sortTree v) 0).1).objtable.length))
      = .ok recs)
    (hot : (offsetsFrom 8 recs).mapM (fun o => writeSizedInt o
        (minimumSizeForInt (8 + (recs.map List.length).sum))) = .ok otbytes) :
    generateDocument v = .ok (bplistHeader ++ recs.flatten ++ otbytes.flatten
      ++ trailerBytes ⟨[0, 0, 0, 0, 0], 0,
          minimumSizeForInt (8 + (recs.map List.length).sum),
          minimumSizeForInt (flattenPlistValue ⟨[], []⟩
            (annotateV (sortTree v) 0).1).objtable.length,
          (flattenPlistValue ⟨[], []⟩
            (annotateV (sortTree v) 0).1).objtable.length,
          (lookupObjmap (flattenPlistValue ⟨[], []⟩
              (annotateV (sortTree v) 0).1).objmap
            (hashOfA (annotateV (sortTree v) 0).1)).getD 0,
          8 + (recs.map List.length).sum⟩) := by
  simp only [generateDocument, hmap, except_ok_seq2, hot, except_pure_ok2]

theorem parseDocument_eq (bytes : List Nat) (fuel : Nat) (t : bplistTrailer)
    (offtable : List Nat) (st : PSt) (res : cfValue)
    (hmagic : bytes.take 6 = [0x62, 0x70, 0x6C, 0x69, 0x73, 0x74])
    (h7 : ¬ bytes.length < 7)
    (hv6 : bytes.getD 6 0 = 0x30) (hv7 : bytes.getD 7 0 = 0x30)
    (h32 : ¬ bytes.length < 32)
    (ht : parseTrailer bytes (bytes.length - 32) = t)
    (hval : validateDocumentTrailer t (bytes.length - 32) = .ok ())
    (hro : readOffsets bytes t.offsetIntSize (t.offsetTableOffset - 1)
      t.numObjects t.offsetTableOffset = .ok offtable)
    (hst : parseAllObjects fuel ⟨bytes, t, offtable⟩ offtable ⟨[], []⟩
      = .ok st)
    (hall : st.delayed.all (fun o => (lookupObjrefs st.objrefs o).isSome)
      = true)
    (hres : resolveAtOffset fuel st.objrefs (offtable.getD t.topObject 0)
      = .ok res) :
    parseDocument bytes fuel = .ok res := by
  have hpv : parseVersionDigits 0x30 0x30 = .ok 0 := rfl
  simp only [parseDocument, hmagic, hv6, hv7, h7, h32, hpv, ht, hval, hro,
    hst, hall, hres]
  simp

theorem parse_generated (stF : FlattenSt) (aroot : AVal)
    (recs : List (List Nat)) (fuel : Nat)
    (N refSize OTO intSize top : Nat) (bytes : List Nat)
    (hS : SoundMap stF)
    (hT : TableIn (subsOf aroot) (keyStringsOf aroot) stF)
    (hlook : ∀ c ∈ subsOf aroot, (lookupObjmap stF.objmap (hashOfA c)).isSome)
    (hlookK : ∀ k ∈ keyStringsOf aroot,
      (lookupObjmap stF.objmap (.hString k)).isSome)
    (hnd : (idsOfA aroot).Nodup)
    (hcrcA : ∀ b1 ∈ dataPayloadsA aroot, ∀ b2 ∈ dataPayloadsA aroot,
      crc32 b1 = crc32 b2 → b1 = b2)
    (hawfroot : awf aroot = true)
    (hN : N = stF.objtable.length)
    (hrefSize : refSize = minimumSizeForInt N)
    (hrecs : recs = stF.objtable.map (recOf stF.objmap refSize))
    (hOTOdef : OTO = 8 + (recs.map List.length).sum)
    (hintSize : intSize = minimumSizeForInt OTO)
    (htop : top = (lookupObjmap stF.objmap (hashOfA aroot)).getD 0)
    (hbytes : bytes = bplistHeader ++ recs.flatten
      ++ ((offsetsFrom 8 recs).map (fun o => beBytes intSize o)).flatten
      ++ trailerBytes ⟨[0, 0, 0, 0, 0], 0, intSize, refSize, N, top, OTO⟩)
    (hfuel : depthA aroot + 2 ≤ fuel)
    (hlen32 : bytes.length < 2 ^ 32) :
    parseDocument bytes fuel = .ok (decA aroot) := by
  obtain ⟨jroot, hjr_look, hjrN, hjr_slot⟩ := slot_resolve aroot stF hS hT
    hlook hnd hcrcA aroot (self_mem_subsOf aroot)
  have htopj : top = jroot := by rw [htop, hjr_look]; rfl
  have hawfslot : ∀ t ∈ stF.objtable, awf t = true := by
    intro t ht
    rcases hT t ht with h | ⟨k, hk, hk2⟩
    · exact awf_sub aroot hawfroot t h
    · subst hk2
      show (k.all fun r => decide (validRune r)) = true
      rw [List.all_eq_true]
      intro r hr
      simpa using awf_keys aroot hawfroot k hk r hr
  have hleg : refSize = 1 ∨ refSize = 2 ∨ refSize = 4 ∨ refSize = 8 := by
    rw [hrefSize]; exact minSize_legal N
  have hrecnn : ∀ r ∈ recs, r ≠ [] := by
    intro r hr
    rw [hrecs] at hr
    obtain ⟨t2, ht2, htr⟩ := List.mem_map.mp hr
    rw [← htr]
    exact recOf_ne_nil stF.objmap refSize aroot t2 (hT t2 ht2) hlook hlookK
      hleg (hawfslot t2 ht2)
  have hlenrecs : recs.length = N := by rw [hrecs, hN]; simp
  have hNpos : 0 < N := by omega
  have hrecspos : 0 < recs.length := by omega
  have hflat_ge : recs.length ≤ recs.flatten.length := len_le_flatten recs hrecnn
  have hsum : (recs.map List.length).sum = recs.flatten.length := by
    simp [List.length_flatten]
  have hOTOb : OTO = 8 + recs.flatten.length := by rw [hOTOdef, hsum]
  have htb32 : (trailerBytes
      ⟨[0, 0, 0, 0, 0], 0, intSize, refSize, N, top, OTO⟩).length = 32 :=
    trailerBytes_length _ rfl
  have hintleg : intSize = 1 ∨ intSize = 2 ∨ intSize = 4 ∨ intSize = 8 := by
    rw [hintSize]; exact minSize_legal OTO
  have hotlen : (((offsetsFrom 8 recs).map
      (fun o => beBytes intSize o)).flatten).length = intSize * N := by
    rw [refbytes_len, offsetsFrom_length, hlenrecs]
  have hblen : bytes.length
      = 8 + recs.flatten.length + intSize * N + 32 := by
    rw [hbytes]
    simp only [List.length_append, htb32, hotlen]
    simp [bplistHeader]
  have hiNpos : 1 ≤ intSize * N := by
    have h1 : 1 ≤ intSize := by rcases hintleg with h | h | h | h <;> omega
    exact Nat.mul_pos (by omega) (by omega)
  have hOTO32 : OTO < 2 ^ 32 := by omega
  have hp64 : (2 : Nat) ^ 32 < 2 ^ 64 := by norm_num
  have hOTO64 : OTO < 2 ^ 64 := by omega
  have hOTObound : OTO < 2 ^ (8 * intSize) := by
    rw [hintSize]; exact minSize_bound OTO hOTO64
  have hN32 : N < 2 ^ 32 := by omega
  have hrefsmall : refSize = 1 ∨ refSize = 2 ∨ refSize = 4 := by
    rw [hrefSize]
    exact minSize_small N (by omega)
  have hNbound : N ≤ 2 ^ (8 * refSize) := by
    have := minSize_bound N (by omega)
    rw [← hrefSize] at this
    omega
  have hG : GoodCtx ⟨bytes, ⟨[0, 0, 0, 0, 0], 0, intSize, refSize, N, top,
      OTO⟩, offsetsFrom 8 recs⟩ stF recs refSize := by
    refine ⟨by rw [hlenrecs, hN], rfl, hrecnn,
      ⟨((offsetsFrom 8 recs).map (fun o => beBytes intSize o)).flatten
        ++ trailerBytes ⟨[0, 0, 0, 0, 0], 0, intSize, refSize, N, top, OTO⟩,
        by rw [hbytes]; simp⟩,
      hOTOb, hOTO32, rfl, hrefsmall, by rw [← hN]; exact hNbound,
      hN, ?_, hawfslot, ?_⟩
    · intro j hj
      have hj2 : j < N := by omega
      have hgd : recs.getD j [] = recOf stF.objmap refSize
          (stF.objtable.getD j .aNil) := by
        rw [hrecs]
        rw [List.getD_eq_getElem?_getD, List.getElem?_map,
          List.getElem?_eq_getElem hj]
        rw [List.getD_eq_getElem?_getD, List.getElem?_eq_getElem hj]
        rfl
      rw [hgd]
      exact writePlistValue_ok stF.objmap refSize aroot _
        (hT _ (getD_mem _ j .aNil hj)) hlook hlookK hleg
    · intro t ht c hc
      cases t with
      | aDict i es =>
        have hsub : AVal.aDict i es ∈ subsOf aroot := by
          rcases hT _ ht with h | ⟨k, _, hk⟩
          · exact h
          · cases hk
        rcases List.mem_append.mp hc with h | h
        · obtain ⟨e, he, hec⟩ := List.mem_map.mp h
          subst hec
          obtain ⟨ik, hik1, hik2, hik3⟩ := slot_key aroot stF hS hlookK e.1
            (dict_key_mem aroot i es hsub (keyStrings_trans aroot) e he)
          exact ⟨ik, hik1, hik2, hik3⟩
        · obtain ⟨e, he, hec⟩ := List.mem_map.mp h
          subst hec
          have h1 : e.2 ∈ subsOfEntries es :=
            mem_subsOfEntries es e he e.2 (self_mem_subsOf e.2)
          have h2 : e.2 ∈ subsOf (.aDict i es) := by
            rw [show subsOf (.aDict i es)
              = .aDict i es :: subsOfEntries es from rfl]
            exact List.mem_cons_of_mem _ h1
          obtain ⟨iv, hiv1, hiv2, hiv3⟩ := slot_resolve aroot stF hS hT hlook
            hnd hcrcA e.2 (subsOf_trans aroot _ hsub e.2 h2)
          exact ⟨iv, hiv1, hiv2, hiv3⟩
      | aArray i vs =>
        have hsub : AVal.aArray i vs ∈ subsOf aroot := by
          rcases hT _ ht with h | ⟨k, _, hk⟩
          · exact h
          · cases hk
        have h1 : c ∈ subsOfList vs := mem_subsOfList vs c hc c
          (self_mem_subsOf c)
        have h2 : c ∈ subsOf (.aArray i vs) := by
          rw [show subsOf (.aArray i vs)
            = .aArray i vs :: subsOfList vs from rfl]
          exact List.mem_cons_of_mem _ h1
        obtain ⟨iv, hiv1, hiv2, hiv3⟩ := slot_resolve aroot stF hS hT hlook
          hnd hcrcA c (subsOf_trans aroot _ hsub c h2)
        exact ⟨iv, hiv1, hiv2, hiv3⟩
      | aString s => cases hc
      | aNumber sg v2 => cases hc
      | aReal w b => cases hc
      | aBoolean b => cases hc
      | aData bs => cases hc
      | aDate d => cases hc
      | aUID u => cases hc
      | aNil => cases hc
  have hoffsgood : OffsGood ⟨bytes, ⟨[0, 0, 0, 0, 0], 0, intSize, refSize, N,
      top, OTO⟩, offsetsFrom 8 recs⟩ stF (offsetsFrom 8 recs) := by
    intro o ho
    obtain ⟨j, hjlt, hje⟩ := List.mem_iff_getElem.mp ho
    have hjN : j < N := by
      have := hjlt
      rw [offsetsFrom_length, hlenrecs] at this
      exact this
    refine ⟨j, by omega, ?_⟩
    show o = (offsetsFrom 8 recs).getD j 0
    rw [List.getD_eq_getElem?_getD, List.getElem?_eq_getElem hjlt]
    rw [← hje]
    rfl
  have hofflt : ∀ j, j < N →
      (offsetsFrom 8 recs).getD j 0 < OTO := by
    intro j hj
    have h := offAt_lt _ stF recs refSize hG j (by omega)
    simpa using h
  obtain ⟨f, rfl⟩ : ∃ f, fuel = f + 2 := ⟨fuel - 2, by omega⟩
  obtain ⟨st2, hst2, hmg2, hdg2, _, hcomp2⟩ := parseAllObjects_main _ stF recs
    refSize hG f (offsetsFrom 8 recs) ⟨[], []⟩ hoffsgood
    (by intro q hq; cases hq) (by intro o ho; cases ho)
  have hofflen : (offsetsFrom 8 recs).length = N := by
    rw [offsetsFrom_length, hlenrecs]
  have hcompj : ∀ j, j < N → (lookupObjrefs st2.objrefs
      ((offsetsFrom 8 recs).getD j 0)).isSome := by
    intro j hj
    exact hcomp2 _ (getD_mem _ j 0 (by omega))
  have hex := memo_exact _ stF recs refSize hG st2.objrefs hmg2
    (by intro j hj; exact hcompj j (by omega))
  apply parseDocument_eq bytes (f + 2)
    ⟨[0, 0, 0, 0, 0], 0, intSize, refSize, N, top, OTO⟩
    (offsetsFrom 8 recs) st2 (decA aroot)
  · rw [hbytes]
    simp [bplistHeader]
  · omega
  · rw [hbytes]
    rfl
  · rw [hbytes]
    rfl
  · omega
  · have hpre : bytes.length - 32 = (bplistHeader ++ recs.flatten
        ++ ((offsetsFrom 8 recs).map
          (fun o => beBytes intSize o)).flatten).length := by
      simp [bplistHeader, List.length_append, hotlen]
      omega
    rw [hpre]
    exact parseTrailer_at bytes _ intSize refSize N top OTO
      (by rw [hbytes]) (by omega) (by omega) (by omega)
      (by rw [htopj]; omega) hOTO64
  · unfold validateDocumentTrailer
    have htpos : bytes.length - 32 = 8 + recs.flatten.length + intSize * N := by
      omega
    have hintpos : 1 ≤ intSize := by omega
    have hcomm : N * intSize = intSize * N := Nat.mul_comm N intSize
    rw [if_neg (by show ¬ OTO ≥ _; omega)]
    rw [if_neg (by show ¬ OTO < 9; omega)]
    rw [if_neg (by
      show ¬ _ > u64 (N * intSize + OTO)
      unfold u64
      rw [Nat.mod_eq_of_lt (by omega)]
      omega)]
    rw [if_neg (by show ¬ N > _; omega)]
    rw [if_neg (by
      show ¬ N > goShl64 1 (8 * refSize % 256)
      unfold goShl64 u64
      rw [Nat.mod_eq_of_lt (show 8 * refSize < 256 by omega)]
      rw [if_neg (by omega)]
      rw [Nat.mod_eq_of_lt (by
        rw [Nat.one_mul]
        calc (2:Nat) ^ (8 * refSize) ≤ 2 ^ 32 := by
              apply Nat.pow_le_pow_right (by omega)
              omega
          _ < 2 ^ 64 := by norm_num)]
      rw [Nat.one_mul]
      omega)]
    rw [if_neg (by
      show ¬ (intSize < 8 ∧ goShl64 1 (8 * intSize % 256) ≤ OTO)
      rintro ⟨hi8, hile⟩
      rw [show (8 * intSize % 256) = 8 * intSize from
        Nat.mod_eq_of_lt (by omega)] at hile
      unfold goShl64 u64 at hile
      rw [if_neg (by omega)] at hile
      rw [Nat.mod_eq_of_lt (by
        rw [Nat.one_mul]
        calc (2:Nat) ^ (8 * intSize) ≤ 2 ^ 56 := by
              apply Nat.pow_le_pow_right (by omega)
              omega
          _ < 2 ^ 64 := by norm_num)] at hile
      rw [Nat.one_mul] at hile
      omega)]
    rw [if_neg (by show ¬ top ≥ N; rw [htopj]; omega)]
  · apply readOffsets_count bytes intSize (OTO - 1) N (offsetsFrom 8 recs)
      (bplistHeader ++ recs.flatten)
      (trailerBytes ⟨[0, 0, 0, 0, 0], 0, intSize, refSize, N, top, OTO⟩)
      OTO hofflen.symm
    · rw [hbytes]
      simp
    · simp [bplistHeader]
      omega
    · exact hintleg
    · intro o ho
      obtain ⟨j, hjN2, hoe⟩ := hoffsgood o ho
      dsimp only at hoe
      have hjN3 : j < N := by omega
      constructor
      · rw [hoe]
        have := hofflt j hjN3
        omega
      · rw [hoe]
        have := hofflt j hjN3
        omega
  · exact hst2
  · rw [List.all_eq_true]
    intro o ho
    obtain ⟨j, hjlt, hje⟩ := hdg2 o ho
    rw [hje]
    simp only [decide_eq_true_eq]
    exact hcompj j (by omega)
  · show resolveAtOffset (f + 2) st2.objrefs
      ((offsetsFrom 8 recs).getD top 0) = _
    rw [htopj]
    exact resolve_ok _ stF recs refSize hG st2.objrefs hex (f + 2) aroot
      (by omega) jroot hjrN hjr_slot

theorem roundtrip_core (v : cfValue) (fuel : Nat)
    (hwf : wfValue v = true)
    (hcrc : ∀ b1 ∈ dataPayloads v, ∀ b2 ∈ dataPayloads v,
      crc32 b1 = crc32 b2 → b1 = b2)
    (hfuel : depthC v + 2 ≤ fuel) :
    ∃ bytes, generateDocument v = .ok bytes
      ∧ (bytes.length < 2 ^ 32 →
          parseDocument bytes fuel = .ok (wireRound (sortTree v))) := by
  obtain ⟨aroot, ha⟩ : ∃ a, (annotateV (sortTree v) 0).1 = a := ⟨_, rfl⟩
  obtain ⟨stF, hstF⟩ : ∃ s, flattenPlistValue ⟨[], []⟩ aroot = s := ⟨_, rfl⟩
  obtain ⟨refSize, hrefSize⟩ :
    ∃ r, minimumSizeForInt stF.objtable.length = r := ⟨_, rfl⟩
  obtain ⟨recs, hrecs⟩ :
    ∃ r, stF.objtable.map (recOf stF.objmap refSize) = r := ⟨_, rfl⟩
  obtain ⟨OTO, hOTO⟩ : ∃ o, 8 + (recs.map List.length).sum = o := ⟨_, rfl⟩
  obtain ⟨intSize, hintSize⟩ : ∃ i, minimumSizeForInt OTO = i := ⟨_, rfl⟩
  obtain ⟨top, htop⟩ :
    ∃ t, (lookupObjmap stF.objmap (hashOfA aroot)).getD 0 = t := ⟨_, rfl⟩
  have hawfroot : awf aroot = true := by
    rw [← ha, awf_annotate]
    exact wf_sortTree v hwf
  have hfind : ∀ c ∈ subsOf aroot, findableKey (hashOfA c) = true := by
    intro c hc
    exact awf_findable c (awf_sub _ hawfroot c hc)
  obtain ⟨hS, hT, _, hlook, hlookK⟩ := flatten_main (subsOf aroot)
    (keyStringsOf aroot) ⟨[], []⟩ aroot
    (by intro p hp; cases hp) (by intro t ht; cases ht)
    (fun c hc => hc) (fun k hk => hk) hfind
  rw [hstF] at hS hT hlook hlookK
  have hnd : (idsOfA aroot).Nodup := by
    rw [← ha]
    exact (annotate_ids (sortTree v) 0).2.2
  have hcrcA : ∀ b1 ∈ dataPayloadsA aroot, ∀ b2 ∈ dataPayloadsA aroot,
      crc32 b1 = crc32 b2 → b1 = b2 := by
    have hpay : ∀ b, b ∈ dataPayloadsA aroot → b ∈ dataPayloads v := by
      intro b hb
      rw [← ha, dataPayloadsA_annotate] at hb
      exact dataPayloads_sortTree v b hb
    intro b1 h1 b2 h2 he
    exact hcrc b1 (hpay b1 h1) b2 (hpay b2 h2) he
  have hleg : refSize = 1 ∨ refSize = 2 ∨ refSize = 4 ∨ refSize = 8 := by
    rw [← hrefSize]
    exact minSize_legal _
  have hmap2 : stF.objtable.mapM (writePlistValue stF.objmap refSize)
      = .ok recs := by
    rw [← hrecs]
    exact exceptMapM_congr _ _ _
      (fun t ht => writePlistValue_ok stF.objmap refSize aroot t (hT t ht)
        hlook hlookK hleg)
  have hot2 : (offsetsFrom 8 recs).mapM (fun o => writeSizedInt o intSize)
      = .ok ((offsetsFrom 8 recs).map (fun o => beBytes intSize o)) := by
    exact exceptMapM_congr _ _ _
      (fun o _ => writeSizedInt_legal o intSize
        (by rw [← hintSize]; exact minSize_legal _))
  rw [← hintSize, ← hOTO] at hot2
  rw [← hrefSize] at hmap2
  rw [← hstF] at hmap2
  rw [← ha] at hmap2
  have henc := generateDocument_eq v recs
    ((offsetsFrom 8 recs).map (fun o =>
      beBytes (minimumSizeForInt (8 + (recs.map List.length).sum)) o))
    hmap2 hot2
  rw [ha, hstF, hrefSize, hOTO, hintSize, htop] at henc
  refine ⟨_, henc, ?_⟩
  intro hlen32
  have hdec : decA aroot = wireRound (sortTree v) := by
    rw [← ha]
    exact decA_annotate (sortTree v) 0
  have hfuelA : depthA aroot + 2 ≤ fuel := by
    rw [← ha, depthA_annotate, depthC_sortTree]
    exact hfuel
  have hp := parse_generated stF aroot recs fuel stF.objtable.length refSize
    OTO intSize top _ hS hT hlook hlookK hnd hcrcA hawfroot rfl
    (by rw [← hrefSize]) hrecs.symm (by rw [← hOTO]) (by rw [← hintSize])
    (by rw [← htop]) rfl hfuelA hlen32
  rw [hp, hdec]

/-- C1: round trip of the binary codec, as amended.  For every
well-formed value tree (64-bit-representable scalars, no NaN reals, no
nil, Unicode-scalar strings and keys) whose `Data` payloads have
collision-free checksums, encoding succeeds, and — for documents under
4 GiB, with enough fuel to cover the tree depth — decoding the encoding
yields the tree with every dictionary sorted by key and every integer's
signed flag cleared.  (The original claim promised the signed flag back;
the counterexample below shows it is lost.) -/
theorem claim1_binary_roundtrip (v : cfValue) (fuel : Nat)
    (hwf : wfValue v = true)
    (hcrc : ∀ b1 ∈ dataPayloads v, ∀ b2 ∈ dataPayloads v,
      crc32 b1 = crc32 b2 → b1 = b2)
    (hfuel : depthC v + 2 ≤ fuel) :
    ∃ bytes, generateDocument v = .ok bytes
      ∧ (bytes.length < 2 ^ 32 →
          parseDocument bytes fuel = .ok (wireRound (sortTree v))) :=
  roundtrip_core v fuel hwf hcrc hfuel

/-- The round-trip theorem applied to the boolean `true` as document
root. -/
theorem claim1_binary_roundtrip_witness :
    wfValue (.cfBoolean true) = true
    ∧ depthC (.cfBoolean true) + 2 ≤ 2
    ∧ ∃ bytes, generateDocument (.cfBoolean true) = .ok bytes
      ∧ (bytes.length < 2 ^ 32 →
          parseDocument bytes 2
            = .ok (wireRound (sortTree (.cfBoolean true)))) :=
  ⟨rfl, by decide,
    claim1_binary_roundtrip (.cfBoolean true) 2 rfl
      (by intro b1 h1; cases h1) (by decide)⟩

set_option exponentiation.threshold 3000 in
set_option maxRecDepth 8000 in
/-- Two losses refute the original claim's "structurally equal" round
trip.  First, the signed 64-bit integer 1 encodes to an unsigned-looking
record (tag `0x10`) and decodes unsigned: the `signed` flag does not
survive.  Second, a date one nanosecond after the Apple epoch encodes to
the `float64` seconds value `0.0` (the nanosecond is below the
resolution of `float64(UnixNano())` at that magnitude) and decodes to
the epoch exactly: sub-resolution fractions of a date are lost. -/
theorem claim1_counterexample :
    generateDocument (.cfNumber true 1)
      = .ok [98, 112, 108, 105, 115, 116, 48, 48, 16, 1, 8,
          0, 0, 0, 0, 0, 0, 1, 1,
          0, 0, 0, 0, 0, 0, 0, 1,
          0, 0, 0, 0, 0, 0, 0, 0,
          0, 0, 0, 0, 0, 0, 0, 10]
    ∧ parseDocument [98, 112, 108, 105, 115, 116, 48, 48, 16, 1, 8,
          0, 0, 0, 0, 0, 0, 1, 1,
          0, 0, 0, 0, 0, 0, 0, 1,
          0, 0, 0, 0, 0, 0, 0, 0,
          0, 0, 0, 0, 0, 0, 0, 10] 2 = .ok (.cfNumber false 1)
    ∧ cfValue.cfNumber false 1 ≠ .cfNumber true 1
    ∧ generateDocument (.cfDate (978307200000000001 : Int))
      = .ok [98, 112, 108, 105, 115, 116, 48, 48, 51,
          0, 0, 0, 0, 0, 0, 0, 0, 8,
          0, 0, 0, 0, 0, 0, 1, 1,
          0, 0, 0, 0, 0, 0, 0, 1,
          0, 0, 0, 0, 0, 0, 0, 0,
          0, 0, 0, 0, 0, 0, 0, 17]
    ∧ parseDocument [98, 112, 108, 105, 115, 116, 48, 48, 51,
          0, 0, 0, 0, 0, 0, 0, 0, 8,
          0, 0, 0, 0, 0, 0, 1, 1,
          0, 0, 0, 0, 0, 0, 0, 1,
          0, 0, 0, 0, 0, 0, 0, 0,
          0, 0, 0, 0, 0, 0, 0, 17] 2
        = .ok (.cfDate (978307200000000000 : Int))
    ∧ cfValue.cfDate (978307200000000000 : Int)
        ≠ .cfDate (978307200000000001 : Int) :=
  ⟨rfl, rfl, by simp, rfl, rfl, by simp⟩

end GoPlist
